import Mathlib

/-!
Verification of the AoC day-16 maze solver (`src/16/main.cpp`, `src/16/util.hpp`).

Shallow embedding conventions:
* Machine `int` becomes `Int`; array indices become `Nat`.
* The `dir_e` enum is kept as its underlying numeric value (`n = 0`, `s = 1`,
  `e = 2`, `w = 3`, `none = 4`, `path = 0xF0`), because the code manipulates it
  with bitwise `|`, `&`, `^`.
* The flat `tile_t*` array becomes a `List tile_t`; `map[i]` becomes
  `List.getD i default` (all source accesses are in bounds).
* `std::priority_queue<int, vector<int>, cmp>` is modelled as a `List Nat`
  frontier whose pop removes a minimal element under the same comparator
  (`state_t::operator>` on the current map), ties resolved to the earliest
  pushed element.
* File reading becomes a function of the file content, `Option (List (List
  Char))` (`none` models an unreadable file, a line is a `List Char`, blank
  lines are `[]`); file/console writing becomes returned values.
* The wall-clock stopwatch is an external utility (per the spec it is out of
  scope); its reading is passed to `solve` as the `elapsed` argument.
* Exceptions become `Except String`; the unbounded `while` loops take fuel, and
  `none` (fuel exhausted) models divergence.
-/

namespace AoC16

/-- `tile_e` from the source (`invalid, empty, wall, start, end`). -/
inductive tile_e : Type where
  | invalid : tile_e
  | empty : tile_e
  | wall : tile_e
  | start : tile_e
  | end_ : tile_e
deriving DecidableEq, Repr, Inhabited

/-- Numeric values of `dir_e`: north. -/
def dir_n : Nat := 0
/-- Numeric values of `dir_e`: south. -/
def dir_s : Nat := 1
/-- Numeric values of `dir_e`: east. -/
def dir_e : Nat := 2
/-- Numeric values of `dir_e`: west. -/
def dir_w : Nat := 3
/-- Numeric values of `dir_e`: none. -/
def dir_none : Nat := 4
/-- Numeric values of `dir_e`: the `path` flag `0xF0`. -/
def dir_path : Nat := 0xF0

/-- `ivec2`: integer 2D vector. -/
structure ivec2 : Type where
  x : Int
  y : Int
deriving DecidableEq, Repr, Inhabited

/-- `ivec2::operator+`. -/
def ivec2.add (a b : ivec2) : ivec2 := ⟨a.x + b.x, a.y + b.y⟩

/-- `state_t::moves`: north, south, east, west offsets, indexed by direction. -/
def state_moves (move_dir : Nat) : ivec2 :=
  if move_dir = 0 then ⟨0, -1⟩
  else if move_dir = 1 then ⟨0, 1⟩
  else if move_dir = 2 then ⟨1, 0⟩
  else ⟨-1, 0⟩

/-- `state_t`: per-tile search state (defaults are the `reset()` values). -/
structure state_t : Type where
  dir : Nat := 4
  g_cost : Int := 0
  h_cost : Int := 0
  p_idx : Nat := 0
deriving DecidableEq, Repr

/-- The default search state is the `reset()` state. -/
instance : Inhabited state_t := ⟨{}⟩

/-- `state_t::f_cost`. -/
def state_t.f_cost (s : state_t) : Int := s.g_cost + s.h_cost

/-- `state_t::operator>`: compare by f-cost, ties by h-cost. -/
def state_gt (a b : state_t) : Bool :=
  if a.f_cost = b.f_cost then decide (a.h_cost > b.h_cost)
  else decide (a.f_cost > b.f_cost)

/-- `tile_t`: tile kind, position, search state. -/
structure tile_t : Type where
  type : tile_e := .empty
  pos : ivec2 := ⟨0, 0⟩
  state : state_t := {}
deriving DecidableEq, Repr

/-- The default tile is a default-constructed `tile_t` (empty, reset state). -/
instance : Inhabited tile_t := ⟨{}⟩

/-- `maze_t` (the `tile_t*` array is a list; `solve_time` comes from the
external stopwatch). -/
structure maze_t : Type where
  size : ivec2 := ⟨0, 0⟩
  map : List tile_t := []
  solve_time : Int := 0
  search_count : Int := 0
  path_cost : Int := 0
deriving DecidableEq, Repr, Inhabited

/-- `maze_t::idx`: linear index of `(x, y)`. -/
def maze_t.lin (sx x y : Int) : Nat := (y * sx + x).toNat

/-- `maze_t::get` (read-only): tile at `(x, y)`. -/
def maze_t.get (m : maze_t) (x y : Int) : tile_t :=
  m.map.getD (maze_t.lin m.size.x x y) default

/-- `maze_t::char_to_tile`: the `switch` over the allowed characters. -/
def char_to_tile (c : Char) : tile_e :=
  if c = '.' then .empty
  else if c = '#' then .wall
  else if c = 'S' then .start
  else if c = 'E' then .end_
  else .invalid

/-- `maze_t::tile_to_char`: path tiles (other than start/end) render as
direction glyphs, everything else as its tile-kind glyph. -/
def tile_to_char (t : tile_t) : Char :=
  let masked_dir := t.state.dir ^^^ 0xF0
  let is_path := t.state.dir &&& 0xF0 > 0
  if is_path ∧ t.type ≠ .start ∧ t.type ≠ .end_ then
    if masked_dir = 0 then '^'
    else if masked_dir = 1 then 'v'
    else if masked_dir = 2 then '>'
    else if masked_dir = 3 then '<'
    else '?'
  else
    match t.type with
    | .empty => '.'
    | .wall => '#'
    | .start => 'S'
    | .end_ => 'E'
    | .invalid => '?'

/-- `std::abs` on `int`. -/
def iabs (z : Int) : Int := if z < 0 then -z else z

/-- `maze_t::heuristic`: Manhattan distance plus rotation penalties. -/
def heuristic (a b : tile_t) : Int :=
  let manhattan_dist := iabs (a.pos.x - b.pos.x) + iabs (a.pos.y - b.pos.y)
  let is_straight_path := a.pos.x = b.pos.x ∨ a.pos.y = b.pos.y
  let desired_dir : Nat :=
    if a.pos.x < b.pos.x then dir_e
    else if a.pos.x > b.pos.x then dir_w
    else if a.pos.y < b.pos.y then dir_s
    else dir_n
  let rotation_cost : Int := if a.state.dir ≠ desired_dir then 1000 else 0
  let rotation_cost := if ¬ is_straight_path then rotation_cost + 1000 else rotation_cost
  manhattan_dist + rotation_cost

/-- `util::read_file`: `none` = unreadable; drops blank lines; error if no
usable lines remain. -/
def read_file (file : Option (List (List Char))) : Except String (List (List Char)) :=
  match file with
  | none => .error "Failed to open file."
  | some ls =>
    let lines := ls.filter (fun l => ¬ l.isEmpty)
    if lines.isEmpty then .error "File is empty." else .ok lines

/-- One row of tiles (`x` is the starting column of `l`, `y` the row). -/
def row_tiles (y : Int) : Int → List Char → List tile_t
  | _, [] => []
  | x, c :: rest =>
    { type := char_to_tile c, pos := ⟨x, y⟩, state := {} } :: row_tiles y (x + 1) rest

/-- The row-major tile array built by `maze_t::load`'s nested fill loop. -/
def load_tiles : Int → List (List Char) → List tile_t
  | _, [] => []
  | y, l :: rest => row_tiles y 0 l ++ load_tiles (y + 1) rest

/-- `maze_t::load`: read lines, check uniform width, fill the tile array,
reject invalid characters (exceptions from `read_file` propagate). -/
def maze_t.load (file : Option (List (List Char))) : Except String maze_t :=
  match read_file file with
  | .error e => .error e
  | .ok lines =>
    let sy : Int := lines.length
    let sx : Int := (lines.headD []).length
    if lines.any (fun l => (l.length : Int) ≠ sx) then
      .error "Inconsistent row lengths in maze file."
    else
      let map := load_tiles 0 lines
      if map.any (fun t => t.type = tile_e.invalid) then
        .error "Invalid character in maze file."
      else
        .ok { size := ⟨sx, sy⟩, map := map }

/-- Comparator of the frontier: `map[a].state > map[b].state` (evaluated on
the current map, as the source lambda captures the map by reference). -/
def pq_lt (map : List tile_t) (a b : Nat) : Bool :=
  state_gt (map.getD b default).state (map.getD a default).state

/-- Scan for the minimal frontier element under the comparator (the element
`std::priority_queue::top()` yields: no other element compares strictly
smaller; ties go to the earliest pushed). -/
def pq_best (map : List tile_t) : List Nat → Nat → Nat
  | [], best => best
  | i :: rest, best => pq_best map rest (if pq_lt map i best then i else best)

/-- Pop the minimal element from the frontier list. -/
def pq_pop (map : List tile_t) (pq : List Nat) : Option (Nat × List Nat) :=
  match pq with
  | [] => none
  | h :: t =>
    let b := pq_best map t h
    some (b, (h :: t).erase b)

/-- One neighbor step of the expansion loop in `maze_t::solve`: bounds check,
wall check, move cost, relaxation (the heuristic is computed after `dir` and
`g_cost` are written, as in the source). Returns the updated map, frontier and
search counter. -/
def try_relax (sx sy : Int) (end_idx : Nat) (current_idx : Nat) (move_dir : Nat)
    (acc : List tile_t × List Nat × Int) : List tile_t × List Nat × Int :=
  let (map, pq, sc) := acc
  let current := map.getD current_idx default
  let n := current.pos.add (state_moves move_dir)
  if n.x < 0 ∨ n.x ≥ sx ∨ n.y < 0 ∨ n.y ≥ sy then (map, pq, sc)
  else
    let neighbor_idx := maze_t.lin sx n.x n.y
    let neighbor := map.getD neighbor_idx default
    if neighbor.type = tile_e.wall then (map, pq, sc)
    else
      let move_cost : Int := if current.state.dir ≠ move_dir then 1001 else 1
      let g_cost := current.state.g_cost + move_cost
      if neighbor.state.g_cost = 0 ∨ g_cost < neighbor.state.g_cost then
        let nb1 : tile_t :=
          { neighbor with state := { neighbor.state with dir := move_dir, g_cost := g_cost } }
        let h := heuristic nb1 (map.getD end_idx default)
        let nb2 : tile_t :=
          { nb1 with state := { nb1.state with h_cost := h, p_idx := current_idx } }
        (map.set neighbor_idx nb2, pq ++ [neighbor_idx], sc + 1)
      else (map, pq, sc)

/-- The `for (int move_dir = 0; move_dir < 4; ++move_dir)` expansion loop. -/
def expand4 (sx sy : Int) (end_idx : Nat) (current_idx : Nat)
    (acc : List tile_t × List Nat × Int) : List tile_t × List Nat × Int :=
  try_relax sx sy end_idx current_idx 3
    (try_relax sx sy end_idx current_idx 2
      (try_relax sx sy end_idx current_idx 1
        (try_relax sx sy end_idx current_idx 0 acc)))

/-- The `while (!pq.empty())` search loop of `maze_t::solve`, with fuel.
Returns `(map, search_count, path_cost)` where `path_cost = -1` means the
frontier emptied without reaching the end; `none` models divergence. -/
def solve_loop (sx sy : Int) (end_idx : Nat) :
    Nat → List tile_t → List Nat → Int → Option (List tile_t × Int × Int)
  | 0, _, _, _ => none
  | fuel + 1, map, pq, sc =>
    match pq_pop map pq with
    | none => some (map, sc, -1)
    | some (current_idx, pq') =>
      if current_idx = end_idx then
        some (map, sc, (map.getD current_idx default).state.g_cost)
      else
        let (map', pq'', sc') := expand4 sx sy end_idx current_idx (map, pq', sc)
        solve_loop sx sy end_idx fuel map' pq'' sc'

/-- The path-marking `while (true)` loop of `maze_t::solve`: OR the `path`
flag into the current tile's direction, step to the parent, stop on reaching
the start index. `none` models divergence. -/
def mark_path : Nat → List tile_t → Nat → Nat → Option (List tile_t)
  | 0, _, _, _ => none
  | fuel + 1, map, curr_idx, start_idx =>
    let t := map.getD curr_idx default
    let map' := map.set curr_idx
      { t with state := { t.state with dir := t.state.dir ||| 0xF0 } }
    let next := t.state.p_idx
    if next = start_idx then some map'
    else mark_path fuel map' next start_idx

/-- The start/end scan loop of `maze_t::solve` (`i` is the index of the list
head): every matching index overwrites the accumulator, so for duplicates the
last occurrence wins. -/
def locate_scan : Nat → Int × Int → List tile_t → Int × Int
  | _, se, [] => se
  | i, se, t :: rest =>
    locate_scan (i + 1)
      ((if t.type = tile_e.start then (i : Int) else se.1),
       (if t.type = tile_e.end_ then (i : Int) else se.2)) rest

/-- The start/end scan of `maze_t::solve`, starting from the sentinels `-1`. -/
def locate (map : List tile_t) : Int × Int := locate_scan 0 (-1, -1) map

/-- `state_t::reset` applied to a tile (all search-state fields back to their
defaults). -/
def reset_tile (t : tile_t) : tile_t := { t with state := {} }

/-- `maze_t::solve`: reset states, locate start/end (error if either is
missing), run the search, then reconstruct the path or report the no-path
diagnostic. Returns the updated maze plus the error-stream lines; the
stopwatch reading is the `elapsed` argument. -/
def maze_t.solve (fuel : Nat) (elapsed : Int) (m : maze_t) :
    Option (Except String (maze_t × List String)) :=
  let map0 := m.map.map reset_tile
  let se := locate map0
  if se.1 = -1 ∨ se.2 = -1 then
    some (.error "Maze must have a start (S) and an end (E).")
  else
    let start_idx := se.1.toNat
    let end_idx := se.2.toNat
    let st := map0.getD start_idx default
    let map1 := map0.set start_idx { st with state := { st.state with dir := 2 } }
    match solve_loop m.size.x m.size.y end_idx fuel map1 [start_idx] 1 with
    | none => none
    | some (map2, sc, cost) =>
      if cost = -1 then
        some (.ok ({ m with map := map2, solve_time := elapsed,
                            search_count := sc, path_cost := -1 },
                   ["No path found to the goal."]))
      else
        match mark_path fuel map2 end_idx start_idx with
        | none => none
        | some map3 =>
          some (.ok ({ m with map := map3, solve_time := elapsed,
                              search_count := sc, path_cost := cost }, []))

/-- The three summary lines built by `maze_t::print`. -/
def maze_t.summary (m : maze_t) : List String :=
  ["Dimensions: " ++ toString m.size.x ++ " x " ++ toString m.size.y,
   "Solved in: " ++ toString m.solve_time ++ " ms. Search count: " ++ toString m.search_count,
   "Best path cost " ++ toString m.path_cost ++ " points"]

/-- The rendered grid written by `maze_t::print` (row-major `tile_to_char`). -/
def maze_t.render_grid (m : maze_t) : List (List Char) :=
  (List.range m.size.y.toNat).map (fun y =>
    (List.range m.size.x.toNat).map (fun x =>
      tile_to_char (m.get (Int.ofNat x) (Int.ofNat y))))

/-- Observable outcome of one `main` run: exit code, console lines, the file
written (summary lines and grid rows), and the error-stream lines. -/
structure run_out : Type where
  exit_code : Nat
  console : List String
  file_out : Option (List String × List (List Char))
  err : List String
deriving DecidableEq, Repr, Inhabited

/-- `main`: load, solve, print; any exception is caught, printed as
`Error: ...` and turns into exit code 1. `none` models divergence. -/
def run (file : Option (List (List Char))) (fuel : Nat) (elapsed : Int) :
    Option run_out :=
  match maze_t.load file with
  | .error e =>
    some { exit_code := 1, console := [], file_out := none, err := ["Error: " ++ e] }
  | .ok m =>
    match m.solve fuel elapsed with
    | none => none
    | some (.error e) =>
      some { exit_code := 1, console := [], file_out := none, err := ["Error: " ++ e] }
    | some (.ok (m', diag)) =>
      some { exit_code := 0, console := m'.summary,
             file_out := some (m'.summary, m'.render_grid), err := diag }

/-! ## Helper lemmas about list indexing -/

theorem getD_set_self {α : Type} (l : List α) (i : Nat) (x d : α)
    (h : i < l.length) : (l.set i x).getD i d = x := by
  induction l generalizing i with
  | nil => simp at h
  | cons a l ih =>
    cases i with
    | zero => rfl
    | succ i => exact ih i (by simpa using h)

theorem getD_set_ne {α : Type} (l : List α) (i j : Nat) (x d : α)
    (h : i ≠ j) : (l.set i x).getD j d = l.getD j d := by
  induction l generalizing i j with
  | nil => simp [List.set]
  | cons a l ih =>
    cases i with
    | zero =>
      cases j with
      | zero => exact absurd rfl h
      | succ j => rfl
    | succ i =>
      cases j with
      | zero => rfl
      | succ j => exact ih i j (by omega)

theorem length_set_eq {α : Type} (l : List α) (i : Nat) (x : α) :
    (l.set i x).length = l.length := List.length_set l i x

/-! ## C5: the heuristic -/

/-- The desired direction as the claim words it: east if B is strictly right
of A, else west if strictly left, else south if strictly below, else north. -/
def desired_dir_claim (a b : tile_t) : Nat :=
  if b.pos.x > a.pos.x then dir_e
  else if b.pos.x < a.pos.x then dir_w
  else if b.pos.y > a.pos.y then dir_s
  else dir_n

/-- C5: for every pair of tiles A and B, `heuristic` returns
`|A.x - B.x| + |A.y - B.y|`, plus 1000 if A's facing differs from the desired
direction (east if B is strictly right of A, else west if strictly left, else
south if strictly below, else north), plus another 1000 if A and B share
neither x nor y coordinate. -/
theorem C5_heuristic_formula (a b : tile_t) :
    heuristic a b =
      iabs (a.pos.x - b.pos.x) + iabs (a.pos.y - b.pos.y)
      + (if a.state.dir ≠ desired_dir_claim a b then 1000 else 0)
      + (if a.pos.x ≠ b.pos.x ∧ a.pos.y ≠ b.pos.y then 1000 else 0) := by
  unfold heuristic desired_dir_claim dir_e dir_w dir_s dir_n
  dsimp only
  split_ifs <;> omega

/-! ## C2: neighbor move cost -/

/-- C2: during expansion of the tile at `current_idx`, for an in-bounds
non-wall neighbor, if the relaxation test passes (never assigned, or the
candidate is strictly cheaper) then the neighbor's stored `g_cost` afterwards
equals the current tile's `g_cost` plus a move cost that is exactly 1 if the
move direction equals the current tile's facing and exactly 1001 otherwise. -/
theorem C2_move_cost (sx sy : Int) (end_idx current_idx move_dir : Nat)
    (map : List tile_t) (pq : List Nat) (sc : Int)
    (hin : ¬(((map.getD current_idx default).pos.add (state_moves move_dir)).x < 0
        ∨ ((map.getD current_idx default).pos.add (state_moves move_dir)).x ≥ sx
        ∨ ((map.getD current_idx default).pos.add (state_moves move_dir)).y < 0
        ∨ ((map.getD current_idx default).pos.add (state_moves move_dir)).y ≥ sy))
    (hw : (map.getD (maze_t.lin sx
        ((map.getD current_idx default).pos.add (state_moves move_dir)).x
        ((map.getD current_idx default).pos.add (state_moves move_dir)).y) default).type
        ≠ tile_e.wall)
    (hlen : maze_t.lin sx
        ((map.getD current_idx default).pos.add (state_moves move_dir)).x
        ((map.getD current_idx default).pos.add (state_moves move_dir)).y < map.length)
    (hrelax : (map.getD (maze_t.lin sx
        ((map.getD current_idx default).pos.add (state_moves move_dir)).x
        ((map.getD current_idx default).pos.add (state_moves move_dir)).y) default).state.g_cost = 0
      ∨ (map.getD current_idx default).state.g_cost
          + (if (map.getD current_idx default).state.dir = move_dir then 1 else 1001)
        < (map.getD (maze_t.lin sx
            ((map.getD current_idx default).pos.add (state_moves move_dir)).x
            ((map.getD current_idx default).pos.add (state_moves move_dir)).y) default).state.g_cost) :
    ((try_relax sx sy end_idx current_idx move_dir (map, pq, sc)).1.getD
        (maze_t.lin sx
          ((map.getD current_idx default).pos.add (state_moves move_dir)).x
          ((map.getD current_idx default).pos.add (state_moves move_dir)).y) default).state.g_cost
      = (map.getD current_idx default).state.g_cost
        + (if (map.getD current_idx default).state.dir = move_dir then 1 else 1001) := by
  have hmc : (if (map.getD current_idx default).state.dir ≠ move_dir then (1001 : Int) else 1)
      = (if (map.getD current_idx default).state.dir = move_dir then 1 else 1001) := by
    by_cases h : (map.getD current_idx default).state.dir = move_dir <;> simp [h]
  unfold try_relax
  dsimp only
  rw [if_neg hin, if_neg hw, hmc, if_pos hrelax]
  dsimp only
  rw [getD_set_self _ _ _ _ hlen]

/-- The `S.E` maze's tile array just before the search loop starts (states
reset, start facing east): a shared concrete example. -/
def example_SdotE_map : List tile_t :=
  [{ type := .start, pos := ⟨0, 0⟩, state := { dir := 2 } },
   { type := .empty, pos := ⟨1, 0⟩, state := {} },
   { type := .end_, pos := ⟨2, 0⟩, state := {} }]

/-- Witness for C2 on a concrete map: the start tile of `S.E` expanding east
onto the empty tile, yielding g-cost `0 + 1 = 1`. -/
theorem C2_move_cost_witness :
    ((try_relax 3 1 2 0 2 (example_SdotE_map, [], 1)).1.getD
        (maze_t.lin 3
          ((example_SdotE_map.getD 0 default).pos.add (state_moves 2)).x
          ((example_SdotE_map.getD 0 default).pos.add (state_moves 2)).y) default).state.g_cost
      = (example_SdotE_map.getD 0 default).state.g_cost
        + (if (example_SdotE_map.getD 0 default).state.dir = 2 then 1 else 1001) :=
  C2_move_cost 3 1 2 0 2 example_SdotE_map [] 1
    (by decide) (by decide) (by decide) (Or.inl (by decide))

/-! ## Observers over the pipeline -/

/-- `load` followed by `solve`, with `main`'s exception propagation: a load
error short-circuits exactly like a thrown exception. -/
def load_then_solve (file : Option (List (List Char))) (fuel : Nat) (elapsed : Int) :
    Option (Except String (maze_t × List String)) :=
  match maze_t.load file with
  | .error e => some (.error e)
  | .ok m => m.solve fuel elapsed

/-- Does the pipeline throw (at load or at solve)? -/
def raises (file : Option (List (List Char))) (fuel : Nat) : Bool :=
  match load_then_solve file fuel 0 with
  | some (.error _) => true
  | _ => false

/-- The maze after an exception-free completed run, if any. -/
def solved_maze (file : Option (List (List Char))) (fuel : Nat) : Option maze_t :=
  match load_then_solve file fuel 0 with
  | some (.ok (m, _)) => some m
  | _ => none

/-! ## C3: duplicate start markers, missing end markers -/

/-- Boolean start test, as scanned by `maze_t::solve`. -/
def is_start (t : tile_t) : Bool := t.type = tile_e.start

/-- Boolean end test, as scanned by `maze_t::solve`. -/
def is_end (t : tile_t) : Bool := t.type = tile_e.end_

/-- Index of the last occurrence of `p` in the list (`-1` if none): the
spec-side description of what the overwrite-scan computes. -/
def last_index_of (p : tile_t → Bool) : List tile_t → Int
  | [] => -1
  | t :: rest =>
    let r := last_index_of p rest
    if r = -1 then (if p t then 0 else -1) else r + 1

theorem last_index_of_nonneg (p : tile_t → Bool) (l : List tile_t) :
    -1 ≤ last_index_of p l := by
  induction l with
  | nil => simp [last_index_of]
  | cons t rest ih =>
    simp only [last_index_of]
    split_ifs <;> omega

theorem locate_scan_eq (l : List tile_t) : ∀ (i : Nat) (se : Int × Int),
    locate_scan i se l =
      ((if last_index_of is_start l = -1 then se.1 else i + last_index_of is_start l),
       (if last_index_of is_end l = -1 then se.2 else i + last_index_of is_end l)) := by
  induction l with
  | nil => intro i se; simp [locate_scan, last_index_of]
  | cons t rest ih =>
    intro i se
    have h1 := last_index_of_nonneg is_start rest
    have h2 := last_index_of_nonneg is_end rest
    simp only [locate_scan, last_index_of, ih, is_start, is_end,
               decide_eq_true_eq, Prod.mk.injEq]
    constructor
    · split_ifs <;> first | contradiction | omega
    · split_ifs <;> first | contradiction | omega

/-- The scan of `maze_t::solve` yields the index of the last `S` and the last
`E` (or `-1` when absent). -/
theorem locate_eq_last_index (map : List tile_t) :
    locate map = (last_index_of is_start map, last_index_of is_end map) := by
  have h1 := last_index_of_nonneg is_start map
  have h2 := last_index_of_nonneg is_end map
  rw [locate, locate_scan_eq]
  simp only [Prod.mk.injEq]
  constructor <;> split_ifs <;> omega

theorem last_index_of_reset (p : tile_t → Bool)
    (hp : ∀ t, p (reset_tile t) = p t) (l : List tile_t) :
    last_index_of p (l.map reset_tile) = last_index_of p l := by
  induction l with
  | nil => rfl
  | cons t rest ih => simp only [List.map, last_index_of, ih, hp]

/-- `solve` throws the missing-start-or-end error exactly when the map has no
start tile or no end tile; duplicates are never rejected. -/
theorem solve_config_error_iff (m : maze_t) (fuel : Nat) (t : Int) :
    m.solve fuel t = some (.error "Maze must have a start (S) and an end (E).")
      ↔ (last_index_of is_start m.map = -1 ∨ last_index_of is_end m.map = -1) := by
  unfold maze_t.solve
  simp only [locate_eq_last_index, last_index_of_reset is_start (fun t => rfl),
             last_index_of_reset is_end (fun t => rfl)]
  split_ifs with h
  · simp [h]
  · simp only [iff_false, h]
    split
    · simp
    · split
      · simp
      · split <;> simp

/-- C3 counterexample: the maze `SSE` has two `S` characters, yet `solve`
raises nothing, and the reported cost is 1 — the cost from the *last* `S`
(from the first `S` the cost would be 2), refuting both the claimed
`ConfigError` and the claimed first-occurrence rule. -/
theorem C3_counterexample :
    raises (some [['S', 'S', 'E']]) 10 = false
    ∧ (solved_maze (some [['S', 'S', 'E']]) 10).map maze_t.path_cost = some 1 := by
  constructor <;> decide

/-- C3 (amended): the scan used by `solve` selects the *last* occurrence of
`S` and of `E`, and `solve` raises the configuration error exactly when the
maze has zero `S` or zero `E` tiles (duplicates are never rejected). -/
theorem C3_amended_last_occurrence (m : maze_t) (fuel : Nat) (t : Int) :
    locate (m.map.map reset_tile)
        = (last_index_of is_start m.map, last_index_of is_end m.map)
    ∧ (m.solve fuel t = some (.error "Maze must have a start (S) and an end (E).")
        ↔ (last_index_of is_start m.map = -1 ∨ last_index_of is_end m.map = -1)) := by
  refine ⟨?_, solve_config_error_iff m fuel t⟩
  rw [locate_eq_last_index,
      last_index_of_reset is_start (fun t => rfl),
      last_index_of_reset is_end (fun t => rfl)]

/-! ## C4: the start tile's state during the search -/

/-- C4 counterexample: in the maze `S.E` the search overwrites the start
tile's state (a neighbor relaxes back onto it, since its sentinel `g_cost` 0
reads as "unvisited"): after `solve` its `g_cost` is not 0 and its facing is
not east. -/
theorem C4_counterexample :
    (((solved_maze (some [['S', '.', 'E']]) 10).getD default).map.getD 0 default).state.g_cost ≠ 0
    ∧ (((solved_maze (some [['S', '.', 'E']]) 10).getD default).map.getD 0 default).state.dir ≠ 2 := by
  constructor <;> decide

/-- C4 (amended): the start tile is initialized to g-cost 0 facing east and
pushed before the loop, but nothing protects it afterwards: a neighbor
relaxation treats the sentinel zero as "unvisited" and overwrites it. In
`S.E` the start tile ends with g-cost 1002, facing west (3), parent 1. -/
theorem C4_amended_start_overwritten :
    (((solved_maze (some [['S', '.', 'E']]) 10).getD default).map.getD 0 default).state
      = { dir := 3, g_cost := 1002, h_cost := 1002, p_idx := 1 } := by
  decide

/-! ## C10: determinism of the pipeline across runs -/

/-- Blank out the `Solved in: ... ms` summary line (the only output that
depends on the wall-clock stopwatch). -/
def scrub_time (o : Option run_out) : Option run_out :=
  o.map (fun r =>
    { r with console := r.console.set 1 "",
             file_out := r.file_out.map (fun fo => (fo.1.set 1 "", fo.2)) })

/-- The stopwatch reading only lands in the `solve_time` field. -/
theorem solve_time_param (m : maze_t) (fuel : Nat) (t : Int) :
    m.solve fuel t
      = (m.solve fuel 0).map (Except.map (fun r => ({ r.1 with solve_time := t }, r.2))) := by
  simp only [maze_t.solve]
  split_ifs
  · rfl
  · split
    · rfl
    · split_ifs
      · rfl
      · split <;> rfl

/-- The scrubbed observable output does not depend on the stopwatch. -/
theorem run_scrub (file : Option (List (List Char))) (fuel : Nat) (t : Int) :
    scrub_time (run file fuel t) = scrub_time (run file fuel 0) := by
  unfold run
  cases hload : maze_t.load file with
  | error e => rfl
  | ok m =>
    dsimp only
    rw [solve_time_param m fuel t]
    cases hs : m.solve fuel 0 with
    | none => rfl
    | some r =>
      cases r with
      | error e => rfl
      | ok v =>
        obtain ⟨m', diag⟩ := v
        rfl

/-- C10 (amended): two runs on the same input agree on every output byte
except the `Solved in: {ms}` line (which reports the wall-clock stopwatch),
and runs with equal stopwatch readings are byte-identical. -/
theorem C10_amended_deterministic (file : Option (List (List Char))) (fuel : Nat)
    (t1 t2 : Int) :
    scrub_time (run file fuel t1) = scrub_time (run file fuel t2)
    ∧ (t1 = t2 → run file fuel t1 = run file fuel t2) :=
  ⟨(run_scrub file fuel t1).trans (run_scrub file fuel t2).symm,
   fun h => h ▸ rfl⟩

/-- Witness for C10: with equal stopwatch readings, two runs on the maze `SE`
agree, scrubbed and unscrubbed. -/
theorem C10_amended_deterministic_witness :
    scrub_time (run (some [['S', 'E']]) 10 5) = scrub_time (run (some [['S', 'E']]) 10 5)
    ∧ run (some [['S', 'E']]) 10 5 = run (some [['S', 'E']]) 10 5 :=
  ⟨(C10_amended_deterministic (some [['S', 'E']]) 10 5 5).1,
   (C10_amended_deterministic (some [['S', 'E']]) 10 5 5).2 rfl⟩

/-- C10 counterexample: the output contains the stopwatch reading (`Solved
in: {ms} ms`), so two runs of `load → solve → render` on the same input with
different stopwatch readings are not byte-identical. -/
theorem C10_counterexample :
    run (some [['S', 'E']]) 10 0 ≠ run (some [['S', 'E']]) 10 1 := by
  decide

/-! ## C8: load -/

/-- The usable lines of a file: what remains after dropping blank lines
(empty for an unreadable file). -/
def usable (file : Option (List (List Char))) : List (List Char) :=
  match file with
  | none => []
  | some ls => ls.filter (fun l => ¬ l.isEmpty)

theorem char_to_tile_invalid_iff (c : Char) :
    char_to_tile c = tile_e.invalid ↔ ¬(c = '.' ∨ c = '#' ∨ c = 'S' ∨ c = 'E') := by
  unfold char_to_tile
  split_ifs <;> simp_all

theorem row_tiles_invalid_iff (y : Int) (l : List Char) : ∀ (x : Int),
    ((∃ t ∈ row_tiles y x l, t.type = tile_e.invalid)
      ↔ ∃ c ∈ l, char_to_tile c = tile_e.invalid) := by
  induction l with
  | nil => intro x; simp [row_tiles]
  | cons c rest ih => intro x; simp [row_tiles, ih]

theorem load_tiles_invalid_iff (ls : List (List Char)) : ∀ (y : Int),
    ((∃ t ∈ load_tiles y ls, t.type = tile_e.invalid)
      ↔ ∃ l ∈ ls, ∃ c ∈ l, char_to_tile c = tile_e.invalid) := by
  induction ls with
  | nil => intro y; simp [load_tiles]
  | cons l rest ih =>
    intro y
    simp only [load_tiles]
    rw [List.exists_mem_cons_iff]
    constructor
    · rintro ⟨t, ht, hinv⟩
      rcases List.mem_append.mp ht with hrow | hrest
      · exact Or.inl ((row_tiles_invalid_iff y l 0).mp ⟨t, hrow, hinv⟩)
      · exact Or.inr ((ih (y + 1)).mp ⟨t, hrest, hinv⟩)
    · rintro (hrow | hrest)
      · rcases (row_tiles_invalid_iff y l 0).mpr hrow with ⟨t, ht, hinv⟩
        exact ⟨t, List.mem_append.mpr (Or.inl ht), hinv⟩
      · rcases (ih (y + 1)).mpr hrest with ⟨t, ht, hinv⟩
        exact ⟨t, List.mem_append.mpr (Or.inr ht), hinv⟩

/-- Normal form of `maze_t.load` on a readable file. -/
theorem load_some_eq (ls : List (List Char)) :
    maze_t.load (some ls) =
      (if (ls.filter (fun l => ¬ l.isEmpty)).isEmpty then
        .error "File is empty."
      else if (ls.filter (fun l => ¬ l.isEmpty)).any
          (fun l => (l.length : Int)
            ≠ (((ls.filter (fun l => ¬ l.isEmpty)).headD []).length : Int)) then
        .error "Inconsistent row lengths in maze file."
      else if (load_tiles 0 (ls.filter (fun l => ¬ l.isEmpty))).any
          (fun t => t.type = tile_e.invalid) then
        .error "Invalid character in maze file."
      else
        .ok { size := ⟨(((ls.filter (fun l => ¬ l.isEmpty)).headD []).length : Int),
                       ((ls.filter (fun l => ¬ l.isEmpty)).length : Int)⟩,
              map := load_tiles 0 (ls.filter (fun l => ¬ l.isEmpty)) }) := by
  by_cases h : (ls.filter (fun l => ¬ l.isEmpty)).isEmpty
  · show (match read_file (some ls) with
      | .error e => (.error e : Except String maze_t)
      | .ok lines => _) = _
    rw [show read_file (some ls) = .error "File is empty." from if_pos h, if_pos h]
  · show (match read_file (some ls) with
      | .error e => (.error e : Except String maze_t)
      | .ok lines => _) = _
    rw [show read_file (some ls) = .ok (ls.filter (fun l => ¬ l.isEmpty)) from if_neg h,
        if_neg h]

/-- C8: `load` fails exactly when the file is unreadable, has zero usable
lines after dropping blanks, has a row whose length differs from the first
row's, or contains a character outside `{., #, S, E}`; on success the grid
size is (first-line length, number of non-blank lines). -/
theorem C8_load_spec (file : Option (List (List Char))) :
    ((∃ e, maze_t.load file = .error e) ↔
      (file = none
        ∨ usable file = []
        ∨ (∃ l ∈ usable file, l.length ≠ ((usable file).headD []).length)
        ∨ (∃ l ∈ usable file, ∃ c ∈ l, ¬(c = '.' ∨ c = '#' ∨ c = 'S' ∨ c = 'E'))))
    ∧ (∀ m, maze_t.load file = .ok m →
        m.size.x = ((usable file).headD []).length
        ∧ m.size.y = (usable file).length) := by
  cases file with
  | none =>
    refine ⟨?_, ?_⟩
    · simp [maze_t.load, read_file]
    · intro m hm
      simp [maze_t.load, read_file] at hm
  | some ls =>
    rw [load_some_eq ls]
    have husable : usable (some ls) = ls.filter (fun l => ¬ l.isEmpty) := rfl
    rw [husable]
    constructor
    · constructor
      · intro ⟨e, he⟩
        revert he
        split_ifs with h1 h2 h3 <;> intro he
        · exact Or.inr (Or.inl (List.isEmpty_iff.mp h1))
        · refine Or.inr (Or.inr (Or.inl ?_))
          rcases List.any_eq_true.mp h2 with ⟨l, hl, hne⟩
          rw [decide_eq_true_eq] at hne
          exact ⟨l, hl, fun hc => hne (by exact_mod_cast hc)⟩
        · refine Or.inr (Or.inr (Or.inr ?_))
          have h3e : ∃ t ∈ load_tiles 0 (ls.filter (fun l => ¬ l.isEmpty)),
              t.type = tile_e.invalid := by
            rcases List.any_eq_true.mp h3 with ⟨t, ht, hp⟩
            exact ⟨t, ht, by simpa using hp⟩
          rcases (load_tiles_invalid_iff _ 0).mp h3e with ⟨l, hl, c, hc, hinv⟩
          exact ⟨l, hl, c, hc, (char_to_tile_invalid_iff c).mp hinv⟩
        · exact absurd he (by simp)
      · intro h
        rcases h with h | h | h | h
        · exact absurd h (by simp)
        · exact ⟨"File is empty.", by rw [if_pos (List.isEmpty_iff.mpr h)]⟩
        · rcases h with ⟨l, hl, hne⟩
          have hany : (ls.filter (fun l => ¬ l.isEmpty)).any
              (fun l => (l.length : Int)
                ≠ (((ls.filter (fun l => ¬ l.isEmpty)).headD []).length : Int)) = true := by
            refine List.any_eq_true.mpr ⟨l, hl, ?_⟩
            rw [decide_eq_true_eq]
            exact fun hc => hne (by exact_mod_cast hc)
          have hne0 : ¬ (ls.filter (fun l => ¬ l.isEmpty)).isEmpty = true := by
            intro hc
            rw [List.isEmpty_iff.mp hc] at hl
            exact absurd hl (List.not_mem_nil l)
          exact ⟨"Inconsistent row lengths in maze file.", by rw [if_neg hne0, if_pos hany]⟩
        · rcases h with ⟨l, hl, c, hc, hbad⟩
          have hinv : (load_tiles 0 (ls.filter (fun l => ¬ l.isEmpty))).any
              (fun t => t.type = tile_e.invalid) = true := by
            rcases (load_tiles_invalid_iff _ 0).mpr
              ⟨l, hl, c, hc, (char_to_tile_invalid_iff c).mpr hbad⟩ with ⟨t, ht, hinv⟩
            exact List.any_eq_true.mpr ⟨t, ht, by simpa using hinv⟩
          have hne0 : ¬ (ls.filter (fun l => ¬ l.isEmpty)).isEmpty = true := by
            intro hc
            rw [List.isEmpty_iff.mp hc] at hl
            exact absurd hl (List.not_mem_nil l)
          by_cases h2 : (ls.filter (fun l => ¬ l.isEmpty)).any
              (fun l => (l.length : Int)
                ≠ (((ls.filter (fun l => ¬ l.isEmpty)).headD []).length : Int)) = true
          · exact ⟨"Inconsistent row lengths in maze file.", by rw [if_neg hne0, if_pos h2]⟩
          · exact ⟨"Invalid character in maze file.",
              by rw [if_neg hne0, if_neg h2, if_pos hinv]⟩
    · intro m hm
      revert hm
      split_ifs <;> intro hm
      · exact absurd hm (by simp)
      · exact absurd hm (by simp)
      · exact absurd hm (by simp)
      · injection hm with hm
        subst hm
        exact ⟨rfl, rfl⟩

/-- Witness for C8: loading the concrete maze `SE` (with a dropped blank
line) succeeds with size 2 × 1. -/
theorem C8_load_spec_witness :
    ({ size := ⟨2, 1⟩, map := load_tiles 0 [['S', 'E']] } : maze_t).size.x
        = ((usable (some [[], ['S', 'E']])).headD []).length
      ∧ ({ size := ⟨2, 1⟩, map := load_tiles 0 [['S', 'E']] } : maze_t).size.y
        = (usable (some [[], ['S', 'E']])).length :=
  (C8_load_spec (some [[], ['S', 'E']])).2
    { size := ⟨2, 1⟩, map := load_tiles 0 [['S', 'E']] } (by rfl)

/-! ## State accessors and direction-range facts -/

/-- Direction of the tile at index `i`. -/
def dirv (map : List tile_t) (i : Nat) : Nat := (map.getD i default).state.dir

/-- g-cost of the tile at index `i`. -/
def gv (map : List tile_t) (i : Nat) : Int := (map.getD i default).state.g_cost

/-- Parent index of the tile at index `i`. -/
def pv (map : List tile_t) (i : Nat) : Nat := (map.getD i default).state.p_idx

/-- Tile kind at index `i`. -/
def typev (map : List tile_t) (i : Nat) : tile_e := (map.getD i default).type

/-- Position at index `i`. -/
def posv (map : List tile_t) (i : Nat) : ivec2 := (map.getD i default).pos

/-- Low nibble of a direction value (unaffected by the `0xF0` path flag). -/
def lown (d : Nat) : Nat := d &&& 15

/-- Directions reachable in a run: plain (`0..4`) or a flagged move
direction (`0xF0..0xF3`). -/
def okdir (d : Nat) : Prop := d ≤ 4 ∨ (240 ≤ d ∧ d ≤ 243)

theorem lown_eq_of_le (d : Nat) (h : d ≤ 4) : lown d = d := by
  interval_cases d <;> decide

theorem lown_flag (d : Nat) (h : d ≤ 4) : lown (d ||| 240) = d := by
  interval_cases d <;> decide

theorem lown_flag_flagged (d : Nat) (h : 240 ≤ d ∧ d ≤ 243) : d ||| 240 = d := by
  obtain ⟨h1, h2⟩ := h
  interval_cases d <;> decide

theorem okdir_flag (d : Nat) (h : okdir d) (hl : lown d < 4) : okdir (d ||| 240) := by
  rcases h with h | h
  · rw [lown_eq_of_le d h] at hl
    right
    interval_cases d <;> decide
  · rw [lown_flag_flagged d h]
    exact Or.inr h

theorem lown_flag_of_lown (d : Nat) (h : okdir d) : lown (d ||| 240) = lown d := by
  rcases h with h | h
  · rw [lown_flag d h, lown_eq_of_le d h]
  · rw [lown_flag_flagged d h]

theorem and_240_eq_zero_of_le (d : Nat) (h : d ≤ 4) : d &&& 240 = 0 := by
  interval_cases d <;> decide

/-- The four path glyphs. -/
def is_glyph (c : Char) : Prop := c = '^' ∨ c = 'v' ∨ c = '>' ∨ c = '<'

/-- A tile whose direction carries no path flag renders as its kind glyph,
never as a path glyph. -/
theorem tile_to_char_plain (t : tile_t) (h : t.state.dir ≤ 4) :
    tile_to_char t =
      (match t.type with
        | .empty => '.'
        | .wall => '#'
        | .start => 'S'
        | .end_ => 'E'
        | .invalid => '?') := by
  unfold tile_to_char
  rw [if_neg]
  intro ⟨hp, _⟩
  rw [and_240_eq_zero_of_le _ h] at hp
  exact absurd hp (by decide)

theorem tile_to_char_not_glyph (t : tile_t) (h : t.state.dir ≤ 4) :
    ¬ is_glyph (tile_to_char t) := by
  rw [tile_to_char_plain t h]
  cases t.type <;> simp only [is_glyph] <;> decide

/-- On a tile whose direction is in the reachable set and whose kind came
from a valid character, rendering yields a path glyph or the original
character. -/
theorem tile_to_char_cases (t : tile_t) (c : Char)
    (htype : t.type = char_to_tile c) (hval : char_to_tile c ≠ tile_e.invalid)
    (hdir : okdir t.state.dir) :
    is_glyph (tile_to_char t) ∨ tile_to_char t = c := by
  have hc : c = '.' ∨ c = '#' ∨ c = 'S' ∨ c = 'E' := by
    by_contra hbad
    exact hval ((char_to_tile_invalid_iff c).mpr hbad)
  rcases hdir with hd | hd
  · right
    rw [tile_to_char_plain t hd, htype]
    rcases hc with h | h | h | h <;> subst h <;> decide
  · obtain ⟨h1, h2⟩ := hd
    have hd4 : t.state.dir = 240 ∨ t.state.dir = 241 ∨ t.state.dir = 242
        ∨ t.state.dir = 243 := by omega
    have hp : t.state.dir &&& 0xF0 > 0 := by
      rcases hd4 with h | h | h | h <;> rw [h] <;> decide
    by_cases hse : t.type = tile_e.start ∨ t.type = tile_e.end_
    · right
      have hplain : tile_to_char t =
          (match t.type with
            | .empty => '.'
            | .wall => '#'
            | .start => 'S'
            | .end_ => 'E'
            | .invalid => '?') := by
        unfold tile_to_char
        rw [if_neg]
        rintro ⟨_, hns, hne⟩
        rcases hse with h | h
        · exact hns h
        · exact hne h
      rw [hplain, htype]
      rcases hc with h | h | h | h <;> subst h <;> decide
    · left
      push_neg at hse
      unfold tile_to_char
      rw [if_pos ⟨hp, hse.1, hse.2⟩]
      rcases hd4 with h | h | h | h <;> rw [h] <;> simp only [is_glyph] <;> decide

/-! ## Structure of the loaded tile array -/

theorem row_tiles_length (y : Int) (l : List Char) : ∀ (x : Int),
    (row_tiles y x l).length = l.length := by
  induction l with
  | nil => intro x; rfl
  | cons c rest ih => intro x; simp [row_tiles, ih]

theorem row_tiles_getD (y : Int) (l : List Char) : ∀ (x0 : Int) (i : Nat), i < l.length →
    (row_tiles y x0 l).getD i default
      = { type := char_to_tile (l.getD i ' '), pos := ⟨x0 + i, y⟩, state := {} } := by
  induction l with
  | nil => intro x0 i h; simp at h
  | cons c rest ih =>
    intro x0 i h
    cases i with
    | zero => simp [row_tiles]
    | succ i =>
      have hstep : (row_tiles y x0 (c :: rest)).getD (i + 1) default
          = (row_tiles y (x0 + 1) rest).getD i default := rfl
      rw [hstep, ih (x0 + 1) i (by simpa using h)]
      have : x0 + 1 + (i : Int) = x0 + ((i : Nat) + 1 : Nat) := by push_cast; ring
      simp [this]

theorem load_tiles_length (sx : Nat) : ∀ (ls : List (List Char)) (y : Int),
    (∀ l ∈ ls, l.length = sx) → (load_tiles y ls).length = ls.length * sx := by
  intro ls
  induction ls with
  | nil => intro y _; simp [load_tiles]
  | cons l rest ih =>
    intro y huni
    simp only [load_tiles, List.length_append, row_tiles_length,
               huni l (List.mem_cons_self l rest),
               ih (y + 1) (fun l2 h2 => huni l2 (List.mem_cons_of_mem l h2))]
    simp [List.length_cons]
    ring

theorem load_tiles_getD (sx : Nat) : ∀ (ls : List (List Char)) (y0 : Int) (yy x : Nat),
    (∀ l ∈ ls, l.length = sx) → yy < ls.length → x < sx →
    (load_tiles y0 ls).getD (yy * sx + x) default
      = { type := char_to_tile ((ls.getD yy []).getD x ' '),
          pos := ⟨(x : Int), y0 + yy⟩, state := {} } := by
  intro ls
  induction ls with
  | nil => intro y0 yy x _ hy; simp at hy
  | cons l rest ih =>
    intro y0 yy x huni hy hx
    have hl : l.length = sx := huni l (List.mem_cons_self l rest)
    cases yy with
    | zero =>
      simp only [load_tiles, Nat.zero_mul, Nat.zero_add]
      rw [List.getD_append _ _ _ _ (by rw [row_tiles_length]; omega)]
      rw [row_tiles_getD y0 l 0 x (by omega)]
      simp
    | succ yy =>
      simp only [load_tiles]
      rw [List.getD_append_right _ _ _ _ (by rw [row_tiles_length]; nlinarith)]
      have harith : (yy + 1) * sx + x - (row_tiles y0 0 l).length = yy * sx + x := by
        rw [row_tiles_length, hl]; ring_nf; omega
      rw [harith, ih (y0 + 1) yy x (fun l2 h2 => huni l2 (List.mem_cons_of_mem l h2))
            (by simpa using hy) hx]
      have : y0 + 1 + (yy : Int) = y0 + ((yy : Nat) + 1 : Nat) := by push_cast; ring
      simp [this]

/-- All the facts a successful `load` guarantees. -/
theorem load_ok_facts (file : Option (List (List Char))) (m : maze_t)
    (h : maze_t.load file = .ok m) :
    m.size.x = (((usable file).headD []).length : Int)
    ∧ m.size.y = ((usable file).length : Int)
    ∧ m.map = load_tiles 0 (usable file)
    ∧ (∀ l ∈ usable file, l.length = ((usable file).headD []).length)
    ∧ (∀ t ∈ m.map, t.type ≠ tile_e.invalid)
    ∧ usable file ≠ []
    ∧ (∀ l ∈ usable file, ¬ l.isEmpty) := by
  cases file with
  | none => exact absurd h (by simp [maze_t.load, read_file])
  | some ls =>
    rw [load_some_eq ls] at h
    have husable : usable (some ls) = ls.filter (fun l => ¬ l.isEmpty) := rfl
    rw [husable]
    revert h
    split_ifs with h1 h2 h3 <;> intro h
    · exact absurd h (by simp)
    · exact absurd h (by simp)
    · exact absurd h (by simp)
    · injection h with h
      subst h
      refine ⟨rfl, rfl, rfl, ?_, ?_, ?_, ?_⟩
      · intro l hl
        by_contra hne
        exact h2 (List.any_eq_true.mpr ⟨l, hl, by
          rw [decide_eq_true_eq]
          exact fun hc => hne (by exact_mod_cast hc)⟩)
      · intro t ht hinv
        exact h3 (List.any_eq_true.mpr ⟨t, ht, by simpa using hinv⟩)
      · intro hc
        rw [hc] at h1
        exact h1 rfl
      · intro l hl
        have := List.of_mem_filter hl
        simpa using this

/-! ## Characterization of one relaxation step -/

/-- Neighbor position probed when expanding `ci` in direction `md`. -/
def npos (map : List tile_t) (ci md : Nat) : ivec2 :=
  (map.getD ci default).pos.add (state_moves md)

/-- Linear index of that neighbor. -/
def nbidx (sx : Int) (map : List tile_t) (ci md : Nat) : Nat :=
  maze_t.lin sx (npos map ci md).x (npos map ci md).y

/-- The move cost used by the relaxation (source orientation of the test). -/
def mcost (map : List tile_t) (ci md : Nat) : Int :=
  if (map.getD ci default).state.dir ≠ md then 1001 else 1

/-- Candidate g-cost for the neighbor. -/
def cand (map : List tile_t) (ci md : Nat) : Int :=
  (map.getD ci default).state.g_cost + mcost map ci md

/-- The updated neighbor tile written by a fired relaxation. -/
def relaxed_tile (sx : Int) (e : Nat) (map : List tile_t) (ci md : Nat) : tile_t :=
  let neighbor := map.getD (nbidx sx map ci md) default
  let nb1 : tile_t :=
    { neighbor with state := { neighbor.state with dir := md, g_cost := cand map ci md } }
  { nb1 with state := { nb1.state with
      h_cost := heuristic nb1 (map.getD e default), p_idx := ci } }

theorem try_relax_oob (sx sy : Int) (e ci md : Nat) (map : List tile_t)
    (pq : List Nat) (sc : Int)
    (hb : (npos map ci md).x < 0 ∨ (npos map ci md).x ≥ sx
        ∨ (npos map ci md).y < 0 ∨ (npos map ci md).y ≥ sy) :
    try_relax sx sy e ci md (map, pq, sc) = (map, pq, sc) := by
  unfold npos at hb
  unfold try_relax
  dsimp only
  rw [if_pos hb]

theorem try_relax_wall (sx sy : Int) (e ci md : Nat) (map : List tile_t)
    (pq : List Nat) (sc : Int)
    (hb : ¬((npos map ci md).x < 0 ∨ (npos map ci md).x ≥ sx
        ∨ (npos map ci md).y < 0 ∨ (npos map ci md).y ≥ sy))
    (hw : (map.getD (nbidx sx map ci md) default).type = tile_e.wall) :
    try_relax sx sy e ci md (map, pq, sc) = (map, pq, sc) := by
  unfold npos at hb
  unfold nbidx npos at hw
  unfold try_relax
  dsimp only
  rw [if_neg hb, if_pos hw]

theorem try_relax_nofire (sx sy : Int) (e ci md : Nat) (map : List tile_t)
    (pq : List Nat) (sc : Int)
    (hb : ¬((npos map ci md).x < 0 ∨ (npos map ci md).x ≥ sx
        ∨ (npos map ci md).y < 0 ∨ (npos map ci md).y ≥ sy))
    (hw : ¬(map.getD (nbidx sx map ci md) default).type = tile_e.wall)
    (hf : ¬((map.getD (nbidx sx map ci md) default).state.g_cost = 0
        ∨ cand map ci md < (map.getD (nbidx sx map ci md) default).state.g_cost)) :
    try_relax sx sy e ci md (map, pq, sc) = (map, pq, sc) := by
  unfold npos at hb
  unfold nbidx npos at hw
  unfold cand mcost nbidx npos at hf
  unfold try_relax
  dsimp only
  rw [if_neg hb, if_neg hw, if_neg hf]

theorem try_relax_fired (sx sy : Int) (e ci md : Nat) (map : List tile_t)
    (pq : List Nat) (sc : Int)
    (hb : ¬((npos map ci md).x < 0 ∨ (npos map ci md).x ≥ sx
        ∨ (npos map ci md).y < 0 ∨ (npos map ci md).y ≥ sy))
    (hw : ¬(map.getD (nbidx sx map ci md) default).type = tile_e.wall)
    (hf : (map.getD (nbidx sx map ci md) default).state.g_cost = 0
        ∨ cand map ci md < (map.getD (nbidx sx map ci md) default).state.g_cost) :
    try_relax sx sy e ci md (map, pq, sc)
      = (map.set (nbidx sx map ci md) (relaxed_tile sx e map ci md),
         pq ++ [nbidx sx map ci md], sc + 1) := by
  unfold npos at hb
  unfold nbidx npos at hw
  unfold cand mcost nbidx npos at hf
  unfold try_relax
  dsimp only
  rw [if_neg hb, if_neg hw, if_pos hf]
  rfl

/-! ## The termination measure and the loop invariant -/

/-- Number of tiles with an assigned (nonzero) g-cost. -/
def assigned (map : List tile_t) : Nat := map.countP (fun t => t.state.g_cost ≠ 0)

/-- Upper bound placeholder for unassigned tiles in the measure. -/
def Bnd (N : Nat) : Nat := 1001 * N + 1

/-- Measure contribution of one tile. -/
def gval (Bv : Nat) (t : tile_t) : Nat :=
  if t.state.g_cost = 0 then Bv else t.state.g_cost.toNat

/-- Sum of the per-tile measure contributions. -/
def gsum (Bv : Nat) (map : List tile_t) : Nat := (map.map (gval Bv)).sum

/-- The loop measure: relaxations and pops both decrease it. -/
def Msr (map : List tile_t) (pq : List Nat) : Nat :=
  2 * gsum (Bnd map.length) map + pq.length

theorem countP_set (p : tile_t → Bool) (map : List tile_t) :
    ∀ (i : Nat) (x : tile_t), i < map.length →
    (map.set i x).countP p + (if p (map.getD i default) then 1 else 0)
      = map.countP p + (if p x then 1 else 0) := by
  induction map with
  | nil => intro i x h; simp at h
  | cons a l ih =>
    intro i x h
    cases i with
    | zero => simp [List.countP_cons]; split_ifs <;> omega
    | succ i =>
      have hstep : ((a :: l).set (i + 1) x) = a :: l.set i x := rfl
      rw [hstep]
      simp only [List.countP_cons, List.getD_cons_succ]
      have := ih i x (by simpa using h)
      split_ifs at this ⊢ <;> omega

theorem gsum_set (Bv : Nat) (map : List tile_t) :
    ∀ (i : Nat) (x : tile_t), i < map.length →
    gsum Bv (map.set i x) + gval Bv (map.getD i default)
      = gsum Bv map + gval Bv x := by
  induction map with
  | nil => intro i x h; simp at h
  | cons a l ih =>
    intro i x h
    cases i with
    | zero => simp [gsum]; omega
    | succ i =>
      have hstep : ((a :: l).set (i + 1) x) = a :: l.set i x := rfl
      rw [hstep]
      simp only [gsum, List.map_cons, List.sum_cons, List.getD_cons_succ]
      have := ih i x (by simpa using h)
      simp only [gsum] at this
      omega

/-- Map-only part of the search-loop invariant. -/
structure InvMap (sx sy : Int) (s : Nat) (map : List tile_t) : Prop where
  hsx : 0 < sx
  hsy : 0 < sy
  len : map.length = (sx * sy).toNat
  pos_law : ∀ i, i < map.length → posv map i = ⟨(i : Int) % sx, (i : Int) / sx⟩
  dir_le : ∀ i, dirv map i ≤ 4
  g_nonneg : ∀ i, 0 ≤ gv map i
  g_pos : ∀ i, i ≠ s → dirv map i < 4 → 1 ≤ gv map i
  g_bound : ∀ i, gv map i ≤ 1001 * (assigned map : Int)
  parent : ∀ i, i ≠ s → dirv map i < 4 →
      (pv map i = s
        ∨ (dirv map (pv map i) < 4 ∧ gv map (pv map i) < gv map i
            ∧ pv map i < map.length))

/-- Full loop invariant: map invariant plus frontier membership facts. -/
def Inv (sx sy : Int) (s : Nat) (map : List tile_t) (pq : List Nat) : Prop :=
  InvMap sx sy s map ∧ ∀ j ∈ pq, j < map.length ∧ (j = s ∨ dirv map j < 4)

/-- In-bounds neighbor expansion lands on a different, in-range index. -/
theorem nbidx_facts (sx sy : Int) (s ci md : Nat) (map : List tile_t)
    (inv : InvMap sx sy s map) (hci : ci < map.length) (hmd : md < 4)
    (hb : ¬((npos map ci md).x < 0 ∨ (npos map ci md).x ≥ sx
        ∨ (npos map ci md).y < 0 ∨ (npos map ci md).y ≥ sy)) :
    nbidx sx map ci md < map.length ∧ nbidx sx map ci md ≠ ci := by
  push_neg at hb
  obtain ⟨hx0, hx1, hy0, hy1⟩ := hb
  set nx := (npos map ci md).x with hnx
  set ny := (npos map ci md).y with hny
  have hk0 : 0 ≤ ny * sx + nx := by
    have := mul_nonneg hy0 (le_of_lt inv.hsx)
    omega
  have hkb : ny * sx + nx < sx * sy := by
    have h1 : (ny + 1) * sx ≤ sy * sx :=
      mul_le_mul_of_nonneg_right (by omega) (le_of_lt inv.hsx)
    nlinarith
  have hlt : nbidx sx map ci md < map.length := by
    rw [inv.len]
    unfold nbidx maze_t.lin
    rw [← hnx, ← hny]
    omega
  refine ⟨hlt, ?_⟩
  have hcast : ((nbidx sx map ci md : Nat) : Int) = ny * sx + nx := by
    unfold nbidx maze_t.lin
    rw [← hnx, ← hny]
    exact Int.toNat_of_nonneg hk0
  have hposn : posv map (nbidx sx map ci md) = npos map ci md := by
    rw [inv.pos_law _ hlt, hcast]
    have hxm : (ny * sx + nx) % sx = nx := by
      rw [add_comm, mul_comm]
      rw [Int.add_mul_emod_self_left]
      exact Int.emod_eq_of_lt hx0 hx1
    have hxd : (ny * sx + nx) / sx = ny := by
      rw [add_comm]
      rw [Int.add_mul_ediv_right _ _ (by omega : sx ≠ 0)]
      rw [Int.ediv_eq_zero_of_lt hx0 hx1]
      omega
    rw [hxm, hxd]
  intro hceq
  rw [hceq] at hposn
  have hcontra : posv map ci = (posv map ci).add (state_moves md) :=
    hposn.trans (by rfl)
  have hmove : state_moves md = ⟨0, -1⟩ ∨ state_moves md = ⟨0, 1⟩
      ∨ state_moves md = ⟨1, 0⟩ ∨ state_moves md = ⟨-1, 0⟩ := by
    unfold state_moves
    split_ifs <;> simp
  rcases hp : posv map ci with ⟨px, py⟩
  rw [hp] at hcontra
  rcases hmove with hm | hm | hm | hm <;>
    (rw [hm] at hcontra;
     simp only [ivec2.add, ivec2.mk.injEq] at hcontra;
     omega)

/-- One relaxation step preserves the loop invariant, never grows the
measure, and keeps tile kinds, positions and assigned directions. -/
theorem try_relax_inv (sx sy : Int) (s e ci md : Nat) (map : List tile_t)
    (pq : List Nat) (sc : Int)
    (inv : Inv sx sy s map pq)
    (hmd : md < 4)
    (hci : ci < map.length)
    (hcd : ci = s ∨ dirv map ci < 4) :
    Inv sx sy s (try_relax sx sy e ci md (map, pq, sc)).1
        (try_relax sx sy e ci md (map, pq, sc)).2.1
    ∧ (try_relax sx sy e ci md (map, pq, sc)).1.length = map.length
    ∧ (∀ i, typev (try_relax sx sy e ci md (map, pq, sc)).1 i = typev map i)
    ∧ (∀ i, posv (try_relax sx sy e ci md (map, pq, sc)).1 i = posv map i)
    ∧ (∀ i, dirv map i < 4 → dirv (try_relax sx sy e ci md (map, pq, sc)).1 i < 4)
    ∧ Msr (try_relax sx sy e ci md (map, pq, sc)).1
          (try_relax sx sy e ci md (map, pq, sc)).2.1 ≤ Msr map pq := by
  obtain ⟨invm, hpq⟩ := inv
  by_cases hb : ((npos map ci md).x < 0 ∨ (npos map ci md).x ≥ sx
      ∨ (npos map ci md).y < 0 ∨ (npos map ci md).y ≥ sy)
  · rw [try_relax_oob sx sy e ci md map pq sc hb]
    exact ⟨⟨invm, hpq⟩, rfl, fun i => rfl, fun i => rfl, fun i h => h, le_refl _⟩
  · by_cases hw : (map.getD (nbidx sx map ci md) default).type = tile_e.wall
    · rw [try_relax_wall sx sy e ci md map pq sc hb hw]
      exact ⟨⟨invm, hpq⟩, rfl, fun i => rfl, fun i => rfl, fun i h => h, le_refl _⟩
    by_cases hf : ((map.getD (nbidx sx map ci md) default).state.g_cost = 0
        ∨ cand map ci md < (map.getD (nbidx sx map ci md) default).state.g_cost)
    swap
    · rw [try_relax_nofire sx sy e ci md map pq sc hb hw hf]
      exact ⟨⟨invm, hpq⟩, rfl, fun i => rfl, fun i => rfl, fun i h => h, le_refl _⟩
    rw [try_relax_fired sx sy e ci md map pq sc hb hw hf]
    dsimp only
    obtain ⟨hnb_lt, hnb_ne⟩ := nbidx_facts sx sy s ci md map invm hci hmd hb
    set ni := nbidx sx map ci md with hni
    set nt := relaxed_tile sx e map ci md with hnt
    have hget_ni : (map.set ni nt).getD ni default = nt := getD_set_self _ _ _ _ hnb_lt
    have hget_ne : ∀ j, j ≠ ni → (map.set ni nt).getD j default = map.getD j default :=
      fun j hj => getD_set_ne _ _ _ _ _ (fun h => hj h.symm)
    have hnt_dir : nt.state.dir = md := rfl
    have hnt_g : nt.state.g_cost = cand map ci md := rfl
    have hnt_p : nt.state.p_idx = ci := rfl
    have hnt_type : nt.type = (map.getD ni default).type := rfl
    have hnt_pos : nt.pos = (map.getD ni default).pos := rfl
    have hposv : ∀ i, posv (map.set ni nt) i = posv map i := by
      intro i
      by_cases h : i = ni
      · subst h; unfold posv; rw [hget_ni, hnt_pos]
      · unfold posv; rw [hget_ne i h]
    have htypev : ∀ i, typev (map.set ni nt) i = typev map i := by
      intro i
      by_cases h : i = ni
      · subst h; unfold typev; rw [hget_ni, hnt_type]
      · unfold typev; rw [hget_ne i h]
    have hdirv_ni : dirv (map.set ni nt) ni = md := by
      unfold dirv; rw [hget_ni, hnt_dir]
    have hdirv : ∀ i, i ≠ ni → dirv (map.set ni nt) i = dirv map i := by
      intro i h; unfold dirv; rw [hget_ne i h]
    have hgv_ni : gv (map.set ni nt) ni = cand map ci md := by
      unfold gv; rw [hget_ni, hnt_g]
    have hgv : ∀ i, i ≠ ni → gv (map.set ni nt) i = gv map i := by
      intro i h; unfold gv; rw [hget_ne i h]
    have hpv_ni : pv (map.set ni nt) ni = ci := by
      unfold pv; rw [hget_ni, hnt_p]
    have hpv : ∀ i, i ≠ ni → pv (map.set ni nt) i = pv map i := by
      intro i h; unfold pv; rw [hget_ne i h]
    have hmc1 : 1 ≤ mcost map ci md := by unfold mcost; split_ifs <;> omega
    have hmc2 : mcost map ci md ≤ 1001 := by unfold mcost; split_ifs <;> omega
    have hgci : gv map ci = (map.getD ci default).state.g_cost := rfl
    have hcand1 : 1 ≤ cand map ci md := by
      have h0 := invm.g_nonneg ci
      rw [hgci] at h0
      unfold cand
      omega
    have hA : assigned (map.set ni nt)
        = assigned map + (if (map.getD ni default).state.g_cost = 0 then 1 else 0) := by
      have hcnt := countP_set (fun t => t.state.g_cost ≠ 0) map ni nt hnb_lt
      unfold assigned
      simp only [decide_eq_true_eq, hnt_g] at hcnt
      split_ifs at hcnt ⊢ <;> omega
    have hAle : assigned map ≤ assigned (map.set ni nt) := by
      rw [hA]; split_ifs <;> omega
    have hAlt : (map.getD ni default).state.g_cost = 0 → assigned map < map.length := by
      intro hg0
      by_contra hge
      push_neg at hge
      have hle : assigned map = map.length :=
        Nat.le_antisymm (List.countP_le_length _) hge
      have hall := List.countP_eq_length.mp hle
      have hmem : map.getD ni default ∈ map := by
        rw [List.getD_eq_getElem _ _ hnb_lt]
        exact List.getElem_mem hnb_lt
      have := hall _ hmem
      simp only [decide_eq_true_eq] at this
      exact this hg0
    have hcand_le : cand map ci md ≤ 1001 * ((assigned (map.set ni nt) : Nat) : Int) := by
      rcases hf with hg0 | hlt2
      · have hgb := invm.g_bound ci
        rw [hgci] at hgb
        rw [hA, if_pos hg0]
        unfold cand
        push_cast
        omega
      · have hgb := invm.g_bound ni
        have hgni : gv map ni = (map.getD ni default).state.g_cost := rfl
        rw [hgni] at hgb
        have hA' : (assigned map : Int) ≤ ((assigned (map.set ni nt) : Nat) : Int) := by
          exact_mod_cast hAle
        omega
    refine ⟨⟨⟨invm.hsx, invm.hsy, ?_, ?_, ?_, ?_, ?_, ?_, ?_⟩, ?_⟩, ?_, htypev, hposv, ?_, ?_⟩
    · rw [length_set_eq, invm.len]
    · intro i hi
      rw [hposv i]
      exact invm.pos_law i (by rwa [length_set_eq] at hi)
    · intro i
      by_cases h : i = ni
      · subst h; rw [hdirv_ni]; omega
      · rw [hdirv i h]; exact invm.dir_le i
    · intro i
      by_cases h : i = ni
      · subst h; rw [hgv_ni]; omega
      · rw [hgv i h]; exact invm.g_nonneg i
    · intro i hi hd
      by_cases h : i = ni
      · subst h; rw [hgv_ni]; omega
      · rw [hgv i h]
        exact invm.g_pos i hi (by rwa [hdirv i h] at hd)
    · intro i
      by_cases h : i = ni
      · subst h; rw [hgv_ni]; exact hcand_le
      · rw [hgv i h]
        have := invm.g_bound i
        have hA' : (assigned map : Int) ≤ ((assigned (map.set ni nt) : Nat) : Int) := by
          exact_mod_cast hAle
        omega
    · intro i hi hd
      by_cases hini : i = ni
      · subst hini
        by_cases hcis : ci = s
        · left; rw [hpv_ni]; exact hcis
        · right
          have hcd' : dirv map ci < 4 := hcd.resolve_left hcis
          refine ⟨?_, ?_, ?_⟩
          · rw [hpv_ni, hdirv ci (fun h => hnb_ne h.symm)]
            exact hcd'
          · rw [hpv_ni, hgv ci (fun h => hnb_ne h.symm), hgv_ni]
            rw [hgci]
            unfold cand
            omega
          · rw [hpv_ni, length_set_eq]
            exact hci
      · have hd_old : dirv map i < 4 := by rwa [hdirv i hini] at hd
        rcases invm.parent i hi hd_old with hp | ⟨hpd, hpg, hpl⟩
        · left; rw [hpv i hini]; exact hp
        · by_cases hpni : pv map i = ni
          · by_cases hnis : ni = s
            · left; rw [hpv i hini, hpni, hnis]
            · right
              have hgni_pos : 1 ≤ gv map ni := invm.g_pos ni hnis (hpni ▸ hpd)
              have hgni : gv map ni = (map.getD ni default).state.g_cost := rfl
              have hfired : cand map ci md < gv map ni := by
                rcases hf with h0 | hlt2
                · rw [hgni] at hgni_pos; omega
                · rw [hgni]; exact hlt2
              refine ⟨?_, ?_, ?_⟩
              · rw [hpv i hini, hpni, hdirv_ni]; exact hmd
              · rw [hpv i hini, hpni, hgv_ni, hgv i hini]
                have : gv map ni < gv map i := hpni ▸ hpg
                omega
              · rw [hpv i hini, hpni, length_set_eq]; exact hnb_lt
          · right
            refine ⟨?_, ?_, ?_⟩
            · rw [hpv i hini, hdirv _ hpni]; exact hpd
            · rw [hpv i hini, hgv _ hpni, hgv i hini]; exact hpg
            · rw [hpv i hini, length_set_eq]; exact hpl
    · intro j hj
      rcases List.mem_append.mp hj with hjm | hjm
      · obtain ⟨hjl, hjd⟩ := hpq j hjm
        refine ⟨by rwa [length_set_eq], ?_⟩
        rcases hjd with hjs | hjd
        · exact Or.inl hjs
        · right
          by_cases h : j = ni
          · subst h; rw [hdirv_ni]; exact hmd
          · rwa [hdirv j h]
      · have : j = ni := by simpa using hjm
        subst this
        exact ⟨by rwa [length_set_eq], Or.inr (by rw [hdirv_ni]; exact hmd)⟩
    · exact length_set_eq map ni nt
    · intro i h
      by_cases hh : i = ni
      · subst hh; rw [hdirv_ni]; exact hmd
      · rwa [hdirv i hh]
    · have hexch := gsum_set (Bnd map.length) map ni nt hnb_lt
      have hBnd : Bnd (map.set ni nt).length = Bnd map.length := by
        rw [length_set_eq]
      have hgval_nt : gval (Bnd map.length) nt = (cand map ci md).toNat := by
        unfold gval
        rw [hnt_g, if_neg (by omega)]
      have hgval_lt : gval (Bnd map.length) nt
          < gval (Bnd map.length) (map.getD ni default) := by
        rw [hgval_nt]
        unfold gval
        rcases hf with hg0 | hlt2
        · rw [if_pos hg0]
          unfold Bnd
          have hNlt := hAlt hg0
          have : cand map ci md ≤ 1001 * ((assigned (map.set ni nt) : Nat) : Int) :=
            hcand_le
          rw [hA, if_pos hg0] at this
          push_cast at this
          omega
        · have hg0' : ¬ (map.getD ni default).state.g_cost = 0 := by omega
          rw [if_neg hg0']
          omega
      unfold Msr
      rw [hBnd, List.length_append]
      simp only [List.length_cons, List.length_nil]
      omega

/-- The four-direction expansion preserves the invariant and the measure. -/
theorem expand4_inv (sx sy : Int) (s e ci : Nat) (map : List tile_t)
    (pq : List Nat) (sc : Int)
    (inv : Inv sx sy s map pq)
    (hci : ci < map.length)
    (hcd : ci = s ∨ dirv map ci < 4) :
    Inv sx sy s (expand4 sx sy e ci (map, pq, sc)).1
        (expand4 sx sy e ci (map, pq, sc)).2.1
    ∧ (expand4 sx sy e ci (map, pq, sc)).1.length = map.length
    ∧ (∀ i, typev (expand4 sx sy e ci (map, pq, sc)).1 i = typev map i)
    ∧ (∀ i, posv (expand4 sx sy e ci (map, pq, sc)).1 i = posv map i)
    ∧ Msr (expand4 sx sy e ci (map, pq, sc)).1
          (expand4 sx sy e ci (map, pq, sc)).2.1 ≤ Msr map pq := by
  have h0 := try_relax_inv sx sy s e ci 0 map pq sc inv (by omega) hci hcd
  rcases hr0 : try_relax sx sy e ci 0 (map, pq, sc) with ⟨m1, pq1, sc1⟩
  rw [hr0] at h0
  dsimp only at h0
  obtain ⟨i0, l0, t0, p0, d0, ms0⟩ := h0
  have hcd1 : ci = s ∨ dirv m1 ci < 4 := hcd.imp id (d0 ci)
  have h1 := try_relax_inv sx sy s e ci 1 m1 pq1 sc1 i0 (by omega) (by omega) hcd1
  rcases hr1 : try_relax sx sy e ci 1 (m1, pq1, sc1) with ⟨m2, pq2, sc2⟩
  rw [hr1] at h1
  dsimp only at h1
  obtain ⟨i1, l1, t1, p1, d1, ms1⟩ := h1
  have hcd2 : ci = s ∨ dirv m2 ci < 4 := hcd1.imp id (d1 ci)
  have h2 := try_relax_inv sx sy s e ci 2 m2 pq2 sc2 i1 (by omega) (by omega) hcd2
  rcases hr2 : try_relax sx sy e ci 2 (m2, pq2, sc2) with ⟨m3, pq3, sc3⟩
  rw [hr2] at h2
  dsimp only at h2
  obtain ⟨i2, l2, t2, p2, d2, ms2⟩ := h2
  have hcd3 : ci = s ∨ dirv m3 ci < 4 := hcd2.imp id (d2 ci)
  have h3 := try_relax_inv sx sy s e ci 3 m3 pq3 sc3 i2 (by omega) (by omega) hcd3
  rcases hr3 : try_relax sx sy e ci 3 (m3, pq3, sc3) with ⟨m4, pq4, sc4⟩
  rw [hr3] at h3
  dsimp only at h3
  obtain ⟨i3, l3, t3, p3, d3, ms3⟩ := h3
  have hfin : expand4 sx sy e ci (map, pq, sc) = (m4, pq4, sc4) := by
    unfold expand4
    rw [hr0, hr1, hr2, hr3]
  rw [hfin]
  dsimp only
  exact ⟨i3, by omega,
    fun i => ((t3 i).trans (t2 i)).trans ((t1 i).trans (t0 i)),
    fun i => ((p3 i).trans (p2 i)).trans ((p1 i).trans (p0 i)),
    by omega⟩

theorem pq_best_mem (map : List tile_t) : ∀ (l : List Nat) (b : Nat),
    pq_best map l b ∈ b :: l := by
  intro l
  induction l with
  | nil => intro b; exact List.mem_cons_self b []
  | cons i rest ih =>
    intro b
    have h := ih (if pq_lt map i b then i else b)
    rcases List.mem_cons.mp h with h | h
    · rw [pq_best, h]
      split_ifs
      · exact List.mem_cons_of_mem b (List.mem_cons_self i rest)
      · exact List.mem_cons_self b (i :: rest)
    · exact List.mem_cons_of_mem b (List.mem_cons_of_mem i h)

theorem pq_pop_some (map : List tile_t) (pq : List Nat) (ci : Nat) (pq' : List Nat)
    (h : pq_pop map pq = some (ci, pq')) :
    ci ∈ pq ∧ pq'.length + 1 = pq.length ∧ (∀ j ∈ pq', j ∈ pq) := by
  cases pq with
  | nil => simp [pq_pop] at h
  | cons hd tl =>
    unfold pq_pop at h
    dsimp only at h
    injection h with h
    injection h with h1 h2
    have hmem : ci ∈ hd :: tl := h1 ▸ pq_best_mem map tl hd
    refine ⟨hmem, ?_, ?_⟩
    · rw [← h2]
      rw [List.length_erase_of_mem (pq_best_mem map tl hd)]
      simp
    · intro j hj
      rw [← h2] at hj
      exact List.erase_subset _ _ hj

/-- One-step unfolding of the search loop. -/
theorem solve_loop_succ (sx sy : Int) (e : Nat) (fuel : Nat) (map : List tile_t)
    (pq : List Nat) (sc : Int) :
    solve_loop sx sy e (fuel + 1) map pq sc =
      (match pq_pop map pq with
      | none => some (map, sc, -1)
      | some (current_idx, pq') =>
        if current_idx = e then
          some (map, sc, (map.getD current_idx default).state.g_cost)
        else
          let (map', pq'', sc') := expand4 sx sy e current_idx (map, pq', sc)
          solve_loop sx sy e fuel map' pq'' sc') := rfl

set_option maxHeartbeats 1600000 in
/-- The search loop terminates (with enough fuel) and yields a map that still
satisfies the map invariant, with kinds and positions unchanged; when the end
tile is popped, the reported cost is its g-cost. -/
theorem solve_loop_spec (sx sy : Int) (s e : Nat) : ∀ (fuel : Nat)
    (map : List tile_t) (pq : List Nat) (sc : Int),
    Inv sx sy s map pq → Msr map pq < fuel →
    ∃ map2 sc2 cost, solve_loop sx sy e fuel map pq sc = some (map2, sc2, cost)
      ∧ InvMap sx sy s map2
      ∧ (∀ i, typev map2 i = typev map i)
      ∧ (∀ i, posv map2 i = posv map i)
      ∧ map2.length = map.length
      ∧ (cost = -1 ∨ ((e = s ∨ dirv map2 e < 4) ∧ cost = gv map2 e)) := by
  intro fuel
  induction fuel with
  | zero => intro map pq sc inv hm; omega
  | succ fuel ih =>
    intro map pq sc inv hm
    cases hp : pq_pop map pq with
    | none =>
      refine ⟨map, sc, -1, ?_, inv.1, fun i => rfl, fun i => rfl, rfl, Or.inl rfl⟩
      rw [solve_loop_succ, hp]
    | some v =>
      obtain ⟨ci, pq'⟩ := v
      obtain ⟨hmem, hlen, hsub⟩ := pq_pop_some map pq ci pq' hp
      obtain ⟨hcil, hcid⟩ := inv.2 ci hmem
      by_cases hce : ci = e
      · refine ⟨map, sc, gv map ci, ?_, inv.1, fun i => rfl, fun i => rfl, rfl,
          Or.inr ⟨?_, ?_⟩⟩
        · rw [solve_loop_succ, hp]
          dsimp only
          rw [if_pos hce]
          rfl
        · rcases hcid with h | h
          · exact Or.inl (hce ▸ h.symm ▸ rfl)
          · exact Or.inr (hce ▸ h)
        · rw [hce]
      · have hinv' : Inv sx sy s map pq' := ⟨inv.1, fun j hj => inv.2 j (hsub j hj)⟩
        have hex := expand4_inv sx sy s e ci map pq' sc hinv' hcil hcid
        rcases hre : expand4 sx sy e ci (map, pq', sc) with ⟨m1, pq1, sc1⟩
        rw [hre] at hex
        dsimp only at hex
        obtain ⟨einv, elen, etypes, eposs, emsr⟩ := hex
        have hmsr_pop : Msr map pq' + 1 = Msr map pq := by
          unfold Msr
          omega
        have hmsr' : Msr m1 pq1 < fuel := by omega
        obtain ⟨map2, sc2, cost, heq, hinvm2, ht2, hp2, hl2, hc2⟩ :=
          ih m1 pq1 sc1 einv hmsr'
        refine ⟨map2, sc2, cost, ?_, hinvm2,
          fun i => (ht2 i).trans (etypes i),
          fun i => (hp2 i).trans (eposs i),
          by omega, hc2⟩
        rw [solve_loop_succ, hp]
        dsimp only
        rw [if_neg hce, hre]
        exact heq

/-- One-step unfolding of the path-marking loop. -/
theorem mark_path_succ (fuel : Nat) (map : List tile_t) (curr_idx start_idx : Nat) :
    mark_path (fuel + 1) map curr_idx start_idx =
      (let t := map.getD curr_idx default
       let map' := map.set curr_idx
         { t with state := { t.state with dir := t.state.dir ||| 0xF0 } }
       let next := t.state.p_idx
       if next = start_idx then some map'
       else mark_path fuel map' next start_idx) := rfl

/-- Effect of flagging one tile: everything except that tile's high direction
bits is unchanged. -/
theorem mark_step_facts (curr : Nat) (map : List tile_t)
    (hcl : curr < map.length)
    (hok : okdir (dirv map curr)) (hcl4 : lown (dirv map curr) < 4) :
    ((map.set curr
        { map.getD curr default with state :=
            { (map.getD curr default).state with
                dir := (map.getD curr default).state.dir ||| 0xF0 } }).length = map.length)
    ∧ (∀ i, typev (map.set curr
        { map.getD curr default with state :=
            { (map.getD curr default).state with
                dir := (map.getD curr default).state.dir ||| 0xF0 } }) i = typev map i)
    ∧ (∀ i, posv (map.set curr
        { map.getD curr default with state :=
            { (map.getD curr default).state with
                dir := (map.getD curr default).state.dir ||| 0xF0 } }) i = posv map i)
    ∧ (∀ i, gv (map.set curr
        { map.getD curr default with state :=
            { (map.getD curr default).state with
                dir := (map.getD curr default).state.dir ||| 0xF0 } }) i = gv map i)
    ∧ (∀ i, pv (map.set curr
        { map.getD curr default with state :=
            { (map.getD curr default).state with
                dir := (map.getD curr default).state.dir ||| 0xF0 } }) i = pv map i)
    ∧ (∀ i, lown (dirv (map.set curr
        { map.getD curr default with state :=
            { (map.getD curr default).state with
                dir := (map.getD curr default).state.dir ||| 0xF0 } }) i)
          = lown (dirv map i))
    ∧ (∀ i, okdir (dirv map i) → okdir (dirv (map.set curr
        { map.getD curr default with state :=
            { (map.getD curr default).state with
                dir := (map.getD curr default).state.dir ||| 0xF0 } }) i)) := by
  set t := map.getD curr default with ht
  set t' : tile_t :=
    { t with state := { t.state with dir := t.state.dir ||| 0xF0 } } with ht'
  have hget_c : (map.set curr t').getD curr default = t' := getD_set_self _ _ _ _ hcl
  have hget_ne : ∀ j, j ≠ curr → (map.set curr t').getD j default = map.getD j default :=
    fun j hj => getD_set_ne _ _ _ _ _ (fun h => hj h.symm)
  have hdc : dirv (map.set curr t') curr = (dirv map curr) ||| 0xF0 := by
    unfold dirv; rw [hget_c]
  refine ⟨length_set_eq _ _ _, ?_, ?_, ?_, ?_, ?_, ?_⟩
  · intro i
    by_cases h : i = curr
    · subst h; unfold typev; rw [hget_c]
    · unfold typev; rw [hget_ne i h]
  · intro i
    by_cases h : i = curr
    · subst h; unfold posv; rw [hget_c]
    · unfold posv; rw [hget_ne i h]
  · intro i
    by_cases h : i = curr
    · subst h; unfold gv; rw [hget_c]
    · unfold gv; rw [hget_ne i h]
  · intro i
    by_cases h : i = curr
    · subst h; unfold pv; rw [hget_c]
    · unfold pv; rw [hget_ne i h]
  · intro i
    by_cases h : i = curr
    · subst h
      rw [hdc]
      exact lown_flag_of_lown _ hok
    · unfold dirv; rw [hget_ne i h]
  · intro i hoki
    by_cases h : i = curr
    · subst h
      rw [hdc]
      exact okdir_flag _ hok hcl4
    · unfold dirv; rw [hget_ne i h]; exact hoki

/-- A successful path-marking run keeps kinds, positions and lengths, and
leaves every direction in the reachable set. -/
theorem mark_path_ok (s : Nat) : ∀ (fuel : Nat) (map : List tile_t)
    (curr : Nat) (map3 : List tile_t),
    mark_path fuel map curr s = some map3 →
    (∀ i, okdir (dirv map i)) →
    (∀ i, i ≠ s → lown (dirv map i) < 4 →
        (pv map i = s ∨ (lown (dirv map (pv map i)) < 4 ∧ pv map i < map.length))) →
    curr ≠ s → lown (dirv map curr) < 4 → curr < map.length →
    (∀ i, okdir (dirv map3 i))
    ∧ (∀ i, typev map3 i = typev map i)
    ∧ (∀ i, posv map3 i = posv map i)
    ∧ map3.length = map.length := by
  intro fuel
  induction fuel with
  | zero => intro map curr map3 h; intro _ _ _ _ _; simp [mark_path] at h
  | succ fuel ih =>
    intro map curr map3 h hok hpar hcs hcl4 hcl
    rw [mark_path_succ] at h
    dsimp only at h
    obtain ⟨hlen', htyp', hpos', hgv', hpv', hlown', hokd'⟩ :=
      mark_step_facts curr map hcl (hok curr) hcl4
    by_cases hnext : (map.getD curr default).state.p_idx = s
    · rw [if_pos hnext] at h
      injection h with h
      subst h
      exact ⟨fun i => hokd' i (hok i), htyp', hpos', hlen'⟩
    · rw [if_neg hnext] at h
      have hpc : pv map curr = (map.getD curr default).state.p_idx := rfl
      have hnext_facts := hpar curr hcs hcl4
      rw [hpc] at hnext_facts
      rcases hnext_facts with hfs | ⟨hfl, hflt⟩
      · exact absurd hfs hnext
      · have hih := ih _ _ _ h
          (fun i => hokd' i (hok i))
          (fun i hi hl => by
            rw [hlown'] at hl
            rcases hpar i hi hl with hp | ⟨hp1, hp2⟩
            · left; rw [hpv']; exact hp
            · right
              rw [hpv', hlown']
              exact ⟨hp1, by rw [hlen']; exact hp2⟩)
          hnext
          (by rw [hlown']; exact hfl)
          (by rw [hlen']; exact hflt)
        obtain ⟨k1, k2, k3, k4⟩ := hih
        exact ⟨k1, fun i => (k2 i).trans (htyp' i), fun i => (k3 i).trans (hpos' i),
          k4.trans hlen'⟩

/-- With fuel exceeding the end tile's g-cost, the path-marking loop cannot
run out: the parent chain strictly decreases g and stops at the start. -/
theorem mark_path_term (s : Nat) : ∀ (fuel : Nat) (map : List tile_t) (curr : Nat),
    (∀ i, okdir (dirv map i)) →
    (∀ i, i ≠ s → lown (dirv map i) < 4 →
        (pv map i = s ∨ (lown (dirv map (pv map i)) < 4
            ∧ gv map (pv map i) < gv map i ∧ pv map i < map.length))) →
    (∀ i, 0 ≤ gv map i) →
    curr ≠ s → lown (dirv map curr) < 4 → curr < map.length →
    (gv map curr).toNat < fuel →
    mark_path fuel map curr s ≠ none := by
  intro fuel
  induction fuel with
  | zero => intro map curr _ _ _ _ _ _ hf; omega
  | succ fuel ih =>
    intro map curr hok hpar hgn hcs hcl4 hcl hf
    rw [mark_path_succ]
    dsimp only
    obtain ⟨hlen', htyp', hpos', hgv', hpv', hlown', hokd'⟩ :=
      mark_step_facts curr map hcl (hok curr) hcl4
    by_cases hnext : (map.getD curr default).state.p_idx = s
    · rw [if_pos hnext]
      simp
    · rw [if_neg hnext]
      have hpc : pv map curr = (map.getD curr default).state.p_idx := rfl
      have hnext_facts := hpar curr hcs hcl4
      rw [hpc] at hnext_facts
      rcases hnext_facts with hfs | ⟨hfl, hfg, hflt⟩
      · exact absurd hfs hnext
      · apply ih
        · exact fun i => hokd' i (hok i)
        · intro i hi hl
          rw [hlown'] at hl
          rcases hpar i hi hl with hp | ⟨hp1, hp2, hp3⟩
          · left; rw [hpv']; exact hp
          · right
            rw [hpv', hlown', hgv', hgv']
            exact ⟨hp1, hp2, by rw [hlen']; exact hp3⟩
        · intro i; rw [hgv']; exact hgn i
        · exact hnext
        · rw [hlown']; exact hfl
        · rw [hlen']; exact hflt
        · rw [hgv']
          have h1 := hgn ((map.getD curr default).state.p_idx)
          have h2 := hgn curr
          omega

/-! ## Entering the search: initial state facts -/

theorem getD_map_reset (l : List tile_t) : ∀ (i : Nat),
    (l.map reset_tile).getD i default = reset_tile (l.getD i default) := by
  induction l with
  | nil =>
    intro i
    rw [List.map_nil, List.getD_nil]
    rfl
  | cons a rest ih =>
    intro i
    cases i with
    | zero => rfl
    | succ i => exact ih i

theorem last_index_of_spec (p : tile_t → Bool) (l : List tile_t) :
    last_index_of p l = -1
    ∨ (0 ≤ last_index_of p l ∧ last_index_of p l < l.length
        ∧ p (l.getD (last_index_of p l).toNat default) = true) := by
  induction l with
  | nil => left; rfl
  | cons t rest ih =>
    simp only [last_index_of]
    rcases ih with h | ⟨h0, h1, h2⟩
    · rw [if_pos h]
      by_cases hp : p t
      · right
        rw [if_pos hp]
        exact ⟨le_refl 0, by simp, hp⟩
      · left
        rw [if_neg hp]
    · rw [if_neg (by omega)]
      right
      refine ⟨by omega, by simp; omega, ?_⟩
      have htn : (last_index_of p rest + 1).toNat = (last_index_of p rest).toNat + 1 := by
        omega
      rw [htn]
      exact h2

theorem gsum_const (Bv : Nat) : ∀ (map : List tile_t),
    (∀ t ∈ map, t.state.g_cost = 0) → gsum Bv map = map.length * Bv := by
  intro map
  induction map with
  | nil => intro _; simp [gsum]
  | cons a rest ih =>
    intro h
    have ha : a.state.g_cost = 0 := h a (List.mem_cons_self a rest)
    simp only [gsum, List.map_cons, List.sum_cons, gval, ha, if_pos]
    rw [show (rest.map (gval Bv)).sum = gsum Bv rest from rfl,
        ih (fun t ht => h t (List.mem_cons_of_mem a ht))]
    simp [List.length_cons]
    ring

/-- Geometry of a loaded maze: positive sizes, length law, position law, and
the type of each tile is the (valid) character at its coordinates. -/
theorem load_geom (file : Option (List (List Char))) (m : maze_t)
    (hload : maze_t.load file = .ok m) :
    0 < m.size.x ∧ 0 < m.size.y
    ∧ m.map.length = (m.size.x * m.size.y).toNat
    ∧ (∀ i, i < m.map.length →
        posv m.map i = ⟨(i : Int) % m.size.x, (i : Int) / m.size.x⟩)
    ∧ (∀ i, i < m.map.length → typev m.map i ≠ tile_e.invalid)
    ∧ (∀ yy x, yy < (usable file).length → x < ((usable file).headD []).length →
        typev m.map (yy * ((usable file).headD []).length + x)
          = char_to_tile (((usable file).getD yy []).getD x ' ')) := by
  obtain ⟨hx, hy, hmap, huni, hninv, hne, hblank⟩ := load_ok_facts file m hload
  set lines := usable file with hlines
  set sxN := (lines.headD []).length with hsxN
  have hsx0 : 0 < sxN := by
    cases hl : lines with
    | nil => exact absurd hl hne
    | cons l0 rest =>
      have hmem : l0 ∈ lines := by rw [hl]; exact List.mem_cons_self l0 rest
      have hbl := hblank l0 hmem
      rw [hsxN, hl]
      simp only [List.headD_cons]
      cases l0 with
      | nil => simp at hbl
      | cons c cr => simp
  have hsy0 : 0 < lines.length := by
    cases hl : lines with
    | nil => exact absurd hl hne
    | cons l0 rest => simp
  have hlen : m.map.length = lines.length * sxN := by
    rw [hmap, load_tiles_length sxN lines 0 (fun l hl => huni l hl)]
  have hgetD : ∀ i, i < m.map.length →
      m.map.getD i default
        = { type := char_to_tile ((lines.getD (i / sxN) []).getD (i % sxN) ' '),
            pos := ⟨((i % sxN : Nat) : Int), 0 + ((i / sxN : Nat) : Int)⟩,
            state := {} } := by
    intro i hi
    rw [hlen] at hi
    have hyy : i / sxN < lines.length := Nat.div_lt_of_lt_mul (by rwa [Nat.mul_comm] at hi)
    have hxx : i % sxN < sxN := Nat.mod_lt i hsx0
    have hidx : (i / sxN) * sxN + i % sxN = i := by
      have h := Nat.div_add_mod i sxN
      rw [Nat.mul_comm] at h
      omega
    conv_lhs => rw [hmap, ← hidx]
    exact load_tiles_getD sxN lines 0 (i / sxN) (i % sxN)
      (fun l hl => huni l hl) hyy hxx
  refine ⟨?_, ?_, ?_, ?_, ?_, ?_⟩
  · rw [hx]; exact_mod_cast hsx0
  · rw [hy]; exact_mod_cast hsy0
  · rw [hlen, hx, hy]
    rw [← Nat.cast_mul, Int.toNat_natCast]
    exact Nat.mul_comm _ _
  · intro i hi
    unfold posv
    rw [hgetD i hi, hx]
    have h1 : ((i % sxN : Nat) : Int) = (i : Int) % (sxN : Int) := by push_cast; ring
    have h2 : ((i / sxN : Nat) : Int) = (i : Int) / (sxN : Int) := by push_cast; ring
    simp [h1, h2]
  · intro i hi
    unfold typev
    have hmem : m.map.getD i default ∈ m.map := by
      rw [List.getD_eq_getElem _ _ hi]
      exact List.getElem_mem hi
    exact hninv _ hmem
  · intro yy x hyy hxx
    have hi : yy * sxN + x < m.map.length := by
      rw [hlen]
      have h1 : (yy + 1) * sxN ≤ lines.length * sxN :=
        Nat.mul_le_mul_right sxN (by omega)
      nlinarith
    unfold typev
    rw [hmap]
    have := load_tiles_getD sxN lines 0 yy x (fun l hl => huni l hl) hyy hxx
    rw [hmap] at hgetD
    rw [this]

/-- The search loop with no fuel yields nothing. -/
theorem solve_loop_zero (sx sy : Int) (e : Nat) (map : List tile_t)
    (pq : List Nat) (sc : Int) : solve_loop sx sy e 0 map pq sc = none := rfl

/-- Whatever the fuel, a completed search loop preserves the map invariant,
kinds, positions and length, and a non-`-1` result is the end tile's g-cost. -/
theorem solve_loop_ok (sx sy : Int) (s e : Nat) : ∀ (fuel : Nat)
    (map : List tile_t) (pq : List Nat) (sc : Int)
    (map2 : List tile_t) (sc2 cost : Int),
    solve_loop sx sy e fuel map pq sc = some (map2, sc2, cost) →
    Inv sx sy s map pq →
    InvMap sx sy s map2
    ∧ (∀ i, typev map2 i = typev map i)
    ∧ (∀ i, posv map2 i = posv map i)
    ∧ map2.length = map.length
    ∧ (cost = -1 ∨ ((e = s ∨ dirv map2 e < 4) ∧ cost = gv map2 e)) := by
  intro fuel
  induction fuel with
  | zero =>
    intro map pq sc map2 sc2 cost h
    rw [solve_loop_zero] at h
    exact absurd h (by simp)
  | succ fuel ih =>
    intro map pq sc map2 sc2 cost h inv
    rw [solve_loop_succ] at h
    cases hp : pq_pop map pq with
    | none =>
      rw [hp] at h
      dsimp only at h
      injection h with h
      injection h with h1 h
      injection h with h2 h3
      subst h1; subst h3
      exact ⟨inv.1, fun i => rfl, fun i => rfl, rfl, Or.inl rfl⟩
    | some v =>
      obtain ⟨ci, pq'⟩ := v
      rw [hp] at h
      dsimp only at h
      obtain ⟨hmem, hlen, hsub⟩ := pq_pop_some map pq ci pq' hp
      obtain ⟨hcil, hcid⟩ := inv.2 ci hmem
      by_cases hce : ci = e
      · rw [if_pos hce] at h
        injection h with h
        injection h with h1 h
        injection h with h2 h3
        subst h1; subst h3
        refine ⟨inv.1, fun i => rfl, fun i => rfl, rfl, Or.inr ⟨?_, ?_⟩⟩
        · rcases hcid with hh | hh
          · exact Or.inl (hce ▸ hh.symm ▸ rfl)
          · exact Or.inr (hce ▸ hh)
        · rw [← hce]; rfl
      · rw [if_neg hce] at h
        have hinv' : Inv sx sy s map pq' := ⟨inv.1, fun j hj => inv.2 j (hsub j hj)⟩
        have hex := expand4_inv sx sy s e ci map pq' sc hinv' hcil hcid
        rcases hre : expand4 sx sy e ci (map, pq', sc) with ⟨m1, pq1, sc1⟩
        rw [hre] at hex h
        dsimp only at hex h
        obtain ⟨einv, elen, etypes, eposs, emsr⟩ := hex
        obtain ⟨hinvm2, ht2, hp2, hl2, hc2⟩ := ih m1 pq1 sc1 map2 sc2 cost h einv
        exact ⟨hinvm2, fun i => (ht2 i).trans (etypes i),
          fun i => (hp2 i).trans (eposs i), by omega, hc2⟩

/-- The invariant holds for the initial search state: states reset, start
facing east, the frontier holding exactly the start index. -/
theorem solve_init (file : Option (List (List Char))) (m : maze_t) (si : Nat)
    (hload : maze_t.load file = .ok m)
    (hsil : si < m.map.length) :
    Inv m.size.x m.size.y si
      ((m.map.map reset_tile).set si
        { (m.map.map reset_tile).getD si default with
          state := { ((m.map.map reset_tile).getD si default).state with dir := 2 } })
      [si]
    ∧ ((m.map.map reset_tile).set si
        { (m.map.map reset_tile).getD si default with
          state := { ((m.map.map reset_tile).getD si default).state with dir := 2 } }).length
        = m.map.length
    ∧ (∀ i, typev ((m.map.map reset_tile).set si
        { (m.map.map reset_tile).getD si default with
          state := { ((m.map.map reset_tile).getD si default).state with dir := 2 } }) i
        = typev m.map i)
    ∧ (∀ t ∈ (m.map.map reset_tile).set si
        { (m.map.map reset_tile).getD si default with
          state := { ((m.map.map reset_tile).getD si default).state with dir := 2 } },
        t.state.g_cost = 0) := by
  obtain ⟨hgx, hgy, hglen, hgpos, hgninv, hgchar⟩ := load_geom file m hload
  set st := (m.map.map reset_tile).getD si default with hst
  set st' : tile_t := { st with state := { st.state with dir := 2 } } with hst'
  set map1 := (m.map.map reset_tile).set si st' with hmap1
  have hlen0 : (m.map.map reset_tile).length = m.map.length := List.length_map _ _
  have hlen1 : map1.length = m.map.length := by
    rw [hmap1, length_set_eq, hlen0]
  have hsil0 : si < (m.map.map reset_tile).length := by rwa [hlen0]
  have hget_si : map1.getD si default = st' := by
    rw [hmap1]; exact getD_set_self _ _ _ _ hsil0
  have hget_ne : ∀ j, j ≠ si → map1.getD j default
      = reset_tile (m.map.getD j default) := by
    intro j hj
    rw [hmap1, getD_set_ne _ _ _ _ _ (fun h => hj h.symm), getD_map_reset]
  have hst_val : st = reset_tile (m.map.getD si default) := by
    rw [hst, getD_map_reset]
  have hdir1 : ∀ i, dirv map1 i = if i = si then 2 else 4 := by
    intro i
    by_cases h : i = si
    · subst h; rw [if_pos rfl]; unfold dirv; rw [hget_si]
    · rw [if_neg h]; unfold dirv; rw [hget_ne i h]; rfl
  have hg1 : ∀ i, gv map1 i = 0 := by
    intro i
    by_cases h : i = si
    · subst h
      unfold gv
      rw [hget_si, hst', hst_val]
      rfl
    · unfold gv; rw [hget_ne i h]; rfl
  refine ⟨⟨⟨hgx, hgy, ?_, ?_, ?_, ?_, ?_, ?_, ?_⟩, ?_⟩, hlen1, ?_, ?_⟩
  · rw [hlen1, hglen]
  · intro i hi
    rw [hlen1] at hi
    have hpos1 : posv map1 i = posv m.map i := by
      by_cases h : i = si
      · subst h
        unfold posv
        rw [hget_si, hst', hst_val]
        rfl
      · unfold posv; rw [hget_ne i h]; rfl
    rw [hpos1]
    exact hgpos i hi
  · intro i
    rw [hdir1 i]
    split_ifs <;> omega
  · intro i
    rw [hg1 i]
  · intro i hi hd
    rw [hdir1 i, if_neg hi] at hd
    omega
  · intro i
    rw [hg1 i]
    have : (0 : Int) ≤ 1001 * (assigned map1 : Int) := by positivity
    exact this
  · intro i hi hd
    rw [hdir1 i, if_neg hi] at hd
    omega
  · intro j hj
    have : j = si := by simpa using hj
    subst this
    exact ⟨by rwa [hlen1], Or.inl rfl⟩
  · intro i
    by_cases h : i = si
    · subst h
      unfold typev
      rw [hget_si, hst', hst_val]
      rfl
    · unfold typev; rw [hget_ne i h]; rfl
  · intro t ht
    rcases List.mem_or_eq_of_mem_set ht with hmem | heq
    · rcases List.mem_map.mp hmem with ⟨t0, _, ht0⟩
      rw [← ht0]
      rfl
    · rw [heq, hst', hst_val]
      rfl

/-- Shape of a completed `solve` on a loaded maze: size, kinds and length
are preserved, every final direction is in the reachable set, and the
no-path outcome leaves all directions unflagged and emits the diagnostic. -/
theorem solve_ok_shape (file : Option (List (List Char))) (m : maze_t)
    (fuel : Nat) (t : Int) (m' : maze_t) (diag : List String)
    (hload : maze_t.load file = .ok m)
    (hs : m.solve fuel t = some (.ok (m', diag))) :
    m'.size = m.size
    ∧ m'.map.length = m.map.length
    ∧ (∀ i, typev m'.map i = typev m.map i)
    ∧ (∀ i, okdir (dirv m'.map i))
    ∧ (m'.path_cost = -1 →
        (∀ i, dirv m'.map i ≤ 4) ∧ diag = ["No path found to the goal."])
    ∧ (m'.path_cost ≠ -1 → diag = []) := by
  obtain ⟨hgx, hgy, hglen, hgpos, hgninv, hgchar⟩ := load_geom file m hload
  simp only [maze_t.solve] at hs
  by_cases hmiss : ((locate (m.map.map reset_tile)).1 = -1
      ∨ (locate (m.map.map reset_tile)).2 = -1)
  · rw [if_pos hmiss] at hs
    exact absurd hs (by simp)
  rw [if_neg hmiss] at hs
  push_neg at hmiss
  obtain ⟨hs1, hs2⟩ := hmiss
  have hloc : locate (m.map.map reset_tile)
      = (last_index_of is_start m.map, last_index_of is_end m.map) := by
    rw [locate_eq_last_index,
        last_index_of_reset is_start (fun t => rfl),
        last_index_of_reset is_end (fun t => rfl)]
  rw [hloc] at hs hs1 hs2
  dsimp only at hs hs1 hs2
  rcases last_index_of_spec is_start m.map with hsp | ⟨hsp0, hsp1, hsp2⟩
  · exact absurd hsp hs1
  rcases last_index_of_spec is_end m.map with hep | ⟨hep0, hep1, hep2⟩
  · exact absurd hep hs2
  set si := (last_index_of is_start m.map).toNat with hsi
  set ei := (last_index_of is_end m.map).toNat with hei
  have hsil : si < m.map.length := by rw [hsi]; omega
  have heil : ei < m.map.length := by rw [hei]; omega
  have htys : typev m.map si = tile_e.start := by
    have := hsp2
    unfold is_start at this
    rw [decide_eq_true_eq] at this
    exact this
  have htye : typev m.map ei = tile_e.end_ := by
    have := hep2
    unfold is_end at this
    rw [decide_eq_true_eq] at this
    exact this
  have hsnee : si ≠ ei := by
    intro hco
    rw [hco, htye] at htys
    exact absurd htys (by simp)
  obtain ⟨init_inv, init_len, init_types, init_g⟩ := solve_init file m si hload hsil
  cases hloop : solve_loop m.size.x m.size.y ei fuel
      ((m.map.map reset_tile).set si
        { (m.map.map reset_tile).getD si default with
          state := { ((m.map.map reset_tile).getD si default).state with dir := 2 } })
      [si] 1 with
  | none =>
    rw [hloop] at hs
    exact absurd hs (by simp)
  | some v =>
    obtain ⟨map2, sc2, cost⟩ := v
    rw [hloop] at hs
    dsimp only at hs
    obtain ⟨linv, ltypes, lposs, llen, lcost⟩ :=
      solve_loop_ok m.size.x m.size.y si ei fuel _ [si] 1 map2 sc2 cost hloop init_inv
    have hlen2 : map2.length = m.map.length := by rw [llen, init_len]
    have htypes2 : ∀ i, typev map2 i = typev m.map i :=
      fun i => (ltypes i).trans (init_types i)
    by_cases hcost : cost = -1
    · rw [if_pos hcost] at hs
      injection hs with hs
      injection hs with hs
      injection hs with hsm hsd
      subst hsd
      rw [← hsm]
      refine ⟨rfl, hlen2, htypes2, ?_, ?_, ?_⟩
      · exact fun i => Or.inl (linv.dir_le i)
      · intro _
        exact ⟨linv.dir_le, rfl⟩
      · intro hne
        exact absurd rfl hne
    · rw [if_neg hcost] at hs
      cases hmark : mark_path fuel map2 ei si with
      | none =>
        rw [hmark] at hs
        exact absurd hs (by simp)
      | some map3 =>
        rw [hmark] at hs
        injection hs with hs
        injection hs with hs
        injection hs with hsm hsd
        subst hsd
        rw [← hsm]
        have heid : dirv map2 ei < 4 := by
          rcases lcost with hcc | ⟨hcc, _⟩
          · exact absurd hcc hcost
          · rcases hcc with hcc | hcc
            · exact absurd hcc.symm hsnee
            · exact hcc
        have hmok := mark_path_ok si fuel map2 ei map3 hmark
          (fun i => Or.inl (linv.dir_le i))
          (fun i hi hl => by
            rw [lown_eq_of_le _ (linv.dir_le i)] at hl
            rcases linv.parent i hi hl with hp | ⟨hp1, hp2, hp3⟩
            · exact Or.inl hp
            · exact Or.inr ⟨by rw [lown_eq_of_le _ (linv.dir_le _)]; exact hp1,
                by rw [llen, init_len]; rw [llen, init_len] at hp3; exact hp3⟩)
          (fun h => hsnee h.symm)
          (by rw [lown_eq_of_le _ (linv.dir_le ei)]; exact heid)
          (by rw [hlen2]; exact heil)
        obtain ⟨mok, mtypes, mposs, mlen⟩ := hmok
        refine ⟨rfl, by rw [mlen, hlen2], fun i => (mtypes i).trans (htypes2 i),
          mok, ?_, fun _ => rfl⟩
        intro hco
        exact absurd hco hcost

/-! ## C7: the no-path outcome -/

/-- A grid containing no path-direction glyph at all. -/
def glyph_free (g : List (List Char)) : Bool :=
  g.all (fun row => row.all (fun c => ¬(c = '^' ∨ c = 'v' ∨ c = '>' ∨ c = '<')))

theorem render_glyph_free (m' : maze_t) (h : ∀ i, dirv m'.map i ≤ 4) :
    glyph_free m'.render_grid = true := by
  unfold glyph_free maze_t.render_grid
  rw [List.all_eq_true]
  intro row hrow
  rcases List.mem_map.mp hrow with ⟨y, _, hy⟩
  rw [← hy, List.all_eq_true]
  intro c hc
  rcases List.mem_map.mp hc with ⟨x, _, hx⟩
  have hng := tile_to_char_not_glyph (m'.get (x : Int) (y : Int))
    (h (maze_t.lin m'.size.x (x : Int) (y : Int)))
  rw [← hx]
  rw [decide_eq_true_eq]
  intro hg
  exact hng hg

/-- C7 (amended): when the search completes with no path (`path_cost = -1`),
this is a valid outcome, not an error: the diagnostic goes to the error
stream, the output is still written with a grid containing zero path glyphs,
the cost is reported as the `-1` sentinel, and the process exits 0. -/
theorem C7_no_path_outcome (file : Option (List (List Char))) (m : maze_t)
    (fuel : Nat) (t : Int) (m' : maze_t) (diag : List String)
    (hload : maze_t.load file = .ok m)
    (hs : m.solve fuel t = some (.ok (m', diag)))
    (hnp : m'.path_cost = -1) :
    diag = ["No path found to the goal."]
    ∧ run file fuel t = some
        { exit_code := 0,
          console := m'.summary,
          file_out := some (m'.summary, m'.render_grid),
          err := diag }
    ∧ glyph_free m'.render_grid = true
    ∧ m'.summary.getD 2 "" = "Best path cost -1 points" := by
  obtain ⟨_, _, _, _, hnpb, _⟩ := solve_ok_shape file m fuel t m' diag hload hs
  obtain ⟨hdirs, hdiag⟩ := hnpb hnp
  refine ⟨hdiag, ?_, render_glyph_free m' hdirs, ?_⟩
  · unfold run
    rw [hload]
    dsimp only
    rw [hs]
  · have hline : m'.summary.getD 2 ""
        = "Best path cost " ++ toString m'.path_cost ++ " points" := rfl
    rw [hline, hnp]
    decide

/-- The `S#E` maze as loaded (before solving): a concrete example. -/
def walled_maze : maze_t :=
  { size := ⟨3, 1⟩, map := load_tiles 0 [['S', '#', 'E']] }

/-- The `S#E` maze after its (no-path) solve: a concrete example. -/
def walled_maze_solved : maze_t :=
  { size := ⟨3, 1⟩,
    map := [{ type := tile_e.start, pos := ⟨0, 0⟩, state := { dir := 2 } },
            { type := tile_e.wall, pos := ⟨1, 0⟩, state := {} },
            { type := tile_e.end_, pos := ⟨2, 0⟩, state := {} }],
    search_count := 1,
    path_cost := -1 }

/-- Witness for C7 on the walled-off maze `S#E`: the pipeline writes a
glyph-free grid, reports `-1`, and exits 0. -/
theorem C7_no_path_outcome_witness :
    (["No path found to the goal."] : List String) = ["No path found to the goal."]
    ∧ run (some [['S', '#', 'E']]) 10 0 = some
        { exit_code := 0,
          console := walled_maze_solved.summary,
          file_out := some (walled_maze_solved.summary, walled_maze_solved.render_grid),
          err := ["No path found to the goal."] }
    ∧ glyph_free walled_maze_solved.render_grid = true
    ∧ walled_maze_solved.summary.getD 2 "" = "Best path cost -1 points" :=
  C7_no_path_outcome (some [['S', '#', 'E']]) walled_maze 10 0 walled_maze_solved
    ["No path found to the goal."] (by rfl) (by rfl) (by rfl)

/-- C7 counterexample (to the literal wording): the no-path cost is reported
as the text `-1`, not as the text `none`. -/
theorem C7_counterexample :
    ((solved_maze (some [['S', '#', 'E']]) 10).map
        (fun m => toString m.path_cost)) = some "-1"
    ∧ ((solved_maze (some [['S', '#', 'E']]) 10).map
        (fun m => toString m.path_cost)) ≠ some "none" := by
  constructor <;> decide

/-! ## C6: render round-trip -/

/-- Replace a path-direction glyph by the original character; keep anything
else. -/
def restore_char (orig ren : Char) : Char :=
  if ren = '^' ∨ ren = 'v' ∨ ren = '>' ∨ ren = '<' then orig else ren

/-- Positional restoration of a rendered grid against the original grid. -/
def restore_grid (orig ren : List (List Char)) : List (List Char) :=
  List.zipWith (fun lo lr => List.zipWith restore_char lo lr) orig ren

theorem restore_char_eq (c r : Char) (h : is_glyph r ∨ r = c) :
    restore_char c r = c := by
  unfold restore_char
  rcases h with h | h
  · unfold is_glyph at h
    rw [if_pos h]
  · subst h
    split_ifs <;> rfl

/-- C6: for every successfully loaded and solved maze, replacing every
path-direction glyph of the rendered grid by the original character yields
exactly the original (blank-line-stripped) input grid. -/
theorem C6_render_roundtrip (file : Option (List (List Char))) (m : maze_t)
    (fuel : Nat) (t : Int) (m' : maze_t) (diag : List String)
    (hload : maze_t.load file = .ok m)
    (hs : m.solve fuel t = some (.ok (m', diag))) :
    restore_grid (usable file) m'.render_grid = usable file := by
  obtain ⟨hsize, hlen', htypes, hokd, _, _⟩ :=
    solve_ok_shape file m fuel t m' diag hload hs
  obtain ⟨hx, hy, _, huni, _, hne, hblank⟩ := load_ok_facts file m hload
  obtain ⟨hgx, hgy, hglen, _, hgninv, hgchar⟩ := load_geom file m hload
  set lines := usable file with hlines
  set sxN := (lines.headD []).length with hsxN
  set syN := lines.length with hsyN
  have hsx' : m'.size.x = (sxN : Int) := by rw [hsize, hx]
  have hsy' : m'.size.y = (syN : Int) := by rw [hsize, hy]
  have hmlen : m.map.length = syN * sxN := by
    rw [hglen, hx, hy, ← Nat.cast_mul, Int.toNat_natCast]
    exact Nat.mul_comm _ _
  unfold maze_t.render_grid
  rw [hsx', hsy', Int.toNat_natCast, Int.toNat_natCast]
  unfold restore_grid
  apply List.ext_getElem
  · rw [List.length_zipWith, List.length_map, List.length_range]
    omega
  intro yy hy1 hy2
  rw [List.getElem_zipWith]
  have hyy : yy < syN := by
    rw [List.length_zipWith, List.length_map, List.length_range] at hy1
    omega
  rw [List.getElem_map, List.getElem_range]
  have hrowlen : lines[yy].length = sxN := by
    apply huni
    exact List.getElem_mem hy2
  apply List.ext_getElem
  · rw [List.length_zipWith, List.length_map, List.length_range]
    omega
  intro xx hx1 hx2
  have hxx : xx < sxN := by omega
  rw [List.getElem_zipWith, List.getElem_map, List.getElem_range]
  have hidx : yy * sxN + xx < m.map.length := by
    rw [hmlen]
    have h1 : (yy + 1) * sxN ≤ syN * sxN := Nat.mul_le_mul_right sxN (by omega)
    nlinarith
  have hgetidx : m'.get (Int.ofNat xx) (Int.ofNat yy)
      = m'.map.getD (yy * sxN + xx) default := by
    unfold maze_t.get maze_t.lin
    rw [hsx']
    have hofn : (Int.ofNat yy * (sxN : Int) + Int.ofNat xx)
        = ((yy * sxN + xx : Nat) : Int) := by
      simp only [Int.ofNat_eq_natCast]
      push_cast
      ring
    rw [hofn, Int.toNat_natCast]
  rw [hgetidx]
  have hchar : typev m.map (yy * sxN + xx)
      = char_to_tile ((lines.getD yy []).getD xx ' ') := hgchar yy xx hyy hxx
  have hcc : (lines.getD yy []).getD xx ' ' = lines[yy][xx] := by
    rw [List.getD_eq_getElem _ _ hy2, List.getD_eq_getElem _ _ (by omega)]
  rw [hcc] at hchar
  have htt : (m'.map.getD (yy * sxN + xx) default).type = char_to_tile lines[yy][xx] := by
    have := htypes (yy * sxN + xx)
    unfold typev at this hchar
    rw [this, hchar]
  have hval : char_to_tile lines[yy][xx] ≠ tile_e.invalid := by
    have hni := hgninv (yy * sxN + xx) hidx
    unfold typev at hni hchar
    rwa [hchar] at hni
  have hcases := tile_to_char_cases (m'.map.getD (yy * sxN + xx) default)
    lines[yy][xx] htt hval (hokd (yy * sxN + xx))
  exact restore_char_eq _ _ hcases

/-- The `S.E` maze as loaded (before solving): a concrete example. -/
def corridor_maze : maze_t :=
  { size := ⟨3, 1⟩, map := load_tiles 0 [['S', '.', 'E']] }

/-- The `S.E` maze after solving (path found, cost 2): a concrete example. -/
def corridor_maze_solved : maze_t :=
  { size := ⟨3, 1⟩,
    map := [{ type := tile_e.start, pos := ⟨0, 0⟩,
              state := { dir := 3, g_cost := 1002, h_cost := 1002, p_idx := 1 } },
            { type := tile_e.empty, pos := ⟨1, 0⟩,
              state := { dir := 242, g_cost := 1, h_cost := 1, p_idx := 0 } },
            { type := tile_e.end_, pos := ⟨2, 0⟩,
              state := { dir := 242, g_cost := 2, h_cost := 1000, p_idx := 1 } }],
    search_count := 4,
    path_cost := 2 }

/-- Witness for C6 on the maze `S.E`: restoring the rendered grid (`S>E`)
recovers the input. -/
theorem C6_render_roundtrip_witness :
    restore_grid (usable (some [['S', '.', 'E']])) corridor_maze_solved.render_grid
      = usable (some [['S', '.', 'E']]) :=
  C6_render_roundtrip (some [['S', '.', 'E']]) corridor_maze 10 0
    corridor_maze_solved [] (by rfl) (by rfl)

/-! ## C9: termination of solve -/

/-- Sufficient fuel for any run on a maze of this size: the loop measure
starts at `2·N·(1001·N + 1) + 1` and strictly decreases, and the parent walk
is bounded by the end tile's g-cost `≤ 1001·N`. -/
def fuelBound (m : maze_t) : Nat :=
  2 * m.map.length * (1001 * m.map.length + 1) + 2

/-- C9: on every loaded grid, `solve` terminates: with `fuelBound` fuel the
search loop and the parent-pointer walk both complete (each push happens only
when a tile's g-cost is first assigned or strictly decreased, so the measure
strictly decreases; the parent walk strictly decreases g and reaches the
start). -/
theorem C9_solve_terminates (file : Option (List (List Char))) (m : maze_t)
    (t : Int) (hload : maze_t.load file = .ok m) :
    m.solve (fuelBound m) t ≠ none := by
  simp only [maze_t.solve]
  by_cases hmiss : ((locate (m.map.map reset_tile)).1 = -1
      ∨ (locate (m.map.map reset_tile)).2 = -1)
  · rw [if_pos hmiss]
    simp
  rw [if_neg hmiss]
  push_neg at hmiss
  obtain ⟨hs1, hs2⟩ := hmiss
  have hloc : locate (m.map.map reset_tile)
      = (last_index_of is_start m.map, last_index_of is_end m.map) := by
    rw [locate_eq_last_index,
        last_index_of_reset is_start (fun t => rfl),
        last_index_of_reset is_end (fun t => rfl)]
  rw [hloc] at hs1 hs2 ⊢
  dsimp only at hs1 hs2 ⊢
  rcases last_index_of_spec is_start m.map with hsp | ⟨hsp0, hsp1, hsp2⟩
  · exact absurd hsp hs1
  rcases last_index_of_spec is_end m.map with hep | ⟨hep0, hep1, hep2⟩
  · exact absurd hep hs2
  set si := (last_index_of is_start m.map).toNat with hsi
  set ei := (last_index_of is_end m.map).toNat with hei
  have hsil : si < m.map.length := by rw [hsi]; omega
  have heil : ei < m.map.length := by rw [hei]; omega
  have htys : typev m.map si = tile_e.start := by
    have h := hsp2
    unfold is_start at h
    rw [decide_eq_true_eq] at h
    exact h
  have htye : typev m.map ei = tile_e.end_ := by
    have h := hep2
    unfold is_end at h
    rw [decide_eq_true_eq] at h
    exact h
  have hsnee : si ≠ ei := by
    intro hco
    rw [hco, htye] at htys
    exact absurd htys (by simp)
  obtain ⟨init_inv, init_len, init_types, init_g⟩ := solve_init file m si hload hsil
  set map1 := (m.map.map reset_tile).set si
      { (m.map.map reset_tile).getD si default with
        state := { ((m.map.map reset_tile).getD si default).state with dir := 2 } }
    with hmap1
  have hmsr : Msr map1 [si] < fuelBound m := by
    unfold Msr fuelBound
    rw [gsum_const _ map1 init_g, init_len]
    simp only [List.length_cons, List.length_nil]
    unfold Bnd
    have hra : 2 * (m.map.length * (1001 * m.map.length + 1))
        = 2 * m.map.length * (1001 * m.map.length + 1) := by ring
    omega
  obtain ⟨map2, sc2, cost, heq, linv, ltypes, lposs, llen, lcost⟩ :=
    solve_loop_spec m.size.x m.size.y si ei (fuelBound m) map1 [si] 1 init_inv hmsr
  rw [heq]
  dsimp only
  by_cases hcost : cost = -1
  · rw [if_pos hcost]
    simp
  · rw [if_neg hcost]
    have heid : dirv map2 ei < 4 := by
      rcases lcost with hcc | ⟨hcc, _⟩
      · exact absurd hcc hcost
      · rcases hcc with hcc | hcc
        · exact absurd hcc.symm hsnee
        · exact hcc
    have hgei : cost = gv map2 ei := by
      rcases lcost with hcc | ⟨_, hcc⟩
      · exact absurd hcc hcost
      · exact hcc
    have hglt : (gv map2 ei).toNat < fuelBound m := by
      have hb := linv.g_bound ei
      have hA : (assigned map2 : Int) ≤ (map2.length : Int) := by
        exact_mod_cast List.countP_le_length _
      have hl2 : map2.length = m.map.length := by rw [llen, init_len]
      rw [hl2] at hA
      unfold fuelBound
      have hNN : (0 : Int) ≤ (m.map.length : Int) := by positivity
      nlinarith [Int.toNat_of_nonneg (linv.g_nonneg ei), linv.g_nonneg ei]
    have hterm := mark_path_term si (fuelBound m) map2 ei
      (fun i => Or.inl (linv.dir_le i))
      (fun i hi hl => by
        rw [lown_eq_of_le _ (linv.dir_le i)] at hl
        rcases linv.parent i hi hl with hp | ⟨hp1, hp2, hp3⟩
        · exact Or.inl hp
        · exact Or.inr ⟨by rw [lown_eq_of_le _ (linv.dir_le _)]; exact hp1, hp2, hp3⟩)
      linv.g_nonneg
      (fun h => hsnee h.symm)
      (by rw [lown_eq_of_le _ (linv.dir_le ei)]; exact heid)
      (by rw [llen, init_len]; exact heil)
      hglt
    cases hmark : mark_path (fuelBound m) map2 ei si with
    | none => exact absurd hmark hterm
    | some map3 =>
      simp

/-- Witness for C9 on the maze `S.E`. -/
theorem C9_solve_terminates_witness :
    corridor_maze.solve (fuelBound corridor_maze) 0 ≠ none :=
  C9_solve_terminates (some [['S', '.', 'E']]) corridor_maze 0 (by rfl)

/-! ## C1: walks over the maze geometry

A walk is a list of move directions taken from a tile index; each step must
stay in bounds and land on a non-wall tile, exactly as checked by the
expansion loop of `maze_t::solve`. The cost function is the one used by the
relaxation: 1 for a straight move, 1001 for a move that changes facing. -/

/-- The bounds test of the expansion loop, as a predicate on a position. -/
def inb (sx sy : Int) (p : ivec2) : Prop :=
  ¬(p.x < 0 ∨ p.x ≥ sx ∨ p.y < 0 ∨ p.y ≥ sy)

/-- A move sequence from a tile index is valid when every step is a real
direction, stays in bounds, and lands on a non-wall tile. -/
def walkValid (sx sy : Int) (map : List tile_t) : Nat → List Nat → Prop
  | _, [] => True
  | i, d :: r => d < 4 ∧ inb sx sy (npos map i d)
      ∧ typev map (nbidx sx map i d) ≠ tile_e.wall
      ∧ walkValid sx sy map (nbidx sx map i d) r

/-- The tile index reached by a move sequence. -/
def walkIdx (sx : Int) (map : List tile_t) : Nat → List Nat → Nat
  | i, [] => i
  | i, d :: r => walkIdx sx map (nbidx sx map i d) r

/-- All tile indices visited by a move sequence, in order. -/
def walkCells (sx : Int) (map : List tile_t) : Nat → List Nat → List Nat
  | i, [] => [i]
  | i, d :: r => i :: walkCells sx map (nbidx sx map i d) r

/-- Cost of a move sequence starting with the given facing: 1 per move plus
1000 whenever the move differs from the current facing. -/
def walkCost : Nat → List Nat → Int
  | _, [] => 0
  | f, d :: r => (if f ≠ d then 1001 else 1) + walkCost d r

/-- The facing after a move sequence (the last move, or the initial facing). -/
def lastFacing : Nat → List Nat → Nat
  | f, [] => f
  | _, d :: r => lastFacing d r

/-- Number of direction changes along a move sequence (the first move counts
as a change when it differs from the initial facing). -/
def dirChanges : Nat → List Nat → Int
  | _, [] => 0
  | f, d :: r => (if f = d then 0 else 1) + dirChanges d r

theorem walkIdx_append (sx : Int) (map : List tile_t) :
    ∀ (A B : List Nat) (i : Nat),
    walkIdx sx map i (A ++ B) = walkIdx sx map (walkIdx sx map i A) B := by
  intro A
  induction A with
  | nil => intro B i; rfl
  | cons d r ih => intro B i; exact ih B (nbidx sx map i d)

theorem walkValid_append (sx sy : Int) (map : List tile_t) :
    ∀ (A B : List Nat) (i : Nat),
    walkValid sx sy map i (A ++ B)
      ↔ walkValid sx sy map i A ∧ walkValid sx sy map (walkIdx sx map i A) B := by
  intro A
  induction A with
  | nil => intro B i; simp [walkValid, walkIdx]
  | cons d r ih =>
    intro B i
    simp only [List.cons_append, List.append_eq, walkValid, walkIdx, ih]
    constructor
    · rintro ⟨h1, h2, h3, h4, h5⟩
      exact ⟨⟨h1, h2, h3, h4⟩, h5⟩
    · rintro ⟨⟨h1, h2, h3, h4⟩, h5⟩
      exact ⟨h1, h2, h3, h4, h5⟩

theorem lastFacing_append : ∀ (A B : List Nat) (f : Nat),
    lastFacing f (A ++ B) = lastFacing (lastFacing f A) B := by
  intro A
  induction A with
  | nil => intro B f; rfl
  | cons d r ih => intro B f; exact ih B d

theorem walkCost_append : ∀ (A B : List Nat) (f : Nat),
    walkCost f (A ++ B) = walkCost f A + walkCost (lastFacing f A) B := by
  intro A
  induction A with
  | nil => intro B f; simp [walkCost, lastFacing]
  | cons d r ih =>
    intro B f
    simp only [List.cons_append, List.append_eq, walkCost, lastFacing, ih]
    ring

theorem walkCells_append (sx : Int) (map : List tile_t) :
    ∀ (A B : List Nat) (i : Nat),
    walkCells sx map i (A ++ B)
      = walkCells sx map i A ++ (walkCells sx map (walkIdx sx map i A) B).tail := by
  intro A
  induction A with
  | nil =>
    intro B i
    cases B with
    | nil => rfl
    | cons d r => rfl
  | cons d r ih =>
    intro B i
    simp only [List.cons_append, List.append_eq, walkCells, walkIdx, ih]

theorem walkCells_length (sx : Int) (map : List tile_t) :
    ∀ (ms : List Nat) (i : Nat), (walkCells sx map i ms).length = ms.length + 1 := by
  intro ms
  induction ms with
  | nil => intro i; rfl
  | cons d r ih => intro i; simp [walkCells, ih]

theorem walkCells_ne_nil (sx : Int) (map : List tile_t) (i : Nat) (ms : List Nat) :
    walkCells sx map i ms ≠ [] := by
  intro h
  have := walkCells_length sx map ms i
  rw [h] at this
  simp at this

theorem walkCells_getD (sx : Int) (map : List tile_t) :
    ∀ (ms : List Nat) (i j : Nat), j ≤ ms.length →
    (walkCells sx map i ms).getD j 0 = walkIdx sx map i (ms.take j) := by
  intro ms
  induction ms with
  | nil =>
    intro i j hj
    have hj0 : j = 0 := Nat.le_zero.mp (by simpa using hj)
    subst hj0
    rfl
  | cons d r ih =>
    intro i j hj
    cases j with
    | zero => rfl
    | succ j =>
      simp only [walkCells, List.getD_cons_succ, List.take_succ_cons]
      rw [ih (nbidx sx map i d) j (by simpa using hj)]
      rfl

theorem walkCells_head (sx : Int) (map : List tile_t) (i : Nat) (ms : List Nat) :
    (walkCells sx map i ms).getD 0 0 = i := by
  cases ms with
  | nil => rfl
  | cons d r => rfl

theorem walkIdx_mem_cells (sx : Int) (map : List tile_t) :
    ∀ (ms : List Nat) (i : Nat), walkIdx sx map i ms ∈ walkCells sx map i ms := by
  intro ms
  induction ms with
  | nil => intro i; exact List.mem_cons_self i []
  | cons d r ih => intro i; exact List.mem_cons_of_mem i (ih (nbidx sx map i d))

theorem start_mem_cells (sx : Int) (map : List tile_t) (i : Nat) (ms : List Nat) :
    i ∈ walkCells sx map i ms := by
  cases ms with
  | nil => exact List.mem_cons_self i []
  | cons d r => exact List.mem_cons_self i _

theorem walkCost_nonneg : ∀ (ms : List Nat) (f : Nat), 0 ≤ walkCost f ms := by
  intro ms
  induction ms with
  | nil => intro f; exact le_refl 0
  | cons d r ih =>
    intro f
    have := ih d
    simp only [walkCost]
    split_ifs <;> omega

theorem walkCost_ge_len : ∀ (ms : List Nat) (f : Nat),
    (ms.length : Int) ≤ walkCost f ms := by
  intro ms
  induction ms with
  | nil => intro f; simp [walkCost]
  | cons d r ih =>
    intro f
    have := ih d
    simp only [walkCost, List.length_cons]
    push_cast
    split_ifs <;> omega

theorem walkCost_le : ∀ (ms : List Nat) (f : Nat),
    walkCost f ms ≤ 1001 * (ms.length : Int) := by
  intro ms
  induction ms with
  | nil => intro f; simp [walkCost]
  | cons d r ih =>
    intro f
    have := ih d
    simp only [walkCost, List.length_cons]
    push_cast
    split_ifs <;> omega

theorem walkCost_shift : ∀ (ms : List Nat) (f g : Nat),
    walkCost f ms ≤ 1000 + walkCost g ms := by
  intro ms f g
  cases ms with
  | nil => simp [walkCost]
  | cons d r =>
    simp only [walkCost]
    split_ifs <;> omega

theorem walkCost_turn : ∀ (ms : List Nat) (f : Nat), lastFacing f ms ≠ f →
    1000 + (ms.length : Int) ≤ walkCost f ms := by
  intro ms
  induction ms with
  | nil => intro f h; exact absurd rfl h
  | cons d r ih =>
    intro f h
    simp only [walkCost, List.length_cons, lastFacing] at h ⊢
    by_cases hfd : f = d
    · subst hfd
      have := ih f h
      rw [if_neg (by simp)]
      push_cast
      omega
    · rw [if_pos hfd]
      have := walkCost_ge_len r d
      push_cast
      omega

theorem walkCost_formula : ∀ (ms : List Nat) (f : Nat),
    walkCost f ms = (ms.length : Int) + 1000 * dirChanges f ms := by
  intro ms
  induction ms with
  | nil => intro f; simp [walkCost, dirChanges]
  | cons d r ih =>
    intro f
    simp only [walkCost, dirChanges, List.length_cons, ih d]
    push_cast
    by_cases h : f = d
    · rw [if_neg (by simpa using h), if_pos h]; ring
    · rw [if_pos (by simpa using h), if_neg h]; ring

theorem lastFacing_concat (ms : List Nat) (d f : Nat) :
    lastFacing f (ms ++ [d]) = d := by
  rw [lastFacing_append]
  rfl

/-! ## C1: geometry facts shared by the walk lemmas -/

/-- The geometric facts about a loaded map that the walk lemmas need. -/
structure Geom (sx sy : Int) (map : List tile_t) : Prop where
  hsx : 0 < sx
  hsy : 0 < sy
  len : map.length = (sx * sy).toNat
  pos_law : ∀ i, i < map.length → posv map i = ⟨(i : Int) % sx, (i : Int) / sx⟩

theorem InvMap.geom {sx sy : Int} {s : Nat} {map : List tile_t}
    (h : InvMap sx sy s map) : Geom sx sy map :=
  ⟨h.hsx, h.hsy, h.len, h.pos_law⟩

/-- An in-bounds neighbor index is inside the map. -/
theorem nbidx_lt (sx sy : Int) (map : List tile_t) (G : Geom sx sy map)
    (ci md : Nat) (hb : inb sx sy (npos map ci md)) :
    nbidx sx map ci md < map.length := by
  unfold inb at hb
  push_neg at hb
  obtain ⟨hx0, hx1, hy0, hy1⟩ := hb
  set nx := (npos map ci md).x with hnx
  set ny := (npos map ci md).y with hny
  have hk0 : 0 ≤ ny * sx + nx := by
    have := mul_nonneg hy0 (le_of_lt G.hsx)
    omega
  have hkb : ny * sx + nx < sx * sy := by
    have h1 : (ny + 1) * sx ≤ sy * sx :=
      mul_le_mul_of_nonneg_right (by omega) (le_of_lt G.hsx)
    nlinarith
  rw [G.len]
  unfold nbidx maze_t.lin
  rw [← hnx, ← hny]
  omega

/-- The position of an in-bounds neighbor index is the stepped position. -/
theorem posv_nbidx (sx sy : Int) (map : List tile_t) (G : Geom sx sy map)
    (ci md : Nat) (hb : inb sx sy (npos map ci md)) :
    posv map (nbidx sx map ci md) = npos map ci md := by
  have hlt := nbidx_lt sx sy map G ci md hb
  unfold inb at hb
  push_neg at hb
  obtain ⟨hx0, hx1, hy0, hy1⟩ := hb
  set nx := (npos map ci md).x with hnx
  set ny := (npos map ci md).y with hny
  have hk0 : 0 ≤ ny * sx + nx := by
    have := mul_nonneg hy0 (le_of_lt G.hsx)
    omega
  have hcast : ((nbidx sx map ci md : Nat) : Int) = ny * sx + nx := by
    unfold nbidx maze_t.lin
    rw [← hnx, ← hny]
    exact Int.toNat_of_nonneg hk0
  rw [G.pos_law _ hlt, hcast]
  have hxm : (ny * sx + nx) % sx = nx := by
    rw [add_comm, mul_comm]
    rw [Int.add_mul_emod_self_left]
    exact Int.emod_eq_of_lt hx0 hx1
  have hxd : (ny * sx + nx) / sx = ny := by
    rw [add_comm]
    rw [Int.add_mul_ediv_right _ _ (by omega : sx ≠ 0)]
    rw [Int.ediv_eq_zero_of_lt hx0 hx1]
    omega
  rw [hxm, hxd, hnx, hny]

/-- Positions determine indices inside the map. -/
theorem posv_inj (sx sy : Int) (map : List tile_t) (G : Geom sx sy map)
    (i j : Nat) (hi : i < map.length) (hj : j < map.length)
    (h : posv map i = posv map j) : i = j := by
  rw [G.pos_law i hi, G.pos_law j hj] at h
  simp only [ivec2.mk.injEq] at h
  obtain ⟨hm, hd⟩ := h
  have hi2 : (i : Int) = sx * ((i : Int) / sx) + (i : Int) % sx :=
    (Int.ediv_add_emod _ _).symm
  have hj2 : (j : Int) = sx * ((j : Int) / sx) + (j : Int) % sx :=
    (Int.ediv_add_emod _ _).symm
  have : (i : Int) = (j : Int) := by rw [hi2, hj2, hm, hd]
  exact_mod_cast this

/-- All cells of a valid walk from an in-bounds tile are in bounds. -/
theorem walkCells_bound (sx sy : Int) (map : List tile_t) (G : Geom sx sy map) :
    ∀ (ms : List Nat) (i : Nat), walkValid sx sy map i ms → i < map.length →
    ∀ c ∈ walkCells sx map i ms, c < map.length := by
  intro ms
  induction ms with
  | nil =>
    intro i _ hi c hc
    have : c = i := by simpa [walkCells] using hc
    rwa [this]
  | cons d r ih =>
    intro i hv hi c hc
    obtain ⟨_, hb, _, hv2⟩ := hv
    rcases List.mem_cons.mp hc with h | h
    · rwa [h]
    · exact ih (nbidx sx map i d) hv2 (nbidx_lt sx sy map G i d hb) c h

/-- Walk geometry only depends on positions and tile kinds. -/
theorem walk_congr (sx sy : Int) (map2 map : List tile_t)
    (hp : ∀ i, posv map2 i = posv map i) (ht : ∀ i, typev map2 i = typev map i) :
    ∀ (ms : List Nat) (i : Nat),
    (walkValid sx sy map2 i ms ↔ walkValid sx sy map i ms)
    ∧ walkIdx sx map2 i ms = walkIdx sx map i ms
    ∧ walkCells sx map2 i ms = walkCells sx map i ms := by
  have hnp : ∀ i d, npos map2 i d = npos map i d := by
    intro i d
    unfold npos
    have := hp i
    unfold posv at this
    rw [this]
  have hnb : ∀ i d, nbidx sx map2 i d = nbidx sx map i d := by
    intro i d
    unfold nbidx
    rw [hnp]
  intro ms
  induction ms with
  | nil => intro i; exact ⟨Iff.rfl, rfl, rfl⟩
  | cons d r ih =>
    intro i
    obtain ⟨ihv, ihi, ihc⟩ := ih (nbidx sx map i d)
    refine ⟨?_, ?_, ?_⟩
    · simp only [walkValid, hnp, hnb, ht]
      rw [ihv]
    · simp only [walkIdx, hnb, ihi]
    · simp only [walkCells, hnb, ihc]

/-! ## C1: list index helpers -/

theorem nodup_getD_inj (l : List Nat) (hl : l.Nodup) (a b : Nat)
    (ha : a < l.length) (hb : b < l.length) (h : l.getD a 0 = l.getD b 0) :
    a = b := by
  rw [List.getD_eq_getElem l 0 ha, List.getD_eq_getElem l 0 hb] at h
  exact (List.Nodup.getElem_inj_iff hl).mp h

theorem mem_iff_getD (l : List Nat) (c : Nat) :
    c ∈ l ↔ ∃ j, j < l.length ∧ l.getD j 0 = c := by
  constructor
  · intro h
    obtain ⟨j, hj, he⟩ := List.getElem_of_mem h
    exact ⟨j, hj, by rw [List.getD_eq_getElem l 0 hj]; exact he⟩
  · rintro ⟨j, hj, he⟩
    rw [List.getD_eq_getElem l 0 hj] at he
    rw [← he]
    exact List.getElem_mem hj

theorem two_le_count_of_getD : ∀ (l : List Nat) (a b : Nat), a < b →
    b < l.length → l.getD a 0 = l.getD b 0 → 2 ≤ l.count (l.getD a 0) := by
  intro l
  induction l with
  | nil => intro a b _ hb _; simp at hb
  | cons x t ih =>
    intro a b hab hb h
    cases a with
    | zero =>
      cases b with
      | zero => omega
      | succ b =>
        simp only [List.getD_cons_zero, List.getD_cons_succ] at h ⊢
        rw [List.count_cons_self]
        have hmem : x ∈ t := by
          rw [h, List.getD_eq_getElem t 0 (by simpa using hb)]
          exact List.getElem_mem _
        have := List.count_pos_iff.mpr hmem
        omega
    | succ a =>
      cases b with
      | zero => omega
      | succ b =>
        simp only [List.getD_cons_succ] at h ⊢
        have := ih a b (by omega) (by simpa using hb) h
        rw [List.count_cons]
        omega

theorem exists_dup_of_not_nodup : ∀ (l : List Nat), ¬l.Nodup →
    ∃ a b, a < b ∧ b < l.length ∧ l.getD a 0 = l.getD b 0 := by
  intro l
  induction l with
  | nil => intro h; exact absurd List.nodup_nil h
  | cons x t ih =>
    intro h
    rw [List.nodup_cons] at h
    push_neg at h
    by_cases hx : x ∈ t
    · obtain ⟨j, hj, he⟩ := List.getElem_of_mem hx
      refine ⟨0, j + 1, by omega, by simpa using hj, ?_⟩
      simp only [List.getD_cons_zero, List.getD_cons_succ]
      rw [List.getD_eq_getElem t 0 hj]
      exact he.symm
    · obtain ⟨a, b, hab, hb, he⟩ := ih (h hx)
      exact ⟨a + 1, b + 1, by omega, by simpa using hb, by simpa using he⟩

theorem take_succ_getD : ∀ (l : List Nat) (j : Nat), j < l.length →
    l.take (j + 1) = l.take j ++ [l.getD j 0] := by
  intro l
  induction l with
  | nil => intro j hj; simp at hj
  | cons x t ih =>
    intro j hj
    cases j with
    | zero => simp
    | succ j =>
      simp only [List.take_succ_cons, List.getD_cons_succ, List.cons_append]
      rw [← ih j (by simpa using hj)]

theorem drop_getD_cons : ∀ (l : List Nat) (j : Nat), j < l.length →
    l.drop j = l.getD j 0 :: l.drop (j + 1) := by
  intro l
  induction l with
  | nil => intro j hj; simp at hj
  | cons x t ih =>
    intro j hj
    cases j with
    | zero => simp
    | succ j =>
      simp only [List.drop_succ_cons, List.getD_cons_succ]
      exact ih j (by simpa using hj)

/-- Loop splicing: every valid walk can be simplified to a duplicate-free
valid walk with the same endpoints, no larger cost, cell counts bounded by
the original, and (when the final cell occurs only once) the same final
move. -/
theorem walk_simplify (sx sy : Int) (map : List tile_t) : ∀ (n : Nat)
    (ms : List Nat) (i f : Nat), ms.length ≤ n → walkValid sx sy map i ms →
    ∃ ms2, walkValid sx sy map i ms2
      ∧ walkIdx sx map i ms2 = walkIdx sx map i ms
      ∧ (walkCells sx map i ms2).Nodup
      ∧ walkCost f ms2 ≤ walkCost f ms
      ∧ (∀ c, (walkCells sx map i ms2).count c ≤ (walkCells sx map i ms).count c)
      ∧ ((walkCells sx map i ms).count (walkIdx sx map i ms) = 1 →
          ∀ d ms0, ms = ms0 ++ [d] → ∃ ms0b, ms2 = ms0b ++ [d]) := by
  intro n
  induction n with
  | zero =>
    intro ms i f hlen hv
    have hnil : ms = [] := List.length_eq_zero.mp (Nat.le_zero.mp hlen)
    subst hnil
    refine ⟨[], trivial, rfl, List.nodup_singleton i, le_refl _,
      fun c => le_refl _, ?_⟩
    intro _ d ms0 h
    exact absurd h (by simp)
  | succ n ih =>
    intro ms i f hlen hv
    by_cases hnd : (walkCells sx map i ms).Nodup
    · exact ⟨ms, hv, rfl, hnd, le_refl _, fun c => le_refl _,
        fun _ d ms0 h => ⟨ms0, h⟩⟩
    obtain ⟨a, b, hab, hb, heq⟩ := exists_dup_of_not_nodup _ hnd
    rw [walkCells_length] at hb
    have hbm : b ≤ ms.length := by omega
    have ham : a ≤ ms.length := by omega
    have hca := walkCells_getD sx map ms i a ham
    have hcb := walkCells_getD sx map ms i b hbm
    have hab2 : walkIdx sx map i (ms.take a) = walkIdx sx map i (ms.take b) := by
      rw [← hca, ← hcb, heq]
    have hms_b : ms.take b ++ ms.drop b = ms := List.take_append_drop b ms
    have hta : (ms.take b).take a = ms.take a := by
      rw [List.take_take, min_eq_left (le_of_lt hab)]
    have hmid : ms.take a ++ (ms.take b).drop a = ms.take b := by
      rw [← hta]
      exact List.take_append_drop a (ms.take b)
    set mid := (ms.take b).drop a with hmid_def
    -- validity of the spliced walk
    have hv_split : walkValid sx sy map i (ms.take b)
        ∧ walkValid sx sy map (walkIdx sx map i (ms.take b)) (ms.drop b) := by
      rw [← walkValid_append]
      rw [hms_b]
      exact hv
    have hv_ta : walkValid sx sy map i (ms.take a) := by
      have := hv_split.1
      rw [← hmid, walkValid_append] at this
      exact this.1
    have hvW2 : walkValid sx sy map i (ms.take a ++ ms.drop b) := by
      rw [walkValid_append]
      exact ⟨hv_ta, hab2 ▸ hv_split.2⟩
    have hWidx : walkIdx sx map i (ms.take a ++ ms.drop b)
        = walkIdx sx map i ms := by
      rw [walkIdx_append, hab2, ← walkIdx_append, hms_b]
    have hlta : (ms.take a).length = a := by
      rw [List.length_take]
      omega
    have hltb : (ms.take b).length = b := by
      rw [List.length_take]
      omega
    have hlW2 : (ms.take a ++ ms.drop b).length ≤ n := by
      rw [List.length_append, hlta, List.length_drop]
      omega
    -- cost of the spliced walk
    have hcostW2 : walkCost f (ms.take a ++ ms.drop b) ≤ walkCost f ms := by
      have h1 : walkCost f ms
          = walkCost f (ms.take b)
            + walkCost (lastFacing f (ms.take b)) (ms.drop b) := by
        conv_lhs => rw [← hms_b]
        exact walkCost_append _ _ _
      have h2 : walkCost f (ms.take b)
          = walkCost f (ms.take a)
            + walkCost (lastFacing f (ms.take a)) mid := by
        conv_lhs => rw [← hmid]
        exact walkCost_append _ _ _
      have h3 : walkCost f (ms.take a ++ ms.drop b)
          = walkCost f (ms.take a)
            + walkCost (lastFacing f (ms.take a)) (ms.drop b) :=
        walkCost_append _ _ _
      have h4 : lastFacing f (ms.take b)
          = lastFacing (lastFacing f (ms.take a)) mid := by
        conv_lhs => rw [← hmid]
        exact lastFacing_append _ _ _
      set fa := lastFacing f (ms.take a) with hfa
      set fb := lastFacing f (ms.take b) with hfb
      by_cases hfab : fa = fb
      · rw [h1, h2, h3, hfab]
        have hm0 := walkCost_nonneg mid fb
        omega
      · have hturn : 1000 + (mid.length : Int) ≤ walkCost fa mid := by
          apply walkCost_turn
          rw [← h4]
          exact fun hcon => hfab hcon.symm
        have hshift := walkCost_shift (ms.drop b) fa fb
        have hmlen : (0 : Int) ≤ (mid.length : Int) := by positivity
        rw [h1, h2, h3]
        omega
    -- cell counts of the spliced walk
    have hcells_ms : walkCells sx map i ms
        = walkCells sx map i (ms.take b)
          ++ (walkCells sx map (walkIdx sx map i (ms.take b)) (ms.drop b)).tail := by
      conv_lhs => rw [← hms_b]
      exact walkCells_append _ _ _ _ _
    have hcells_W2 : walkCells sx map i (ms.take a ++ ms.drop b)
        = walkCells sx map i (ms.take a)
          ++ (walkCells sx map (walkIdx sx map i (ms.take b)) (ms.drop b)).tail := by
      rw [walkCells_append, hab2]
    have hcells_tb : walkCells sx map i (ms.take b)
        = walkCells sx map i (ms.take a)
          ++ (walkCells sx map (walkIdx sx map i (ms.take a)) mid).tail := by
      conv_lhs => rw [← hmid]
      exact walkCells_append _ _ _ _ _
    have hcountW2 : ∀ c, (walkCells sx map i (ms.take a ++ ms.drop b)).count c
        ≤ (walkCells sx map i ms).count c := by
      intro c
      rw [hcells_ms, hcells_W2, hcells_tb]
      rw [List.count_append, List.count_append, List.count_append]
      omega
    obtain ⟨ms2, k1, k2, k3, k4, k5, k6⟩ :=
      ih (ms.take a ++ ms.drop b) i f hlW2 hvW2
    refine ⟨ms2, k1, k2.trans hWidx, k3, k4.trans hcostW2,
      fun c => (k5 c).trans (hcountW2 c), ?_⟩
    intro hc1 d ms0 hms0
    have hblt : b < ms.length := by
      rcases Nat.lt_or_ge b ms.length with h | h
      · exact h
      · exfalso
        have hbe : b = ms.length := by omega
        have hfin : (walkCells sx map i ms).getD b 0 = walkIdx sx map i ms := by
          rw [hcb, hbe, List.take_length]
        have h2c := two_le_count_of_getD (walkCells sx map i ms) a b hab
          (by rw [walkCells_length]; omega) heq
        rw [heq, hfin] at h2c
        omega
    have hdrop : ms.drop b = ms0.drop b ++ [d] := by
      rw [hms0]
      apply List.drop_append_of_le_length
      have : ms.length = ms0.length + 1 := by rw [hms0]; simp
      omega
    have hW2dec : ms.take a ++ ms.drop b = (ms.take a ++ ms0.drop b) ++ [d] := by
      rw [hdrop, List.append_assoc]
    have hcW2 : (walkCells sx map i (ms.take a ++ ms.drop b)).count
        (walkIdx sx map i (ms.take a ++ ms.drop b)) = 1 := by
      have hle := hcountW2 (walkIdx sx map i ms)
      have hmem : walkIdx sx map i (ms.take a ++ ms.drop b)
          ∈ walkCells sx map i (ms.take a ++ ms.drop b) :=
        walkIdx_mem_cells _ _ _ _
      have hpos := List.count_pos_iff.mpr hmem
      rw [hWidx] at hpos ⊢
      omega
    obtain ⟨ms0b, hms0b⟩ := k6 hcW2 d (ms.take a ++ ms0.drop b) hW2dec
    exact ⟨ms0b, hms0b⟩

theorem getD_take (l : List Nat) (m t : Nat) (ht : t < m) (hl : t < l.length) :
    (l.take m).getD t 0 = l.getD t 0 := by
  have h1 : t < (l.take m).length := by
    rw [List.length_take]
    omega
  rw [List.getD_eq_getElem _ 0 h1, List.getD_eq_getElem _ 0 hl]
  exact List.getElem_take l

theorem getD_drop (l : List Nat) (m t : Nat) (hl : m + t < l.length) :
    (l.drop m).getD t 0 = l.getD (m + t) 0 := by
  have h1 : t < (l.drop m).length := by
    rw [List.length_drop]
    omega
  rw [List.getD_eq_getElem _ 0 h1, List.getD_eq_getElem _ 0 hl]
  exact List.getElem_drop l

/-! ## C1: the unique-path hypothesis and its consequences -/

/-- The move sequence `P` is the unique duplicate-free valid walk from `s`
to `e` over the maze. -/
def UniqueWalk (sx sy : Int) (map : List tile_t) (s e : Nat) (P : List Nat) : Prop :=
  walkValid sx sy map s P ∧ walkIdx sx map s P = e
  ∧ (walkCells sx map s P).Nodup
  ∧ ∀ Q, walkValid sx sy map s Q → walkIdx sx map s Q = e →
      (walkCells sx map s Q).Nodup → Q = P

/-- On a unique-path maze, every duplicate-free valid walk from the start
that avoids the end tile and stops on the path stops along the path prefix:
it is exactly that prefix of the unique path. -/
theorem unique_prefix (sx sy : Int) (map : List tile_t) (s e : Nat)
    (P : List Nat) (hu : UniqueWalk sx sy map s e P) (j : Nat) (hj : j < P.length)
    (W : List Nat) (hWv : walkValid sx sy map s W)
    (hWe : walkIdx sx map s W = walkIdx sx map s (P.take j))
    (hWn : (walkCells sx map s W).Nodup)
    (hWa : walkIdx sx map s P ∉ walkCells sx map s W) :
    W = P.take j := by
  obtain ⟨hPv, hPe, hPn, hPuniq⟩ := hu
  set cP := walkCells sx map s P with hcP
  set cW := walkCells sx map s W with hcW
  have hcPlen : cP.length = P.length + 1 := walkCells_length sx map P s
  have hcWlen : cW.length = W.length + 1 := walkCells_length sx map W s
  set D := (cP.drop j).take (P.length - j) with hD
  have hDmem : ∀ c, c ∈ D ↔ ∃ mi, j ≤ mi ∧ mi < P.length ∧ cP.getD mi 0 = c := by
    intro c
    rw [mem_iff_getD]
    constructor
    · rintro ⟨r, hr, he⟩
      rw [hD, List.length_take, List.length_drop, hcPlen] at hr
      have hrb : r < P.length - j := by omega
      have : ((cP.drop j).take (P.length - j)).getD r 0 = cP.getD (j + r) 0 := by
        rw [getD_take _ _ _ hrb (by rw [List.length_drop, hcPlen]; omega)]
        exact getD_drop _ _ _ (by omega)
      rw [hD] at he
      rw [this] at he
      exact ⟨j + r, by omega, by omega, he⟩
    · rintro ⟨mi, hmi1, hmi2, he⟩
      refine ⟨mi - j, ?_, ?_⟩
      · rw [hD, List.length_take, List.length_drop, hcPlen]
        omega
      · rw [hD, getD_take _ _ _ (by omega) (by rw [List.length_drop, hcPlen]; omega),
          getD_drop _ _ _ (by omega)]
        rw [show j + (mi - j) = mi by omega]
        exact he
  have hPq : ∀ q, Decidable (q < cW.length ∧ cW.getD q 0 ∈ D) := by
    intro q
    exact instDecidableAnd
  have hexW : W.length < cW.length ∧ cW.getD W.length 0 ∈ D := by
    refine ⟨by omega, ?_⟩
    have hgl : cW.getD W.length 0 = walkIdx sx map s W := by
      rw [hcW, walkCells_getD sx map W s W.length (le_refl _), List.take_length]
    rw [hgl, hWe, hDmem]
    refine ⟨j, le_refl j, hj, ?_⟩
    rw [hcP]
    exact walkCells_getD sx map P s j (by omega)
  have hex : ∃ q, q < cW.length ∧ cW.getD q 0 ∈ D := ⟨W.length, hexW⟩
  set q := Nat.find hex with hqdef
  obtain ⟨hqlen, hqD⟩ := Nat.find_spec hex
  have hqle : q ≤ W.length := Nat.find_le hexW
  obtain ⟨mi, hmi1, hmi2, hmie⟩ := (hDmem _).mp hqD
  have hGmid : walkIdx sx map s (W.take q) = walkIdx sx map s (P.take mi) := by
    rw [← walkCells_getD sx map W s q hqle, ← walkCells_getD sx map P s mi (by omega)]
    rw [← hcW, ← hcP, hmie]
  -- the glued walk
  have hWsplit : walkValid sx sy map s (W.take q)
      ∧ walkValid sx sy map (walkIdx sx map s (W.take q)) (W.drop q) := by
    rw [← walkValid_append, List.take_append_drop]
    exact hWv
  have hPsplit : walkValid sx sy map s (P.take mi)
      ∧ walkValid sx sy map (walkIdx sx map s (P.take mi)) (P.drop mi) := by
    rw [← walkValid_append, List.take_append_drop]
    exact hPv
  have hGv : walkValid sx sy map s (W.take q ++ P.drop mi) := by
    rw [walkValid_append]
    exact ⟨hWsplit.1, hGmid ▸ hPsplit.2⟩
  have hGe : walkIdx sx map s (W.take q ++ P.drop mi) = e := by
    rw [walkIdx_append, hGmid, ← walkIdx_append, List.take_append_drop]
    exact hPe
  have hAcells : walkCells sx map s (W.take q) = cW.take (q + 1) := by
    have h1 : cW = walkCells sx map s (W.take q)
        ++ (walkCells sx map (walkIdx sx map s (W.take q)) (W.drop q)).tail := by
      rw [hcW]
      conv_lhs => rw [← List.take_append_drop q W]
      exact walkCells_append _ _ _ _ _
    have h2 : (walkCells sx map s (W.take q)).length = q + 1 := by
      rw [walkCells_length, List.length_take]
      omega
    rw [h1, ← h2, List.take_left]
  have hBcells : (walkCells sx map (walkIdx sx map s (W.take q)) (P.drop mi)).tail
      = cP.drop (mi + 1) := by
    have h1 : cP = walkCells sx map s (P.take mi)
        ++ (walkCells sx map (walkIdx sx map s (P.take mi)) (P.drop mi)).tail := by
      rw [hcP]
      conv_lhs => rw [← List.take_append_drop mi P]
      exact walkCells_append _ _ _ _ _
    have h2 : (walkCells sx map s (P.take mi)).length = mi + 1 := by
      rw [walkCells_length, List.length_take]
      omega
    rw [hGmid, h1, ← h2, List.drop_left]
  have hGcells : walkCells sx map s (W.take q ++ P.drop mi)
      = cW.take (q + 1) ++ cP.drop (mi + 1) := by
    rw [walkCells_append, hAcells, hBcells]
  have hGn : (walkCells sx map s (W.take q ++ P.drop mi)).Nodup := by
    rw [hGcells, List.nodup_append]
    refine ⟨(List.take_sublist _ _).nodup hWn, (List.drop_sublist _ _).nodup hPn, ?_⟩
    intro c hcA hcB
    obtain ⟨r, hr, hre⟩ := (mem_iff_getD _ _).mp hcB
    rw [List.length_drop, hcPlen] at hr
    have hre2 : cP.getD (mi + 1 + r) 0 = c := by
      rw [← hre]
      exact (getD_drop _ _ _ (by omega)).symm
    obtain ⟨t, ht, hte⟩ := (mem_iff_getD _ _).mp hcA
    rw [List.length_take] at ht
    have htq : t ≤ q := by omega
    have hte2 : cW.getD t 0 = c := by
      rw [← hte]
      exact (getD_take _ _ _ (by omega) (by omega)).symm
    by_cases hcase : mi + 1 + r = P.length
    · have hce : c = walkIdx sx map s P := by
        rw [← hre2, hcase, hcP,
          walkCells_getD sx map P s P.length (le_refl _), List.take_length]
      have hcmem : c ∈ cW := List.mem_of_mem_take hcA
      rw [hce] at hcmem
      exact hWa hcmem
    · have hcD : c ∈ D := (hDmem c).mpr ⟨mi + 1 + r, by omega, by omega, hre2⟩
      rcases Nat.lt_or_ge t q with htl | htl
      · exact Nat.find_min hex htl ⟨by omega, by rw [hte2]; exact hcD⟩
      · have htq2 : t = q := by omega
        rw [htq2, ← hmie] at hte2
        have := nodup_getD_inj cP hPn mi (mi + 1 + r) (by omega) (by omega)
          (by rw [hte2, hre2])
        omega
  have hGP := hPuniq _ hGv hGe hGn
  have hlq : (W.take q).length = q := by rw [List.length_take]; omega
  have hqmi : q = mi := by
    have hlen := congrArg List.length hGP
    rw [List.length_append, hlq, List.length_drop] at hlen
    omega
  have hWq : W.take q = P.take mi := by
    have h1 : (W.take q ++ P.drop mi).take q = W.take q := List.take_left' hlq
    rw [hGP] at h1
    rw [← h1, hqmi]
  have hqW : q = W.length := by
    by_contra hne
    have hql : q < W.length := by omega
    have hj_le : j ≤ q := by omega
    have h1 : cW.getD j 0 = walkIdx sx map s (P.take j) := by
      rw [hcW, walkCells_getD sx map W s j (by omega)]
      have : W.take j = P.take j := by
        have ht1 : (W.take q).take j = W.take j := by
          rw [List.take_take, min_eq_left hj_le]
        have ht2 : (P.take mi).take j = P.take j := by
          rw [List.take_take, min_eq_left (by omega)]
        rw [← ht1, hWq, ht2]
      rw [this]
    have h2 : cW.getD W.length 0 = walkIdx sx map s (P.take j) := by
      rw [hcW, walkCells_getD sx map W s W.length (le_refl _), List.take_length]
      exact hWe
    have := nodup_getD_inj cW hWn j W.length (by omega) (by omega)
      (by rw [h1, h2])
    omega
  have hWfull : W = P.take mi := by
    conv_lhs => rw [← List.take_length W, ← hqW]
    exact hWq
  have hmij : mi = j := by
    have h2 : cW.getD q 0 = cP.getD j 0 := by
      rw [hcW, hqW, walkCells_getD sx map W s W.length (le_refl _), List.take_length,
        hWe, hcP, walkCells_getD sx map P s j (by omega)]
    exact nodup_getD_inj cP hPn mi j (by omega) (by omega) (by rw [hmie, h2])
  rw [hWfull, hmij]

/-- The `j`-th tile index along a path (the tile after `j` moves). -/
def pcell (sx : Int) (map : List tile_t) (s : Nat) (P : List Nat) (j : Nat) : Nat :=
  walkIdx sx map s (P.take j)

/-- Cost of the first `j` moves of a path, starting facing east. -/
def pcost (P : List Nat) (j : Nat) : Int := walkCost 2 (P.take j)

/-- Facing after the first `j` moves of a path, starting facing east. -/
def pdirf (P : List Nat) (j : Nat) : Nat := lastFacing 2 (P.take j)

theorem pcell_zero (sx : Int) (map : List tile_t) (s : Nat) (P : List Nat) :
    pcell sx map s P 0 = s := rfl

theorem pcell_full (sx : Int) (map : List tile_t) (s : Nat) (P : List Nat) :
    pcell sx map s P P.length = walkIdx sx map s P := by
  unfold pcell
  rw [List.take_length]

theorem pcell_cells (sx : Int) (map : List tile_t) (s : Nat) (P : List Nat)
    (j : Nat) (hj : j ≤ P.length) :
    (walkCells sx map s P).getD j 0 = pcell sx map s P j :=
  walkCells_getD sx map P s j hj

theorem pcost_succ (P : List Nat) (j : Nat) (hj : j < P.length) :
    pcost P (j + 1) = pcost P j + (if pdirf P j ≠ P.getD j 0 then 1001 else 1) := by
  unfold pcost pdirf
  rw [take_succ_getD P j hj, walkCost_append]
  simp [walkCost]

theorem pcost_pos (P : List Nat) (j : Nat) (hj : 1 ≤ j) (hjl : j ≤ P.length) :
    1 ≤ pcost P j := by
  have h := walkCost_ge_len (P.take j) 2
  have hl : (P.take j).length = j := by rw [List.length_take]; omega
  rw [hl] at h
  unfold pcost
  omega

theorem pcell_inj (sx sy : Int) (map : List tile_t) (s e : Nat) (P : List Nat)
    (hu : UniqueWalk sx sy map s e P) (j j2 : Nat) (hj : j ≤ P.length)
    (hj2 : j2 ≤ P.length) (h : pcell sx map s P j = pcell sx map s P j2) :
    j = j2 := by
  apply nodup_getD_inj (walkCells sx map s P) hu.2.2.1 j j2
  · rw [walkCells_length]; omega
  · rw [walkCells_length]; omega
  · rw [pcell_cells sx map s P j hj, pcell_cells sx map s P j2 hj2]
    exact h

theorem pcell_lt (sx sy : Int) (map : List tile_t) (G : Geom sx sy map)
    (s : Nat) (P : List Nat) (hv : walkValid sx sy map s P) (hs : s < map.length)
    (j : Nat) (hj : j ≤ P.length) : pcell sx map s P j < map.length := by
  have hvt : walkValid sx sy map s (P.take j) := by
    have := hv
    rw [← List.take_append_drop j P, walkValid_append] at this
    exact this.1
  apply walkCells_bound sx sy map G (P.take j) s hvt hs
  exact walkIdx_mem_cells sx map (P.take j) s

/-- On a unique-path maze, any valid walk from the start to an interior path
tile that avoids the end tile costs at least the path prefix. -/
theorem cost_ge_pcell (sx sy : Int) (map : List tile_t) (s e : Nat)
    (P : List Nat) (hu : UniqueWalk sx sy map s e P) (j : Nat) (hj : j < P.length)
    (W : List Nat) (hWv : walkValid sx sy map s W)
    (hWe : walkIdx sx map s W = pcell sx map s P j)
    (hWa : walkIdx sx map s P ∉ walkCells sx map s W) :
    pcost P j ≤ walkCost 2 W := by
  obtain ⟨W2, k1, k2, k3, k4, k5, k6⟩ :=
    walk_simplify sx sy map W.length W s 2 (le_refl _) hWv
  have hW2a : walkIdx sx map s P ∉ walkCells sx map s W2 := by
    intro hmem
    have := List.count_pos_iff.mpr hmem
    have hle := k5 (walkIdx sx map s P)
    have h0 := List.count_eq_zero.mpr hWa
    omega
  have hW2 : W2 = P.take j :=
    unique_prefix sx sy map s e P hu j hj W2 k1 (by rw [k2, hWe]; rfl) k3 hW2a
  rw [hW2] at k4
  exact k4

/-- Any valid walk from the start to the end costs at least the unique path
(this is the optimality half of C1). -/
theorem cost_ge_end (sx sy : Int) (map : List tile_t) (s e : Nat)
    (P : List Nat) (hu : UniqueWalk sx sy map s e P)
    (W : List Nat) (hWv : walkValid sx sy map s W)
    (hWe : walkIdx sx map s W = e) :
    walkCost 2 P ≤ walkCost 2 W := by
  obtain ⟨W2, k1, k2, k3, k4, k5, k6⟩ :=
    walk_simplify sx sy map W.length W s 2 (le_refl _) hWv
  have hW2 : W2 = P := hu.2.2.2 W2 k1 (by rw [k2, hWe]) k3
  rw [hW2] at k4
  exact k4

/-- On a unique-path maze, a relaxable neighbor of the start that lies on
the path at position `j ≥ 1` is the first path tile. -/
theorem no_shortcut (sx sy : Int) (map : List tile_t) (s e : Nat)
    (P : List Nat) (hu : UniqueWalk sx sy map s e P) (j md : Nat) (hmd : md < 4)
    (hj : 1 ≤ j) (hjk : j ≤ P.length)
    (hb : inb sx sy (npos map s md))
    (hw : typev map (nbidx sx map s md) ≠ tile_e.wall)
    (hnb : nbidx sx map s md = pcell sx map s P j) : j = 1 := by
  obtain ⟨hPv, hPe, hPn, hPuniq⟩ := hu
  have hvdrop : walkValid sx sy map (pcell sx map s P j) (P.drop j) := by
    have := hPv
    rw [← List.take_append_drop j P, walkValid_append] at this
    exact this.2
  have hQv : walkValid sx sy map s (md :: P.drop j) := by
    refine ⟨hmd, hb, hw, ?_⟩
    rw [hnb]
    exact hvdrop
  have hQe : walkIdx sx map s (md :: P.drop j) = e := by
    show walkIdx sx map (nbidx sx map s md) (P.drop j) = e
    rw [hnb]
    show walkIdx sx map (walkIdx sx map s (P.take j)) (P.drop j) = e
    rw [← walkIdx_append, List.take_append_drop]
    exact hPe
  have hcells_drop : walkCells sx map (pcell sx map s P j) (P.drop j)
      = (walkCells sx map s P).drop j := by
    have h1 : walkCells sx map s P = walkCells sx map s (P.take j)
        ++ (walkCells sx map (pcell sx map s P j) (P.drop j)).tail := by
      conv_lhs => rw [← List.take_append_drop j P]
      exact walkCells_append _ _ _ _ _
    have h2 : (walkCells sx map s (P.take j)).length = j + 1 := by
      rw [walkCells_length, List.length_take]
      omega
    have h3 : ((walkCells sx map s P).drop (j + 1))
        = (walkCells sx map (pcell sx map s P j) (P.drop j)).tail := by
      rw [h1, ← h2, List.drop_left]
    have h4 : (walkCells sx map s P).drop j
        = (walkCells sx map s P).getD j 0 :: (walkCells sx map s P).drop (j + 1) := by
      apply drop_getD_cons
      rw [walkCells_length]
      omega
    rw [h4, h3, pcell_cells sx map s P j hjk]
    cases hmm : walkCells sx map (pcell sx map s P j) (P.drop j) with
    | nil => exact absurd hmm (walkCells_ne_nil _ _ _ _)
    | cons x t =>
      have hx : x = pcell sx map s P j := by
        have := walkCells_head sx map (pcell sx map s P j) (P.drop j)
        rw [hmm] at this
        exact this
      rw [hx]
      rfl
  have hQn : (walkCells sx map s (md :: P.drop j)).Nodup := by
    show (s :: walkCells sx map (nbidx sx map s md) (P.drop j)).Nodup
    rw [hnb, hcells_drop, List.nodup_cons]
    constructor
    · intro hmem
      obtain ⟨r, hr, hre⟩ := (mem_iff_getD _ _).mp hmem
      rw [List.length_drop, walkCells_length] at hr
      rw [getD_drop _ _ _ (by rw [walkCells_length]; omega)] at hre
      have hs0 : (walkCells sx map s P).getD 0 0 = s := walkCells_head sx map s P
      have := nodup_getD_inj (walkCells sx map s P) hPn (j + r) 0
        (by rw [walkCells_length]; omega) (by rw [walkCells_length]; omega)
        (by rw [hre, hs0])
      omega
    · exact (List.drop_sublist _ _).nodup hPn
  have hQP := hPuniq _ hQv hQe hQn
  have hlen := congrArg List.length hQP
  simp only [List.length_cons, List.length_drop] at hlen
  omega

/-- On a unique-path maze, a valid walk that reaches path tile `j` exactly
once with final move `md` must make the path's own `j`-th move, from the
path's previous tile. -/
theorem first_touch (sx sy : Int) (map : List tile_t) (G : Geom sx sy map)
    (s e : Nat) (P : List Nat) (hu : UniqueWalk sx sy map s e P)
    (hs : s < map.length)
    (j : Nat) (hj1 : 1 ≤ j) (hjk : j ≤ P.length)
    (W0 : List Nat) (md : Nat)
    (hv : walkValid sx sy map s (W0 ++ [md]))
    (hend2 : walkIdx sx map s (W0 ++ [md]) = pcell sx map s P j)
    (hcnt : (walkCells sx map s (W0 ++ [md])).count (pcell sx map s P j) = 1)
    (he : j < P.length →
      walkIdx sx map s P ∉ walkCells sx map s (W0 ++ [md])) :
    P.take j = P.take (j - 1) ++ [md]
    ∧ walkIdx sx map s W0 = pcell sx map s P (j - 1)
    ∧ md = P.getD (j - 1) 0 := by
  obtain ⟨W2, k1, k2, k3, k4, k5, k6⟩ :=
    walk_simplify sx sy map (W0 ++ [md]).length (W0 ++ [md]) s 2 (le_refl _) hv
  obtain ⟨ms0b, hms0b⟩ := k6 (by rw [hend2]; exact hcnt) md W0 rfl
  have hW2 : W2 = P.take j := by
    rcases Nat.lt_or_ge j P.length with hjlt | hjge
    · apply unique_prefix sx sy map s e P hu j hjlt W2 k1 (by rw [k2, hend2]; rfl) k3
      intro hmem
      have hpos := List.count_pos_iff.mpr hmem
      have hle := k5 (walkIdx sx map s P)
      have h0 := List.count_eq_zero.mpr (he hjlt)
      omega
    · have hje : j = P.length := by omega
      have := hu.2.2.2 W2 k1
        (by rw [k2, hend2, hje, pcell_full]; exact hu.2.1) k3
      rw [this, hje, List.take_length]
  have hlb : ms0b.length = j - 1 := by
    have h1 := congrArg List.length hW2
    rw [hms0b] at h1
    rw [List.length_append, List.length_take] at h1
    simp only [List.length_cons, List.length_nil] at h1
    omega
  have hms0b_tk : ms0b = P.take (j - 1) := by
    have h1 : (ms0b ++ [md]).take (j - 1) = ms0b := List.take_left' hlb
    rw [← hms0b, hW2, List.take_take, min_eq_left (by omega)] at h1
    exact h1.symm
  have hdec : P.take j = P.take (j - 1) ++ [md] := by
    rw [← hms0b_tk, ← hms0b, hW2]
  have hgd : md = P.getD (j - 1) 0 := by
    have h1 : P.take (j - 1 + 1) = P.take (j - 1) ++ [P.getD (j - 1) 0] :=
      take_succ_getD P (j - 1) (by omega)
    have h2 : j - 1 + 1 = j := by omega
    rw [h2, hdec] at h1
    have h4 := List.append_cancel_left h1
    have h5 : md = P.getD (j - 1) 0 := by
      injection h4
    exact h5
  refine ⟨hdec, ?_, hgd⟩
  -- the walk and the path enter tile j from the same position
  have hv0 : walkValid sx sy map s W0
      ∧ walkValid sx sy map (walkIdx sx map s W0) [md] := by
    rw [← walkValid_append]
    exact hv
  obtain ⟨hmd4, hb0, _, _⟩ := hv0.2
  have hvW2 : walkValid sx sy map s (P.take (j - 1))
      ∧ walkValid sx sy map (pcell sx map s P (j - 1)) [md] := by
    have := k1
    rw [hms0b, hms0b_tk, walkValid_append] at this
    exact this
  obtain ⟨_, hb1, _, _⟩ := hvW2.2
  have hidx0 : nbidx sx map (walkIdx sx map s W0) md = pcell sx map s P j := by
    rw [← hend2, walkIdx_append]
    rfl
  have hidx1 : nbidx sx map (pcell sx map s P (j - 1)) md = pcell sx map s P j := by
    have h1 : walkIdx sx map s (P.take (j - 1) ++ [md]) = pcell sx map s P j := by
      rw [← hdec]
      rfl
    rw [walkIdx_append] at h1
    exact h1
  have hp0 : posv map (pcell sx map s P j) = npos map (walkIdx sx map s W0) md := by
    rw [← hidx0]
    exact posv_nbidx sx sy map G _ md hb0
  have hp1 : posv map (pcell sx map s P j)
      = npos map (pcell sx map s P (j - 1)) md := by
    rw [← hidx1]
    exact posv_nbidx sx sy map G _ md hb1
  have hpeq : posv map (walkIdx sx map s W0)
      = posv map (pcell sx map s P (j - 1)) := by
    have h1 := hp0.symm.trans hp1
    unfold npos at h1
    unfold posv
    rcases ha : ((map.getD (walkIdx sx map s W0) default).pos) with ⟨ax, ay⟩
    rcases hbp : ((map.getD (pcell sx map s P (j - 1)) default).pos) with ⟨bx, by2⟩
    rw [ha, hbp] at h1
    simp only [ivec2.add, ivec2.mk.injEq] at h1
    simp only [ivec2.mk.injEq]
    omega
  have hW0lt : walkIdx sx map s W0 < map.length := by
    apply walkCells_bound sx sy map G W0 s hv0.1 hs
    exact walkIdx_mem_cells sx map W0 s
  have hplt : pcell sx map s P (j - 1) < map.length :=
    pcell_lt sx sy map G s P hu.1 hs (j - 1) (by omega)
  exact posv_inj sx sy map G _ _ hW0lt hplt hpeq

/-! ## C1: the search with the heuristic as a parameter

The spec asserts that the heuristic influences only the order and count of
expansions, never the final minimum. To state this, the search is
reproduced with the heuristic function as an explicit parameter; applying
it to `heuristic` recovers the original definitions exactly. -/

/-- `try_relax` with the heuristic as a parameter. -/
def try_relaxH (hfn : tile_t → tile_t → Int) (sx sy : Int)
    (end_idx : Nat) (current_idx : Nat) (move_dir : Nat)
    (acc : List tile_t × List Nat × Int) : List tile_t × List Nat × Int :=
  let (map, pq, sc) := acc
  let current := map.getD current_idx default
  let n := current.pos.add (state_moves move_dir)
  if n.x < 0 ∨ n.x ≥ sx ∨ n.y < 0 ∨ n.y ≥ sy then (map, pq, sc)
  else
    let neighbor_idx := maze_t.lin sx n.x n.y
    let neighbor := map.getD neighbor_idx default
    if neighbor.type = tile_e.wall then (map, pq, sc)
    else
      let move_cost : Int := if current.state.dir ≠ move_dir then 1001 else 1
      let g_cost := current.state.g_cost + move_cost
      if neighbor.state.g_cost = 0 ∨ g_cost < neighbor.state.g_cost then
        let nb1 : tile_t :=
          { neighbor with state := { neighbor.state with dir := move_dir, g_cost := g_cost } }
        let h := hfn nb1 (map.getD end_idx default)
        let nb2 : tile_t :=
          { nb1 with state := { nb1.state with h_cost := h, p_idx := current_idx } }
        (map.set neighbor_idx nb2, pq ++ [neighbor_idx], sc + 1)
      else (map, pq, sc)

/-- The four-direction expansion with the heuristic as a parameter. -/
def expand4H (hfn : tile_t → tile_t → Int) (sx sy : Int)
    (end_idx : Nat) (current_idx : Nat)
    (acc : List tile_t × List Nat × Int) : List tile_t × List Nat × Int :=
  try_relaxH hfn sx sy end_idx current_idx 3
    (try_relaxH hfn sx sy end_idx current_idx 2
      (try_relaxH hfn sx sy end_idx current_idx 1
        (try_relaxH hfn sx sy end_idx current_idx 0 acc)))

/-- The search loop with the heuristic as a parameter. -/
def solve_loopH (hfn : tile_t → tile_t → Int) (sx sy : Int) (end_idx : Nat) :
    Nat → List tile_t → List Nat → Int → Option (List tile_t × Int × Int)
  | 0, _, _, _ => none
  | fuel + 1, map, pq, sc =>
    match pq_pop map pq with
    | none => some (map, sc, -1)
    | some (current_idx, pq') =>
      if current_idx = end_idx then
        some (map, sc, (map.getD current_idx default).state.g_cost)
      else
        let (map', pq'', sc') := expand4H hfn sx sy end_idx current_idx (map, pq', sc)
        solve_loopH hfn sx sy end_idx fuel map' pq'' sc'

/-- `maze_t::solve` with the heuristic as a parameter. -/
def maze_t.solveH (hfn : tile_t → tile_t → Int) (fuel : Nat) (elapsed : Int)
    (m : maze_t) : Option (Except String (maze_t × List String)) :=
  let map0 := m.map.map reset_tile
  let se := locate map0
  if se.1 = -1 ∨ se.2 = -1 then
    some (.error "Maze must have a start (S) and an end (E).")
  else
    let start_idx := se.1.toNat
    let end_idx := se.2.toNat
    let st := map0.getD start_idx default
    let map1 := map0.set start_idx { st with state := { st.state with dir := 2 } }
    match solve_loopH hfn m.size.x m.size.y end_idx fuel map1 [start_idx] 1 with
    | none => none
    | some (map2, sc, cost) =>
      if cost = -1 then
        some (.ok ({ m with map := map2, solve_time := elapsed,
                            search_count := sc, path_cost := -1 },
                   ["No path found to the goal."]))
      else
        match mark_path fuel map2 end_idx start_idx with
        | none => none
        | some map3 =>
          some (.ok ({ m with map := map3, solve_time := elapsed,
                              search_count := sc, path_cost := cost }, []))

theorem try_relaxH_heuristic (sx sy : Int) (e ci md : Nat)
    (acc : List tile_t × List Nat × Int) :
    try_relaxH heuristic sx sy e ci md acc = try_relax sx sy e ci md acc := rfl

theorem expand4H_heuristic (sx sy : Int) (e ci : Nat)
    (acc : List tile_t × List Nat × Int) :
    expand4H heuristic sx sy e ci acc = expand4 sx sy e ci acc := rfl

theorem solve_loopH_succ (hfn : tile_t → tile_t → Int) (sx sy : Int) (e : Nat)
    (fuel : Nat) (map : List tile_t) (pq : List Nat) (sc : Int) :
    solve_loopH hfn sx sy e (fuel + 1) map pq sc =
      (match pq_pop map pq with
      | none => some (map, sc, -1)
      | some (current_idx, pq') =>
        if current_idx = e then
          some (map, sc, (map.getD current_idx default).state.g_cost)
        else
          let (map', pq'', sc') := expand4H hfn sx sy e current_idx (map, pq', sc)
          solve_loopH hfn sx sy e fuel map' pq'' sc') := rfl

theorem solve_loopH_zero (hfn : tile_t → tile_t → Int) (sx sy : Int) (e : Nat)
    (map : List tile_t) (pq : List Nat) (sc : Int) :
    solve_loopH hfn sx sy e 0 map pq sc = none := rfl

/-- With the program's own heuristic, the parameterized loop is the
original loop. -/
theorem solve_loopH_heuristic (sx sy : Int) (e : Nat) : ∀ (fuel : Nat)
    (map : List tile_t) (pq : List Nat) (sc : Int),
    solve_loopH heuristic sx sy e fuel map pq sc = solve_loop sx sy e fuel map pq sc := by
  intro fuel
  induction fuel with
  | zero => intro map pq sc; rfl
  | succ fuel ih =>
    intro map pq sc
    rw [solve_loopH_succ, solve_loop_succ]
    cases hp : pq_pop map pq with
    | none => rfl
    | some v =>
      obtain ⟨ci, pq'⟩ := v
      dsimp only
      by_cases hce : ci = e
      · rw [if_pos hce, if_pos hce]
      · rw [if_neg hce, if_neg hce, expand4H_heuristic]
        rcases hre : expand4 sx sy e ci (map, pq', sc) with ⟨m1, pq1, sc1⟩
        exact ih m1 pq1 sc1

/-- With the program's own heuristic, the parameterized solve is the
original `maze_t::solve`. -/
theorem solveH_heuristic (fuel : Nat) (t : Int) (m : maze_t) :
    maze_t.solveH heuristic fuel t m = m.solve fuel t := by
  simp only [maze_t.solveH, maze_t.solve, solve_loopH_heuristic]

/-- The updated neighbor tile written by a fired parameterized relaxation. -/
def relaxed_tileH (hfn : tile_t → tile_t → Int) (sx : Int) (e : Nat)
    (map : List tile_t) (ci md : Nat) : tile_t :=
  let neighbor := map.getD (nbidx sx map ci md) default
  let nb1 : tile_t :=
    { neighbor with state := { neighbor.state with dir := md, g_cost := cand map ci md } }
  { nb1 with state := { nb1.state with
      h_cost := hfn nb1 (map.getD e default), p_idx := ci } }

theorem try_relaxH_oob (hfn : tile_t → tile_t → Int) (sx sy : Int)
    (e ci md : Nat) (map : List tile_t) (pq : List Nat) (sc : Int)
    (hb : (npos map ci md).x < 0 ∨ (npos map ci md).x ≥ sx
        ∨ (npos map ci md).y < 0 ∨ (npos map ci md).y ≥ sy) :
    try_relaxH hfn sx sy e ci md (map, pq, sc) = (map, pq, sc) := by
  unfold npos at hb
  unfold try_relaxH
  dsimp only
  rw [if_pos hb]

theorem try_relaxH_wall (hfn : tile_t → tile_t → Int) (sx sy : Int)
    (e ci md : Nat) (map : List tile_t) (pq : List Nat) (sc : Int)
    (hb : ¬((npos map ci md).x < 0 ∨ (npos map ci md).x ≥ sx
        ∨ (npos map ci md).y < 0 ∨ (npos map ci md).y ≥ sy))
    (hw : (map.getD (nbidx sx map ci md) default).type = tile_e.wall) :
    try_relaxH hfn sx sy e ci md (map, pq, sc) = (map, pq, sc) := by
  unfold npos at hb
  unfold nbidx npos at hw
  unfold try_relaxH
  dsimp only
  rw [if_neg hb, if_pos hw]

theorem try_relaxH_nofire (hfn : tile_t → tile_t → Int) (sx sy : Int)
    (e ci md : Nat) (map : List tile_t) (pq : List Nat) (sc : Int)
    (hb : ¬((npos map ci md).x < 0 ∨ (npos map ci md).x ≥ sx
        ∨ (npos map ci md).y < 0 ∨ (npos map ci md).y ≥ sy))
    (hw : ¬(map.getD (nbidx sx map ci md) default).type = tile_e.wall)
    (hf : ¬((map.getD (nbidx sx map ci md) default).state.g_cost = 0
        ∨ cand map ci md < (map.getD (nbidx sx map ci md) default).state.g_cost)) :
    try_relaxH hfn sx sy e ci md (map, pq, sc) = (map, pq, sc) := by
  unfold npos at hb
  unfold nbidx npos at hw
  unfold cand mcost nbidx npos at hf
  unfold try_relaxH
  dsimp only
  rw [if_neg hb, if_neg hw, if_neg hf]

theorem try_relaxH_fired (hfn : tile_t → tile_t → Int) (sx sy : Int)
    (e ci md : Nat) (map : List tile_t) (pq : List Nat) (sc : Int)
    (hb : ¬((npos map ci md).x < 0 ∨ (npos map ci md).x ≥ sx
        ∨ (npos map ci md).y < 0 ∨ (npos map ci md).y ≥ sy))
    (hw : ¬(map.getD (nbidx sx map ci md) default).type = tile_e.wall)
    (hf : (map.getD (nbidx sx map ci md) default).state.g_cost = 0
        ∨ cand map ci md < (map.getD (nbidx sx map ci md) default).state.g_cost) :
    try_relaxH hfn sx sy e ci md (map, pq, sc)
      = (map.set (nbidx sx map ci md) (relaxed_tileH hfn sx e map ci md),
         pq ++ [nbidx sx map ci md], sc + 1) := by
  unfold npos at hb
  unfold nbidx npos at hw
  unfold cand mcost nbidx npos at hf
  unfold try_relaxH
  dsimp only
  rw [if_neg hb, if_neg hw, if_pos hf]
  rfl

/-- The unique-walk hypothesis only depends on positions and tile kinds. -/
theorem uniq_congr (sx sy : Int) (map2 map : List tile_t)
    (hp : ∀ i, posv map2 i = posv map i) (ht : ∀ i, typev map2 i = typev map i)
    (s e : Nat) (P : List Nat) (hu : UniqueWalk sx sy map s e P) :
    UniqueWalk sx sy map2 s e P := by
  obtain ⟨h1, h2, h3, h4⟩ := hu
  refine ⟨?_, ?_, ?_, ?_⟩
  · exact ((walk_congr sx sy map2 map hp ht P s).1).mpr h1
  · rw [(walk_congr sx sy map2 map hp ht P s).2.1]
    exact h2
  · rw [(walk_congr sx sy map2 map hp ht P s).2.2]
    exact h3
  · intro Q hv he hn
    apply h4 Q
    · exact ((walk_congr sx sy map2 map hp ht Q s).1).mp hv
    · rw [← (walk_congr sx sy map2 map hp ht Q s).2.1]
      exact he
    · rw [← (walk_congr sx sy map2 map hp ht Q s).2.2]
      exact hn

/-! ## C1: the unique-path search invariant -/

/-- Map-only part of the unique-path search invariant: basic shape facts,
the unique-path hypothesis, assigned tiles carry realizable states reached
through assigned non-end tiles, and every assigned path tile carries
exactly its path prefix cost and facing. -/
structure SInv (sx sy : Int) (s e : Nat) (P : List Nat) (map : List tile_t) : Prop where
  inv : InvMap sx sy s map
  hse : s ≠ e
  hsl : s < map.length
  hel : e < map.length
  uniq : UniqueWalk sx sy map s e P
  sdir : dirv map s < 4
  zg : ∀ i, dirv map i = 4 → gv map i = 0
  breal : ∀ i, i < map.length → dirv map i < 4 → i ≠ e →
    ∃ ms, walkValid sx sy map s ms ∧ walkIdx sx map s ms = i
      ∧ lastFacing 2 ms = dirv map i ∧ walkCost 2 ms = gv map i
      ∧ (∀ c ∈ walkCells sx map s ms, c < map.length ∧ dirv map c < 4)
      ∧ e ∉ walkCells sx map s ms
  cgood : ∀ j, 1 ≤ j → j < P.length → dirv map (pcell sx map s P j) < 4 →
    gv map (pcell sx map s P j) = pcost P j
      ∧ dirv map (pcell sx map s P j) = pdirf P j
  egood : dirv map e < 4 → gv map e = pcost P P.length

/-- On a unique-path maze the path is nonempty. -/
theorem P_ne_nil (sx sy : Int) (s e : Nat) (P : List Nat) (map : List tile_t)
    (hse : s ≠ e) (hu : UniqueWalk sx sy map s e P) : 1 ≤ P.length := by
  cases hP : P with
  | nil =>
    exfalso
    apply hse
    have := hu.2.1
    rw [hP] at this
    exact this
  | cons d r => simp

/-- Interior path cells differ from the end tile. -/
theorem pcell_ne_e (sx sy : Int) (s e : Nat) (P : List Nat) (map : List tile_t)
    (hu : UniqueWalk sx sy map s e P) (j : Nat) (hj : j < P.length) :
    pcell sx map s P j ≠ e := by
  intro h
  have he : pcell sx map s P P.length = e := by
    rw [pcell_full]
    exact hu.2.1
  have := pcell_inj sx sy map s e P hu j P.length (by omega) (le_refl _)
    (by rw [h, he])
  omega

/-- Path cells other than the start differ from the start. -/
theorem pcell_ne_s (sx sy : Int) (s e : Nat) (P : List Nat) (map : List tile_t)
    (hu : UniqueWalk sx sy map s e P) (j : Nat) (hj1 : 1 ≤ j)
    (hj : j ≤ P.length) : pcell sx map s P j ≠ s := by
  intro h
  have := pcell_inj sx sy map s e P hu j 0 hj (by omega)
    (by rw [h, pcell_zero])
  omega

theorem walkCost_single (f d : Nat) : walkCost f [d] = if f ≠ d then 1001 else 1 := by
  simp [walkCost]

set_option maxHeartbeats 3200000 in
/-- One parameterized relaxation step preserves the unique-path search
invariant: shapes, the measure, frontier monotonicity, and the exact path
costs on path tiles (a fired relaxation onto a path tile is either its
first assignment — which lands exactly on the prefix cost via the path's
own move — or impossible, because assigned path tiles already carry the
minimum realizable cost). -/
theorem try_relaxH_inv2 (hfn : tile_t → tile_t → Int) (sx sy : Int)
    (s e ci md : Nat) (P : List Nat) (map : List tile_t) (pq : List Nat) (sc : Int)
    (sinv : SInv sx sy s e P map)
    (hpq : ∀ j ∈ pq, j < map.length ∧ (j = s ∨ dirv map j < 4))
    (hmd : md < 4) (hci : ci < map.length) (hcia : dirv map ci < 4) (hcie : ci ≠ e)
    (hfresh : dirv map (pcell sx map s P 1) < 4
      ∨ (ci = s ∧ gv map s = 0 ∧ dirv map s = 2)) :
    SInv sx sy s e P (try_relaxH hfn sx sy e ci md (map, pq, sc)).1
    ∧ (∀ j ∈ (try_relaxH hfn sx sy e ci md (map, pq, sc)).2.1,
        j < map.length
          ∧ (j = s ∨ dirv (try_relaxH hfn sx sy e ci md (map, pq, sc)).1 j < 4))
    ∧ (try_relaxH hfn sx sy e ci md (map, pq, sc)).1.length = map.length
    ∧ (∀ i, typev (try_relaxH hfn sx sy e ci md (map, pq, sc)).1 i = typev map i)
    ∧ (∀ i, posv (try_relaxH hfn sx sy e ci md (map, pq, sc)).1 i = posv map i)
    ∧ (∀ i, dirv map i < 4 → dirv (try_relaxH hfn sx sy e ci md (map, pq, sc)).1 i < 4)
    ∧ Msr (try_relaxH hfn sx sy e ci md (map, pq, sc)).1
          (try_relaxH hfn sx sy e ci md (map, pq, sc)).2.1 ≤ Msr map pq
    ∧ (∀ j ∈ pq, j ∈ (try_relaxH hfn sx sy e ci md (map, pq, sc)).2.1)
    ∧ (∀ i, dirv (try_relaxH hfn sx sy e ci md (map, pq, sc)).1 i < 4 →
        dirv map i < 4 ∨ i ∈ (try_relaxH hfn sx sy e ci md (map, pq, sc)).2.1)
    ∧ gv (try_relaxH hfn sx sy e ci md (map, pq, sc)).1 ci = gv map ci
    ∧ dirv (try_relaxH hfn sx sy e ci md (map, pq, sc)).1 ci = dirv map ci := by
  obtain invm := sinv.inv
  by_cases hb : ((npos map ci md).x < 0 ∨ (npos map ci md).x ≥ sx
      ∨ (npos map ci md).y < 0 ∨ (npos map ci md).y ≥ sy)
  · rw [try_relaxH_oob hfn sx sy e ci md map pq sc hb]
    exact ⟨sinv, hpq, rfl, fun i => rfl, fun i => rfl, fun i h => h, le_refl _,
      fun j hj => hj, fun i h => Or.inl h, rfl, rfl⟩
  · by_cases hw : (map.getD (nbidx sx map ci md) default).type = tile_e.wall
    · rw [try_relaxH_wall hfn sx sy e ci md map pq sc hb hw]
      exact ⟨sinv, hpq, rfl, fun i => rfl, fun i => rfl, fun i h => h, le_refl _,
        fun j hj => hj, fun i h => Or.inl h, rfl, rfl⟩
    by_cases hf : ((map.getD (nbidx sx map ci md) default).state.g_cost = 0
        ∨ cand map ci md < (map.getD (nbidx sx map ci md) default).state.g_cost)
    swap
    · rw [try_relaxH_nofire hfn sx sy e ci md map pq sc hb hw hf]
      exact ⟨sinv, hpq, rfl, fun i => rfl, fun i => rfl, fun i h => h, le_refl _,
        fun j hj => hj, fun i h => Or.inl h, rfl, rfl⟩
    rw [try_relaxH_fired hfn sx sy e ci md map pq sc hb hw hf]
    dsimp only
    obtain ⟨hnb_lt, hnb_ne⟩ := nbidx_facts sx sy s ci md map invm hci hmd hb
    set ni := nbidx sx map ci md with hni
    set nt := relaxed_tileH hfn sx e map ci md with hnt
    have hget_ni : (map.set ni nt).getD ni default = nt := getD_set_self _ _ _ _ hnb_lt
    have hget_ne : ∀ j, j ≠ ni → (map.set ni nt).getD j default = map.getD j default :=
      fun j hj => getD_set_ne _ _ _ _ _ (fun h => hj h.symm)
    have hnt_dir : nt.state.dir = md := rfl
    have hnt_g : nt.state.g_cost = cand map ci md := rfl
    have hnt_p : nt.state.p_idx = ci := rfl
    have hnt_type : nt.type = (map.getD ni default).type := rfl
    have hnt_pos : nt.pos = (map.getD ni default).pos := rfl
    have hposv : ∀ i, posv (map.set ni nt) i = posv map i := by
      intro i
      by_cases h : i = ni
      · subst h; unfold posv; rw [hget_ni, hnt_pos]
      · unfold posv; rw [hget_ne i h]
    have htypev : ∀ i, typev (map.set ni nt) i = typev map i := by
      intro i
      by_cases h : i = ni
      · subst h; unfold typev; rw [hget_ni, hnt_type]
      · unfold typev; rw [hget_ne i h]
    have hdirv_ni : dirv (map.set ni nt) ni = md := by
      unfold dirv; rw [hget_ni, hnt_dir]
    have hdirv : ∀ i, i ≠ ni → dirv (map.set ni nt) i = dirv map i := by
      intro i h; unfold dirv; rw [hget_ne i h]
    have hgv_ni : gv (map.set ni nt) ni = cand map ci md := by
      unfold gv; rw [hget_ni, hnt_g]
    have hgv : ∀ i, i ≠ ni → gv (map.set ni nt) i = gv map i := by
      intro i h; unfold gv; rw [hget_ne i h]
    have hpv_ni : pv (map.set ni nt) ni = ci := by
      unfold pv; rw [hget_ni, hnt_p]
    have hpv : ∀ i, i ≠ ni → pv (map.set ni nt) i = pv map i := by
      intro i h; unfold pv; rw [hget_ne i h]
    have hdmono : ∀ i, dirv map i < 4 → dirv (map.set ni nt) i < 4 := by
      intro i h
      by_cases hh : i = ni
      · subst hh; rw [hdirv_ni]; exact hmd
      · rwa [hdirv i hh]
    have hmc1 : 1 ≤ mcost map ci md := by unfold mcost; split_ifs <;> omega
    have hmc2 : mcost map ci md ≤ 1001 := by unfold mcost; split_ifs <;> omega
    have hgci : gv map ci = (map.getD ci default).state.g_cost := rfl
    have hcand1 : 1 ≤ cand map ci md := by
      have h0 := invm.g_nonneg ci
      rw [hgci] at h0
      unfold cand
      omega
    have hA : assigned (map.set ni nt)
        = assigned map + (if (map.getD ni default).state.g_cost = 0 then 1 else 0) := by
      have hcnt := countP_set (fun t => t.state.g_cost ≠ 0) map ni nt hnb_lt
      unfold assigned
      simp only [decide_eq_true_eq, hnt_g] at hcnt
      split_ifs at hcnt ⊢ <;> omega
    have hAle : assigned map ≤ assigned (map.set ni nt) := by
      rw [hA]; split_ifs <;> omega
    have hAlt : (map.getD ni default).state.g_cost = 0 → assigned map < map.length := by
      intro hg0
      by_contra hge
      push_neg at hge
      have hle : assigned map = map.length :=
        Nat.le_antisymm (List.countP_le_length _) hge
      have hall := List.countP_eq_length.mp hle
      have hmem : map.getD ni default ∈ map := by
        rw [List.getD_eq_getElem _ _ hnb_lt]
        exact List.getElem_mem hnb_lt
      have := hall _ hmem
      simp only [decide_eq_true_eq] at this
      exact this hg0
    have hcand_le : cand map ci md ≤ 1001 * ((assigned (map.set ni nt) : Nat) : Int) := by
      rcases hf with hg0 | hlt2
      · have hgb := invm.g_bound ci
        rw [hgci] at hgb
        rw [hA, if_pos hg0]
        unfold cand
        push_cast
        omega
      · have hgb := invm.g_bound ni
        have hgni : gv map ni = (map.getD ni default).state.g_cost := rfl
        rw [hgni] at hgb
        have hA2 : (assigned map : Int) ≤ ((assigned (map.set ni nt) : Nat) : Int) := by
          exact_mod_cast hAle
        omega
    have hInvMap : InvMap sx sy s (map.set ni nt) := by
      refine ⟨invm.hsx, invm.hsy, ?_, ?_, ?_, ?_, ?_, ?_, ?_⟩
      · rw [length_set_eq, invm.len]
      · intro i hi
        rw [hposv i]
        exact invm.pos_law i (by rwa [length_set_eq] at hi)
      · intro i
        by_cases h : i = ni
        · subst h; rw [hdirv_ni]; omega
        · rw [hdirv i h]; exact invm.dir_le i
      · intro i
        by_cases h : i = ni
        · subst h; rw [hgv_ni]; omega
        · rw [hgv i h]; exact invm.g_nonneg i
      · intro i hi hd
        by_cases h : i = ni
        · subst h; rw [hgv_ni]; omega
        · rw [hgv i h]
          exact invm.g_pos i hi (by rwa [hdirv i h] at hd)
      · intro i
        by_cases h : i = ni
        · subst h; rw [hgv_ni]; exact hcand_le
        · rw [hgv i h]
          have := invm.g_bound i
          have hA2 : (assigned map : Int) ≤ ((assigned (map.set ni nt) : Nat) : Int) := by
            exact_mod_cast hAle
          omega
      · intro i hi hd
        by_cases hini : i = ni
        · subst hini
          by_cases hcis : ci = s
          · left; rw [hpv_ni]; exact hcis
          · right
            refine ⟨?_, ?_, ?_⟩
            · rw [hpv_ni, hdirv ci (fun h => hnb_ne h.symm)]
              exact hcia
            · rw [hpv_ni, hgv ci (fun h => hnb_ne h.symm), hgv_ni]
              rw [hgci]
              unfold cand
              omega
            · rw [hpv_ni, length_set_eq]
              exact hci
        · have hd_old : dirv map i < 4 := by rwa [hdirv i hini] at hd
          rcases invm.parent i hi hd_old with hp | ⟨hpd, hpg, hpl⟩
          · left; rw [hpv i hini]; exact hp
          · by_cases hpni : pv map i = ni
            · by_cases hnis : ni = s
              · left; rw [hpv i hini, hpni, hnis]
              · right
                have hgni_pos : 1 ≤ gv map ni := invm.g_pos ni hnis (hpni ▸ hpd)
                have hgni : gv map ni = (map.getD ni default).state.g_cost := rfl
                have hfired : cand map ci md < gv map ni := by
                  rcases hf with h0 | hlt2
                  · rw [hgni] at hgni_pos; omega
                  · rw [hgni]; exact hlt2
                refine ⟨?_, ?_, ?_⟩
                · rw [hpv i hini, hpni, hdirv_ni]; exact hmd
                · rw [hpv i hini, hpni, hgv_ni, hgv i hini]
                  have : gv map ni < gv map i := hpni ▸ hpg
                  omega
                · rw [hpv i hini, hpni, length_set_eq]; exact hnb_lt
            · right
              refine ⟨?_, ?_, ?_⟩
              · rw [hpv i hini, hdirv _ hpni]; exact hpd
              · rw [hpv i hini, hgv _ hpni, hgv i hini]; exact hpg
              · rw [hpv i hini, length_set_eq]; exact hpl
    have hmsr : Msr (map.set ni nt) (pq ++ [ni]) ≤ Msr map pq := by
      have hexch := gsum_set (Bnd map.length) map ni nt hnb_lt
      have hBnd : Bnd (map.set ni nt).length = Bnd map.length := by
        rw [length_set_eq]
      have hgval_nt : gval (Bnd map.length) nt = (cand map ci md).toNat := by
        unfold gval
        rw [hnt_g, if_neg (by omega)]
      have hgval_lt : gval (Bnd map.length) nt
          < gval (Bnd map.length) (map.getD ni default) := by
        rw [hgval_nt]
        unfold gval
        rcases hf with hg0 | hlt2
        · rw [if_pos hg0]
          unfold Bnd
          have hNlt := hAlt hg0
          have hcl : cand map ci md ≤ 1001 * ((assigned (map.set ni nt) : Nat) : Int) :=
            hcand_le
          rw [hA, if_pos hg0] at hcl
          push_cast at hcl
          omega
        · have hg0n : ¬ (map.getD ni default).state.g_cost = 0 := by omega
          rw [if_neg hg0n]
          omega
      unfold Msr
      rw [hBnd, List.length_append]
      simp only [List.length_cons, List.length_nil]
      omega
    -- walk-geometry transports
    have hwcv : ∀ ms i, walkValid sx sy (map.set ni nt) i ms ↔ walkValid sx sy map i ms :=
      fun ms i => (walk_congr sx sy (map.set ni nt) map hposv htypev ms i).1
    have hwci : ∀ ms i, walkIdx sx (map.set ni nt) i ms = walkIdx sx map i ms :=
      fun ms i => (walk_congr sx sy (map.set ni nt) map hposv htypev ms i).2.1
    have hwcc : ∀ ms i, walkCells sx (map.set ni nt) i ms = walkCells sx map i ms :=
      fun ms i => (walk_congr sx sy (map.set ni nt) map hposv htypev ms i).2.2
    have hpcl : ∀ j, pcell sx (map.set ni nt) s P j = pcell sx map s P j :=
      fun j => hwci (P.take j) s
    -- the realizing walk of the current tile, extended by this move
    obtain ⟨Wc, hWv, hWi, hWf, hWg, hWcells, hWe2⟩ := sinv.breal ci hci hcia hcie
    have hbI : inb sx sy (npos map ci md) := hb
    have hvext : walkValid sx sy map s (Wc ++ [md]) := by
      rw [walkValid_append]
      refine ⟨hWv, ?_⟩
      rw [hWi]
      exact ⟨hmd, hbI, hw, trivial⟩
    have hiext : walkIdx sx map s (Wc ++ [md]) = ni := by
      rw [walkIdx_append, hWi]
      rfl
    have hcext : walkCells sx map s (Wc ++ [md]) = walkCells sx map s Wc ++ [ni] := by
      rw [walkCells_append, hWi]
      rfl
    have hgext : walkCost 2 (Wc ++ [md]) = cand map ci md := by
      rw [walkCost_append, hWf, hWg, walkCost_single]
      rfl
    -- the key cost identity for a first assignment on the path
    have hkey : ∀ j, 1 ≤ j → j ≤ P.length → pcell sx map s P j = ni →
        dirv map ni = 4 → P.take j = P.take (j - 1) ++ [md] →
        ci = pcell sx map s P (j - 1) → cand map ci md = pcost P j := by
      intro j hj1 hjk hpc hg4 hdec hpred
      have hcost_j : pcost P j = pcost P (j - 1)
          + (if pdirf P (j - 1) ≠ md then 1001 else 1) := by
        unfold pcost pdirf
        rw [hdec, walkCost_append, walkCost_single]
      rcases Nat.lt_or_ge j 2 with hj2 | hj2
      · have hj1e : j = 1 := by omega
        subst hj1e
        have hcs : ci = s := by rw [hpred]; rfl
        rcases hfresh with hfa | ⟨_, hgs, hds⟩
        · rw [hpc] at hfa
          omega
        · rw [hcost_j]
          unfold cand mcost
          rw [hcs]
          have hg0 : (map.getD s default).state.g_cost = 0 := hgs
          have hd2 : (map.getD s default).state.dir = 2 := hds
          rw [hg0, hd2]
          have hpd0 : pdirf P 0 = 2 := rfl
          have hpc0 : pcost P 0 = 0 := rfl
          rw [hpd0, hpc0]
      · have hcg := sinv.cgood (j - 1) (by omega) (by omega)
          (by rw [← hpred]; exact hcia)
        obtain ⟨hcg1, hcg2⟩ := hcg
        rw [← hpred] at hcg1 hcg2
        rw [hcost_j]
        unfold cand mcost
        have hgvc : (map.getD ci default).state.g_cost = pcost P (j - 1) := hcg1
        have hdvc : (map.getD ci default).state.dir = pdirf P (j - 1) := hcg2
        rw [hgvc, hdvc]
    -- the new SInv
    have hSInv : SInv sx sy s e P (map.set ni nt) := by
      refine ⟨hInvMap, sinv.hse, ?_, ?_, ?_, ?_, ?_, ?_, ?_, ?_⟩
      · rw [length_set_eq]; exact sinv.hsl
      · rw [length_set_eq]; exact sinv.hel
      · exact uniq_congr sx sy (map.set ni nt) map hposv htypev s e P sinv.uniq
      · by_cases h : s = ni
        · rw [h, hdirv_ni]; exact hmd
        · rw [hdirv s h]; exact sinv.sdir
      · intro i hd
        by_cases h : i = ni
        · subst h; rw [hdirv_ni] at hd; omega
        · rw [hgv i h]
          apply sinv.zg
          rwa [hdirv i h] at hd
      · -- breal
        intro i hi hd hie
        rw [length_set_eq] at hi
        by_cases h : i = ni
        · subst h
          refine ⟨Wc ++ [md], (hwcv _ _).mpr hvext, ?_, ?_, ?_, ?_, ?_⟩
          · rw [hwci]; exact hiext
          · rw [lastFacing_concat, hdirv_ni]
          · rw [hgext, hgv_ni]
          · intro c hc
            rw [hwcc, hcext] at hc
            rcases List.mem_append.mp hc with hcm | hcm
            · obtain ⟨hc1, hc2⟩ := hWcells c hcm
              exact ⟨by rw [length_set_eq]; exact hc1, hdmono c hc2⟩
            · have hceq : c = ni := by simpa using hcm
              subst hceq
              exact ⟨by rw [length_set_eq]; exact hnb_lt,
                by rw [hdirv_ni]; exact hmd⟩
          · rw [hwcc, hcext]
            intro hc
            rcases List.mem_append.mp hc with hcm | hcm
            · exact hWe2 hcm
            · have : e = ni := by simpa using hcm
              exact hie this.symm
        · have hd_old : dirv map i < 4 := by rwa [hdirv i h] at hd
          obtain ⟨W, w1, w2, w3, w4, w5, w6⟩ := sinv.breal i hi hd_old hie
          refine ⟨W, (hwcv _ _).mpr w1, by rw [hwci]; exact w2,
            by rw [hdirv i h]; exact w3, by rw [hgv i h]; exact w4, ?_, ?_⟩
          · intro c hc
            rw [hwcc] at hc
            obtain ⟨hc1, hc2⟩ := w5 c hc
            exact ⟨by rw [length_set_eq]; exact hc1, hdmono c hc2⟩
          · rw [hwcc]; exact w6
      · -- cgood
        intro j hj1 hjk hd
        rw [hpcl] at hd ⊢
        by_cases htj : pcell sx map s P j = ni
        · have hnje : ni ≠ e := by
            rw [← htj]
            exact pcell_ne_e sx sy s e P map sinv.uniq j hjk
          by_cases hg4 : dirv map ni < 4
          · exfalso
            have hcg := sinv.cgood j hj1 hjk (by rwa [htj])
            have hgpos : 1 ≤ pcost P j := pcost_pos P j hj1 (by omega)
            have hgval : (map.getD ni default).state.g_cost = pcost P j := by
              rw [← htj] at hg4 ⊢
              exact hcg.1
            have hlt : cand map ci md < pcost P j := by
              rcases hf with h0 | hlt2
              · rw [hgval] at h0; omega
              · rwa [hgval] at hlt2
            have hge : pcost P j ≤ cand map ci md := by
              rw [← hgext]
              apply cost_ge_pcell sx sy map s e P sinv.uniq j hjk (Wc ++ [md])
                hvext (by rw [hiext, htj])
              rw [hcext, sinv.uniq.2.1]
              intro hc
              rcases List.mem_append.mp hc with hcm | hcm
              · exact hWe2 hcm
              · have : e = ni := by simpa using hcm
                exact hnje this.symm
            omega
          · -- first assignment of this path tile
            push_neg at hg4
            have hg44 : dirv map ni = 4 := by
              have := invm.dir_le ni
              omega
            have hnimem : ni ∉ walkCells sx map s Wc := by
              intro hmem
              have := (hWcells ni hmem).2
              omega
            have hcnt : (walkCells sx map s (Wc ++ [md])).count
                (pcell sx map s P j) = 1 := by
              rw [htj, hcext, List.count_append]
              rw [List.count_eq_zero.mpr hnimem]
              simp
            obtain ⟨hdec, hpred, hgd⟩ := first_touch sx sy map invm.geom s e P
              sinv.uniq sinv.hsl j hj1 (by omega) Wc md hvext
              (by rw [hiext, htj]) hcnt
              (by
                intro _
                rw [hcext, sinv.uniq.2.1]
                intro hc
                rcases List.mem_append.mp hc with hcm | hcm
                · exact hWe2 hcm
                · have : e = ni := by simpa using hcm
                  exact hnje this.symm)
            rw [hWi] at hpred
            have hcand := hkey j hj1 (by omega) htj hg44 hdec hpred
            constructor
            · rw [htj, hgv_ni, hcand]
            · rw [htj, hdirv_ni]
              unfold pdirf
              rw [hdec, lastFacing_concat]
        · rw [hgv _ htj, hdirv _ htj]
          rw [hdirv _ htj] at hd
          exact sinv.cgood j hj1 hjk hd
      · -- egood
        intro hd
        by_cases h : e = ni
        · have hPlen : 1 ≤ P.length :=
            P_ne_nil sx sy s e P map sinv.hse sinv.uniq
          have hpce : pcell sx map s P P.length = e := by
            rw [pcell_full]
            exact sinv.uniq.2.1
          by_cases hg4 : dirv map ni < 4
          · exfalso
            have hasg : dirv map e < 4 := by rwa [h]
            have hgval : (map.getD ni default).state.g_cost = pcost P P.length := by
              have := sinv.egood hasg
              rw [h] at this
              exact this
            have hgpos : 1 ≤ pcost P P.length :=
              pcost_pos P P.length hPlen (le_refl _)
            have hlt : cand map ci md < pcost P P.length := by
              rcases hf with h0 | hlt2
              · rw [hgval] at h0; omega
              · rwa [hgval] at hlt2
            have hge : pcost P P.length ≤ cand map ci md := by
              rw [← hgext]
              have := cost_ge_end sx sy map s e P sinv.uniq (Wc ++ [md])
                hvext (by rw [hiext, ← h])
              unfold pcost
              rw [List.take_length]
              exact this
            omega
          · push_neg at hg4
            have hg44 : dirv map ni = 4 := by
              have := invm.dir_le ni
              omega
            have hnimem : ni ∉ walkCells sx map s Wc := by
              intro hmem
              have := (hWcells ni hmem).2
              omega
            have hcnt : (walkCells sx map s (Wc ++ [md])).count
                (pcell sx map s P P.length) = 1 := by
              rw [hpce, h, hcext, List.count_append]
              rw [List.count_eq_zero.mpr hnimem]
              simp
            obtain ⟨hdec, hpred, hgd⟩ := first_touch sx sy map invm.geom s e P
              sinv.uniq sinv.hsl P.length hPlen (le_refl _) Wc md hvext
              (by rw [hiext, hpce, h]) hcnt
              (by intro hcon; omega)
            rw [hWi] at hpred
            have hcand := hkey P.length hPlen (le_refl _) (by rw [hpce, h])
              hg44 hdec hpred
            rw [h, hgv_ni, hcand]
        · rw [hgv _ h]
          apply sinv.egood
          rwa [hdirv _ h] at hd
    refine ⟨hSInv, ?_, length_set_eq map ni nt, htypev, hposv, hdmono, hmsr, ?_, ?_, ?_, ?_⟩
    · intro j hj
      rcases List.mem_append.mp hj with hjm | hjm
      · obtain ⟨hjl, hjd⟩ := hpq j hjm
        refine ⟨hjl, ?_⟩
        rcases hjd with hjs | hjd
        · exact Or.inl hjs
        · exact Or.inr (hdmono j hjd)
      · have : j = ni := by simpa using hjm
        subst this
        exact ⟨hnb_lt, Or.inr (by rw [hdirv_ni]; exact hmd)⟩
    · intro j hj
      exact List.mem_append.mpr (Or.inl hj)
    · intro i hd
      by_cases h : i = ni
      · subst h
        exact Or.inr (List.mem_append.mpr (Or.inr (List.mem_cons_self _ _)))
      · rw [hdirv i h] at hd
        exact Or.inl hd
    · exact hgv ci (fun h => hnb_ne h.symm)
    · exact hdirv ci (fun h => hnb_ne h.symm)

theorem npos_congr (map2 map : List tile_t)
    (hp : ∀ i, posv map2 i = posv map i) :
    ∀ i d, npos map2 i d = npos map i d := by
  intro i d
  unfold npos
  have := hp i
  unfold posv at this
  rw [this]

theorem nbidx_congr (sx : Int) (map2 map : List tile_t)
    (hp : ∀ i, posv map2 i = posv map i) :
    ∀ i d, nbidx sx map2 i d = nbidx sx map i d := by
  intro i d
  unfold nbidx
  rw [npos_congr map2 map hp]

/-- A relaxable neighbor is assigned after the relaxation step. -/
theorem try_relaxH_assign (hfn : tile_t → tile_t → Int) (sx sy : Int)
    (s e ci md : Nat) (P : List Nat) (map : List tile_t) (pq : List Nat) (sc : Int)
    (sinv : SInv sx sy s e P map)
    (hb : inb sx sy (npos map ci md))
    (hw : typev map (nbidx sx map ci md) ≠ tile_e.wall)
    (hmd : md < 4) :
    dirv (try_relaxH hfn sx sy e ci md (map, pq, sc)).1 (nbidx sx map ci md) < 4 := by
  have hbn : ¬((npos map ci md).x < 0 ∨ (npos map ci md).x ≥ sx
      ∨ (npos map ci md).y < 0 ∨ (npos map ci md).y ≥ sy) := hb
  have hnb_lt : nbidx sx map ci md < map.length :=
    nbidx_lt sx sy map sinv.inv.geom ci md hb
  by_cases hf : ((map.getD (nbidx sx map ci md) default).state.g_cost = 0
      ∨ cand map ci md < (map.getD (nbidx sx map ci md) default).state.g_cost)
  · rw [try_relaxH_fired hfn sx sy e ci md map pq sc hbn hw hf]
    dsimp only
    unfold dirv
    rw [getD_set_self _ _ _ _ hnb_lt]
    exact hmd
  · rw [try_relaxH_nofire hfn sx sy e ci md map pq sc hbn hw hf]
    dsimp only
    push_neg at hf
    have hg := hf.1
    have hle := sinv.inv.dir_le (nbidx sx map ci md)
    rcases Nat.lt_or_ge (dirv map (nbidx sx map ci md)) 4 with h4 | h4
    · exact h4
    · exfalso
      have h44 : dirv map (nbidx sx map ci md) = 4 := by omega
      have := sinv.zg _ h44
      unfold gv at this
      exact hg this

set_option maxHeartbeats 1600000 in
/-- The four-direction expansion preserves the unique-path invariant; in
addition, every relaxable neighbor of the expanded tile is assigned
afterwards. -/
theorem expand4H_inv2 (hfn : tile_t → tile_t → Int) (sx sy : Int)
    (s e ci : Nat) (P : List Nat) (map : List tile_t) (pq : List Nat) (sc : Int)
    (sinv : SInv sx sy s e P map)
    (hpq : ∀ j ∈ pq, j < map.length ∧ (j = s ∨ dirv map j < 4))
    (hci : ci < map.length) (hcia : dirv map ci < 4) (hcie : ci ≠ e)
    (hfresh : dirv map (pcell sx map s P 1) < 4
      ∨ (ci = s ∧ gv map s = 0 ∧ dirv map s = 2)) :
    SInv sx sy s e P (expand4H hfn sx sy e ci (map, pq, sc)).1
    ∧ (∀ j ∈ (expand4H hfn sx sy e ci (map, pq, sc)).2.1,
        j < map.length
          ∧ (j = s ∨ dirv (expand4H hfn sx sy e ci (map, pq, sc)).1 j < 4))
    ∧ (expand4H hfn sx sy e ci (map, pq, sc)).1.length = map.length
    ∧ (∀ i, typev (expand4H hfn sx sy e ci (map, pq, sc)).1 i = typev map i)
    ∧ (∀ i, posv (expand4H hfn sx sy e ci (map, pq, sc)).1 i = posv map i)
    ∧ (∀ i, dirv map i < 4 → dirv (expand4H hfn sx sy e ci (map, pq, sc)).1 i < 4)
    ∧ Msr (expand4H hfn sx sy e ci (map, pq, sc)).1
          (expand4H hfn sx sy e ci (map, pq, sc)).2.1 ≤ Msr map pq
    ∧ (∀ j ∈ pq, j ∈ (expand4H hfn sx sy e ci (map, pq, sc)).2.1)
    ∧ (∀ i, dirv (expand4H hfn sx sy e ci (map, pq, sc)).1 i < 4 →
        dirv map i < 4 ∨ i ∈ (expand4H hfn sx sy e ci (map, pq, sc)).2.1)
    ∧ (∀ md2, md2 < 4 → inb sx sy (npos map ci md2) →
        typev map (nbidx sx map ci md2) ≠ tile_e.wall →
        dirv (expand4H hfn sx sy e ci (map, pq, sc)).1 (nbidx sx map ci md2) < 4) := by
  have step : ∀ (md : Nat), md < 4 → ∀ (m0 : List tile_t) (p0 : List Nat) (s0 : Int),
      SInv sx sy s e P m0 →
      (∀ j ∈ p0, j < m0.length ∧ (j = s ∨ dirv m0 j < 4)) →
      ci < m0.length → dirv m0 ci < 4 →
      (dirv m0 (pcell sx m0 s P 1) < 4 ∨ (ci = s ∧ gv m0 s = 0 ∧ dirv m0 s = 2)) →
      SInv sx sy s e P (try_relaxH hfn sx sy e ci md (m0, p0, s0)).1
      ∧ (∀ j ∈ (try_relaxH hfn sx sy e ci md (m0, p0, s0)).2.1,
          j < m0.length
            ∧ (j = s ∨ dirv (try_relaxH hfn sx sy e ci md (m0, p0, s0)).1 j < 4))
      ∧ (try_relaxH hfn sx sy e ci md (m0, p0, s0)).1.length = m0.length
      ∧ (∀ i, typev (try_relaxH hfn sx sy e ci md (m0, p0, s0)).1 i = typev m0 i)
      ∧ (∀ i, posv (try_relaxH hfn sx sy e ci md (m0, p0, s0)).1 i = posv m0 i)
      ∧ (∀ i, dirv m0 i < 4 → dirv (try_relaxH hfn sx sy e ci md (m0, p0, s0)).1 i < 4)
      ∧ Msr (try_relaxH hfn sx sy e ci md (m0, p0, s0)).1
            (try_relaxH hfn sx sy e ci md (m0, p0, s0)).2.1 ≤ Msr m0 p0
      ∧ (∀ j ∈ p0, j ∈ (try_relaxH hfn sx sy e ci md (m0, p0, s0)).2.1)
      ∧ (∀ i, dirv (try_relaxH hfn sx sy e ci md (m0, p0, s0)).1 i < 4 →
          dirv m0 i < 4 ∨ i ∈ (try_relaxH hfn sx sy e ci md (m0, p0, s0)).2.1)
      ∧ gv (try_relaxH hfn sx sy e ci md (m0, p0, s0)).1 ci = gv m0 ci
      ∧ dirv (try_relaxH hfn sx sy e ci md (m0, p0, s0)).1 ci = dirv m0 ci := by
    intro md hmd m0 p0 s0 si0 hq0 hc0 hca0 hfr0
    exact try_relaxH_inv2 hfn sx sy s e ci md P m0 p0 s0 si0 hq0 hmd hc0 hca0 hcie hfr0
  have hfreshT : ∀ (m0 m1 : List tile_t),
      (∀ i, posv m1 i = posv m0 i) → (∀ i, typev m1 i = typev m0 i) →
      (∀ i, dirv m0 i < 4 → dirv m1 i < 4) →
      gv m1 ci = gv m0 ci → dirv m1 ci = dirv m0 ci →
      (dirv m0 (pcell sx m0 s P 1) < 4 ∨ (ci = s ∧ gv m0 s = 0 ∧ dirv m0 s = 2)) →
      (dirv m1 (pcell sx m1 s P 1) < 4 ∨ (ci = s ∧ gv m1 s = 0 ∧ dirv m1 s = 2)) := by
    intro m0 m1 hp ht hdm hgc hdc hfr
    rcases hfr with hfa | ⟨hcs, hgs, hds⟩
    · left
      have hpc : pcell sx m1 s P 1 = pcell sx m0 s P 1 :=
        (walk_congr sx sy m1 m0 hp ht (P.take 1) s).2.1
      rw [hpc]
      exact hdm _ hfa
    · right
      refine ⟨hcs, ?_, ?_⟩
      · rw [← hcs] at hgs ⊢
        rw [hgc, hgs]
      · rw [← hcs] at hds ⊢
        rw [hdc, hds]
  obtain ⟨i0, q0, l0, t0, p0f, d0, ms0, sub0, new0, gc0, dc0⟩ :=
    step 0 (by omega) map pq sc sinv hpq hci hcia hfresh
  rcases hr0 : try_relaxH hfn sx sy e ci 0 (map, pq, sc) with ⟨m1, pq1, sc1⟩
  rw [hr0] at i0 q0 l0 t0 p0f d0 ms0 sub0 new0 gc0 dc0
  dsimp only at i0 q0 l0 t0 p0f d0 ms0 sub0 new0 gc0 dc0
  have hf1 := hfreshT map m1 p0f t0 d0 gc0 dc0 hfresh
  obtain ⟨i1, q1, l1, t1, p1f, d1, ms1, sub1, new1, gc1, dc1⟩ :=
    step 1 (by omega) m1 pq1 sc1 i0
      (fun j hj => by
        obtain ⟨h1, h2⟩ := q0 j hj
        exact ⟨by omega, h2⟩)
      (by omega) (by rw [dc0]; exact hcia) hf1
  rcases hr1 : try_relaxH hfn sx sy e ci 1 (m1, pq1, sc1) with ⟨m2, pq2, sc2⟩
  rw [hr1] at i1 q1 l1 t1 p1f d1 ms1 sub1 new1 gc1 dc1
  dsimp only at i1 q1 l1 t1 p1f d1 ms1 sub1 new1 gc1 dc1
  have hf2 := hfreshT m1 m2 p1f t1 d1 gc1 dc1 hf1
  obtain ⟨i2, q2, l2, t2, p2f, d2, ms2, sub2, new2, gc2, dc2⟩ :=
    step 2 (by omega) m2 pq2 sc2 i1
      (fun j hj => by
        obtain ⟨h1, h2⟩ := q1 j hj
        exact ⟨by omega, h2⟩)
      (by omega) (by rw [dc1, dc0]; exact hcia) hf2
  rcases hr2 : try_relaxH hfn sx sy e ci 2 (m2, pq2, sc2) with ⟨m3, pq3, sc3⟩
  rw [hr2] at i2 q2 l2 t2 p2f d2 ms2 sub2 new2 gc2 dc2
  dsimp only at i2 q2 l2 t2 p2f d2 ms2 sub2 new2 gc2 dc2
  have hf3 := hfreshT m2 m3 p2f t2 d2 gc2 dc2 hf2
  obtain ⟨i3, q3, l3, t3, p3f, d3, ms3, sub3, new3, gc3, dc3⟩ :=
    step 3 (by omega) m3 pq3 sc3 i2
      (fun j hj => by
        obtain ⟨h1, h2⟩ := q2 j hj
        exact ⟨by omega, h2⟩)
      (by omega) (by rw [dc2, dc1, dc0]; exact hcia) hf3
  rcases hr3 : try_relaxH hfn sx sy e ci 3 (m3, pq3, sc3) with ⟨m4, pq4, sc4⟩
  rw [hr3] at i3 q3 l3 t3 p3f d3 ms3 sub3 new3 gc3 dc3
  dsimp only at i3 q3 l3 t3 p3f d3 ms3 sub3 new3 gc3 dc3
  have hfin : expand4H hfn sx sy e ci (map, pq, sc) = (m4, pq4, sc4) := by
    unfold expand4H
    rw [hr0, hr1, hr2, hr3]
  rw [hfin]
  dsimp only
  have hpos10 : ∀ i, posv m1 i = posv map i := p0f
  have hpos20 : ∀ i, posv m2 i = posv map i := fun i => (p1f i).trans (p0f i)
  have hpos30 : ∀ i, posv m3 i = posv map i := fun i => (p2f i).trans (hpos20 i)
  have hpos40 : ∀ i, posv m4 i = posv map i := fun i => (p3f i).trans (hpos30 i)
  have htyp40 : ∀ i, typev m4 i = typev map i :=
    fun i => (((t3 i).trans (t2 i)).trans (t1 i)).trans (t0 i)
  have hd40 : ∀ i, dirv map i < 4 → dirv m4 i < 4 :=
    fun i h => d3 i (d2 i (d1 i (d0 i h)))
  refine ⟨i3, ?_, by omega, htyp40, hpos40, hd40, by omega, ?_, ?_, ?_⟩
  · intro j hj
    obtain ⟨h1, h2⟩ := q3 j hj
    exact ⟨by omega, h2⟩
  · intro j hj
    exact sub3 j (sub2 j (sub1 j (sub0 j hj)))
  · intro i hd
    rcases new3 i hd with h | h
    · rcases new2 i h with h2 | h2
      · rcases new1 i h2 with h3 | h3
        · rcases new0 i h3 with h4 | h4
          · exact Or.inl h4
          · exact Or.inr (sub3 i (sub2 i (sub1 i h4)))
        · exact Or.inr (sub3 i (sub2 i h3))
      · exact Or.inr (sub3 i h2)
    · exact Or.inr h
  · intro md2 hmd2 hbv hwv
    have hnb1 : nbidx sx m1 ci md2 = nbidx sx map ci md2 := nbidx_congr sx m1 map p0f ci md2
    have hnb2 : nbidx sx m2 ci md2 = nbidx sx map ci md2 := nbidx_congr sx m2 map hpos20 ci md2
    have hnb3 : nbidx sx m3 ci md2 = nbidx sx map ci md2 := nbidx_congr sx m3 map hpos30 ci md2
    have hnp1 : npos m1 ci md2 = npos map ci md2 := npos_congr m1 map p0f ci md2
    have hnp2 : npos m2 ci md2 = npos map ci md2 := npos_congr m2 map hpos20 ci md2
    have hnp3 : npos m3 ci md2 = npos map ci md2 := npos_congr m3 map hpos30 ci md2
    interval_cases md2
    · have := try_relaxH_assign hfn sx sy s e ci 0 P map pq sc sinv hbv hwv (by omega)
      rw [hr0] at this
      dsimp only at this
      exact d3 _ (d2 _ (d1 _ this))
    · have := try_relaxH_assign hfn sx sy s e ci 1 P m1 pq1 sc1 i0
        (by rw [hnp1]; exact hbv) (by rw [hnb1, t0]; exact hwv) (by omega)
      rw [hnb1, hr1] at this
      dsimp only at this
      exact d3 _ (d2 _ this)
    · have := try_relaxH_assign hfn sx sy s e ci 2 P m2 pq2 sc2 i1
        (by rw [hnp2]; exact hbv) (by rw [hnb2, t1, t0]; exact hwv) (by omega)
      rw [hnb2, hr2] at this
      dsimp only at this
      exact d3 _ this
    · have := try_relaxH_assign hfn sx sy s e ci 3 P m3 pq3 sc3 i2
        (by rw [hnp3]; exact hbv) (by rw [hnb3, t2, t1, t0]; exact hwv) (by omega)
      rw [hnb3, hr3] at this
      dsimp only at this
      exact this

theorem pq_pop_keep (map : List tile_t) (pq : List Nat) (ci : Nat) (pq2 : List Nat)
    (h : pq_pop map pq = some (ci, pq2)) :
    ∀ j ∈ pq, j ≠ ci → j ∈ pq2 := by
  cases pq with
  | nil => simp [pq_pop] at h
  | cons hd tl =>
    unfold pq_pop at h
    dsimp only at h
    injection h with h
    injection h with h1 h2
    intro j hj hne
    rw [← h2]
    rw [← h1] at hne
    exact (List.mem_erase_of_ne hne).mpr hj

theorem pq_pop_none (map : List tile_t) (pq : List Nat)
    (h : pq_pop map pq = none) : pq = [] := by
  cases pq with
  | nil => rfl
  | cons hd tl => simp [pq_pop] at h

/-- The full unique-path search invariant: the map part plus the frontier
progress facts (the first path tile is assigned unless the frontier is still
the untouched initial one; an assigned path tile whose successor is
unassigned is still on the frontier; an assigned end is on the frontier). -/
structure FInv (sx sy : Int) (s e : Nat) (P : List Nat)
    (map : List tile_t) (pq : List Nat) : Prop where
  m : SInv sx sy s e P map
  pqm : ∀ j ∈ pq, j < map.length ∧ (j = s ∨ dirv map j < 4)
  fone : dirv map (pcell sx map s P 1) < 4
    ∨ (gv map s = 0 ∧ dirv map s = 2 ∧ pq = [s])
  gprog : ∀ j, j < P.length → dirv map (pcell sx map s P j) < 4 →
    dirv map (pcell sx map s P (j + 1)) = 4 → pcell sx map s P j ∈ pq
  hend : dirv map e < 4 → e ∈ pq

/-- The step conditions of the path's move `j`, read off the path validity. -/
theorem path_step_facts (sx sy : Int) (map : List tile_t) (s : Nat) (P : List Nat)
    (hv : walkValid sx sy map s P) (j : Nat) (hj : j < P.length) :
    P.getD j 0 < 4
    ∧ inb sx sy (npos map (pcell sx map s P j) (P.getD j 0))
    ∧ typev map (nbidx sx map (pcell sx map s P j) (P.getD j 0)) ≠ tile_e.wall
    ∧ nbidx sx map (pcell sx map s P j) (P.getD j 0) = pcell sx map s P (j + 1) := by
  unfold pcell
  have hsplit : walkValid sx sy map s (P.take j)
      ∧ walkValid sx sy map (walkIdx sx map s (P.take j)) (P.drop j) := by
    rw [← walkValid_append, List.take_append_drop]
    exact hv
  have hdrop : P.drop j = P.getD j 0 :: P.drop (j + 1) := drop_getD_cons P j hj
  have hv2 := hsplit.2
  rw [hdrop] at hv2
  obtain ⟨h1, h2, h3, _⟩ := hv2
  refine ⟨h1, h2, h3, ?_⟩
  rw [take_succ_getD P j hj, walkIdx_append]
  rfl

set_option maxHeartbeats 1600000 in
/-- The parameterized search loop on a unique-path maze: with enough fuel it
always terminates by popping the end tile, and the reported cost is exactly
the cost of the unique path — whatever the heuristic. -/
theorem solve_loopH_opt (hfn : tile_t → tile_t → Int) (sx sy : Int)
    (s e : Nat) (P : List Nat) : ∀ (fuel : Nat)
    (map : List tile_t) (pq : List Nat) (sc : Int),
    FInv sx sy s e P map pq → Msr map pq < fuel →
    ∃ map2 sc2, solve_loopH hfn sx sy e fuel map pq sc
        = some (map2, sc2, walkCost 2 P)
      ∧ InvMap sx sy s map2
      ∧ (∀ i, typev map2 i = typev map i)
      ∧ (∀ i, posv map2 i = posv map i)
      ∧ map2.length = map.length
      ∧ dirv map2 e < 4 := by
  intro fuel
  induction fuel with
  | zero => intro map pq sc finv hm; omega
  | succ fuel ih =>
    intro map pq sc finv hm
    cases hp : pq_pop map pq with
    | none =>
      exfalso
      have hpq0 : pq = [] := pq_pop_none map pq hp
      have hall : ∀ j, j ≤ P.length → dirv map (pcell sx map s P j) < 4 := by
        intro j
        induction j with
        | zero =>
          intro _
          rw [pcell_zero]
          exact finv.m.sdir
        | succ j ihj =>
          intro hj
          have hdj := ihj (by omega)
          have hle := finv.m.inv.dir_le (pcell sx map s P (j + 1))
          rcases Nat.lt_or_ge (dirv map (pcell sx map s P (j + 1))) 4 with h4 | h4
          · exact h4
          · exfalso
            have h44 : dirv map (pcell sx map s P (j + 1)) = 4 := by omega
            have := finv.gprog j (by omega) hdj h44
            rw [hpq0] at this
            simp at this
      have hPe : pcell sx map s P P.length = e := by
        rw [pcell_full]
        exact finv.m.uniq.2.1
      have hde : dirv map e < 4 := by
        have := hall P.length (le_refl _)
        rwa [hPe] at this
      have := finv.hend hde
      rw [hpq0] at this
      simp at this
    | some v =>
      obtain ⟨ci, pq2⟩ := v
      obtain ⟨hmem, hlen, hsub⟩ := pq_pop_some map pq ci pq2 hp
      obtain ⟨hcil, hcid⟩ := finv.pqm ci hmem
      have hcia : dirv map ci < 4 := by
        rcases hcid with h | h
        · rw [h]; exact finv.m.sdir
        · exact h
      by_cases hce : ci = e
      · -- the end tile is popped: its g-cost is the unique path cost
        have hde : dirv map e < 4 := by rwa [hce] at hcia
        have hgeq : (map.getD ci default).state.g_cost = walkCost 2 P := by
          have := finv.m.egood hde
          unfold gv at this
          rw [hce]
          rw [this]
          unfold pcost
          rw [List.take_length]
        refine ⟨map, sc, ?_, finv.m.inv, fun i => rfl, fun i => rfl, rfl, hde⟩
        rw [solve_loopH_succ, hp]
        dsimp only
        rw [if_pos hce, hgeq]
      · -- a non-end tile is popped and expanded
        have hfresh : dirv map (pcell sx map s P 1) < 4
            ∨ (ci = s ∧ gv map s = 0 ∧ dirv map s = 2) := by
          rcases finv.fone with hfa | ⟨hgs, hds, hpqs⟩
          · exact Or.inl hfa
          · right
            rw [hpqs] at hp
            unfold pq_pop at hp
            dsimp only at hp
            injection hp with hp
            injection hp with h1 h2
            exact ⟨h1.symm, hgs, hds⟩
        have hpq2 : ∀ j ∈ pq2, j < map.length ∧ (j = s ∨ dirv map j < 4) :=
          fun j hj => finv.pqm j (hsub j hj)
        obtain ⟨einv, epqm, elen, etyp, epos, emono, emsr, esub, enew, eassign⟩ :=
          expand4H_inv2 hfn sx sy s e ci P map pq2 sc finv.m hpq2 hcil hcia hce hfresh
        rcases hre : expand4H hfn sx sy e ci (map, pq2, sc) with ⟨m1, pq1, sc1⟩
        rw [hre] at einv epqm elen etyp epos emono emsr esub enew eassign
        dsimp only at einv epqm elen etyp epos emono emsr esub enew eassign
        have hpcl : ∀ j, pcell sx m1 s P j = pcell sx map s P j :=
          fun j => (walk_congr sx sy m1 map epos etyp (P.take j) s).2.1
        have hunm : ∀ i, dirv m1 i = 4 → dirv map i = 4 := by
          intro i h
          have hle := finv.m.inv.dir_le i
          rcases Nat.lt_or_ge (dirv map i) 4 with h4 | h4
          · have := emono i h4
            omega
          · omega
        have hfinv1 : FInv sx sy s e P m1 pq1 := by
          refine ⟨einv, ?_, ?_, ?_, ?_⟩
          · intro j hj
            obtain ⟨h1, h2⟩ := epqm j hj
            exact ⟨by omega, h2⟩
          · left
            rcases hfresh with hfa | ⟨hcs, hgs, hds⟩
            · rw [hpcl]
              exact emono _ hfa
            · have hP1 : 1 ≤ P.length :=
                P_ne_nil sx sy s e P map finv.m.hse finv.m.uniq
              obtain ⟨hs1, hs2, hs3, hs4⟩ :=
                path_step_facts sx sy map s P finv.m.uniq.1 0 (by omega)
              rw [pcell_zero] at hs2 hs3 hs4
              have := eassign (P.getD 0 0) hs1 (by rw [hcs]; exact hs2)
                (by rw [hcs]; exact hs3)
              rw [hcs, hs4] at this
              rw [hpcl]
              simpa using this
          · intro j hjk hdj hdj2
            rw [hpcl] at hdj hdj2 ⊢
            have hdj2pre : dirv map (pcell sx map s P (j + 1)) = 4 := hunm _ hdj2
            rcases Nat.lt_or_ge (dirv map (pcell sx map s P j)) 4 with hpre | hpre
            · have hinpq : pcell sx map s P j ∈ pq := finv.gprog j hjk hpre hdj2pre
              by_cases htjci : pcell sx map s P j = ci
              · exfalso
                obtain ⟨hs1, hs2, hs3, hs4⟩ :=
                  path_step_facts sx sy map s P finv.m.uniq.1 j hjk
                rw [htjci] at hs2 hs3 hs4
                have := eassign (P.getD j 0) hs1 hs2 hs3
                rw [hs4] at this
                omega
              · exact esub _ (pq_pop_keep map pq ci pq2 hp _ hinpq htjci)
            · have hpre4 : dirv map (pcell sx map s P j) = 4 := by
                have := finv.m.inv.dir_le (pcell sx map s P j)
                omega
              rcases enew _ hdj with h | h
              · omega
              · exact h
          · intro hde
            rcases Nat.lt_or_ge (dirv map e) 4 with hpre | hpre
            · have hinpq : e ∈ pq := finv.hend hpre
              exact esub _ (pq_pop_keep map pq ci pq2 hp _ hinpq (fun h => hce h.symm))
            · rcases enew _ hde with h | h
              · omega
              · exact h
        have hmsr_pop : Msr map pq2 + 1 = Msr map pq := by
          unfold Msr
          omega
        have hm1 : Msr m1 pq1 < fuel := by omega
        obtain ⟨map2, sc2, heq, k1, k2, k3, k4, k5⟩ := ih m1 pq1 sc1 hfinv1 hm1
        refine ⟨map2, sc2, ?_, k1, fun i => (k2 i).trans (etyp i),
          fun i => (k3 i).trans (epos i), by omega, k5⟩
        rw [solve_loopH_succ, hp]
        dsimp only
        rw [if_neg hce, hre]
        exact heq

/-- State of the initial search map: positions as loaded, the start facing
east, everything else unassigned, all g-costs zero. -/
theorem init_facts (l : List tile_t) (si : Nat) (hsil : si < l.length) :
    (∀ i, posv ((l.map reset_tile).set si
        { (l.map reset_tile).getD si default with
          state := { ((l.map reset_tile).getD si default).state with dir := 2 } }) i
      = posv l i)
    ∧ (∀ i, dirv ((l.map reset_tile).set si
        { (l.map reset_tile).getD si default with
          state := { ((l.map reset_tile).getD si default).state with dir := 2 } }) i
      = if i = si then 2 else 4)
    ∧ (∀ i, gv ((l.map reset_tile).set si
        { (l.map reset_tile).getD si default with
          state := { ((l.map reset_tile).getD si default).state with dir := 2 } }) i
      = 0) := by
  set st := (l.map reset_tile).getD si default with hst
  set st2 : tile_t := { st with state := { st.state with dir := 2 } } with hst2
  set map1 := (l.map reset_tile).set si st2 with hmap1
  have hlen0 : (l.map reset_tile).length = l.length := List.length_map _ _
  have hlen1 : map1.length = l.length := by
    rw [hmap1, length_set_eq, hlen0]
  have hsil0 : si < (l.map reset_tile).length := by rwa [hlen0]
  have hget_si : map1.getD si default = st2 := by
    rw [hmap1]; exact getD_set_self _ _ _ _ hsil0
  have hget_ne : ∀ j, j ≠ si → map1.getD j default
      = reset_tile (l.getD j default) := by
    intro j hj
    rw [hmap1, getD_set_ne _ _ _ _ _ (fun h => hj h.symm), getD_map_reset]
  have hst_val : st = reset_tile (l.getD si default) := by
    rw [hst, getD_map_reset]
  refine ⟨?_, ?_, ?_⟩
  · intro i
    by_cases hi : i < l.length
    · by_cases h : i = si
      · subst h
        unfold posv
        rw [hget_si, hst2, hst_val]
        rfl
      · unfold posv
        rw [hget_ne i h]
        rfl
    · unfold posv
      rw [List.getD_eq_default _ _ (by omega : map1.length ≤ i),
        List.getD_eq_default _ _ (by omega : l.length ≤ i)]
  · intro i
    by_cases h : i = si
    · subst h
      rw [if_pos rfl]
      unfold dirv
      rw [hget_si]
    · rw [if_neg h]
      by_cases hi : i < l.length
      · unfold dirv
        rw [hget_ne i h]
        rfl
      · unfold dirv
        rw [List.getD_eq_default _ _ (by omega : map1.length ≤ i)]
        rfl
  · intro i
    by_cases h : i = si
    · subst h
      unfold gv
      rw [hget_si, hst2, hst_val]
      rfl
    · by_cases hi : i < l.length
      · unfold gv
        rw [hget_ne i h]
        rfl
      · unfold gv
        rw [List.getD_eq_default _ _ (by omega : map1.length ≤ i)]
        rfl

/-- The unique-path invariant holds for the initial search state. -/
theorem FInv_init (file : Option (List (List Char))) (m : maze_t)
    (si ei : Nat) (P : List Nat)
    (hload : maze_t.load file = .ok m)
    (hsil : si < m.map.length) (heil : ei < m.map.length)
    (hse : si ≠ ei)
    (hu : UniqueWalk m.size.x m.size.y m.map si ei P) :
    FInv m.size.x m.size.y si ei P
      ((m.map.map reset_tile).set si
        { (m.map.map reset_tile).getD si default with
          state := { ((m.map.map reset_tile).getD si default).state with dir := 2 } })
      [si] := by
  obtain ⟨init_inv, init_len, init_types, init_g⟩ := solve_init file m si hload hsil
  obtain ⟨hposf, hdirf, hgf⟩ := init_facts m.map si hsil
  set map1 := (m.map.map reset_tile).set si
      { (m.map.map reset_tile).getD si default with
        state := { ((m.map.map reset_tile).getD si default).state with dir := 2 } }
    with hmap1
  have huniq1 : UniqueWalk m.size.x m.size.y map1 si ei P :=
    uniq_congr m.size.x m.size.y map1 m.map hposf init_types si ei P hu
  have hd4 : ∀ i, i ≠ si → dirv map1 i = 4 := by
    intro i h
    rw [hdirf i, if_neg h]
  have hdsi : dirv map1 si = 2 := by
    rw [hdirf si, if_pos rfl]
  refine ⟨⟨init_inv.1, hse, by omega, by omega, huniq1, ?_, ?_, ?_, ?_, ?_⟩,
    ?_, ?_, ?_, ?_⟩
  · rw [hdsi]; omega
  · intro i _
    exact hgf i
  · intro i hi hd hie
    have hisi : i = si := by
      by_contra h
      rw [hd4 i h] at hd
      omega
    subst hisi
    refine ⟨[], trivial, rfl, ?_, ?_, ?_, ?_⟩
    · show (2 : Nat) = dirv map1 i
      rw [hdsi]
    · show (0 : Int) = gv map1 i
      rw [hgf]
    · intro c hc
      have hc2 : c = i := by simpa [walkCells] using hc
      subst hc2
      exact ⟨hi, by rw [hdsi]; omega⟩
    · intro hc
      have : ei = i := by simpa [walkCells] using hc
      exact hse this.symm
  · intro j hj1 hjk hd
    exfalso
    have hne : pcell m.size.x map1 si P j ≠ si :=
      pcell_ne_s m.size.x m.size.y si ei P map1 huniq1 j hj1 (by omega)
    rw [hd4 _ hne] at hd
    omega
  · intro hd
    exfalso
    rw [hd4 ei (fun h => hse h.symm)] at hd
    omega
  · intro j hj
    have : j = si := by simpa using hj
    subst this
    exact ⟨by omega, Or.inl rfl⟩
  · right
    exact ⟨hgf si, hdsi, rfl⟩
  · intro j hjk hdj hdj2
    have hj0 : j = 0 := by
      by_contra hne
      have h1 : 1 ≤ j := by omega
      have hps : pcell m.size.x map1 si P j ≠ si :=
        pcell_ne_s m.size.x m.size.y si ei P map1 huniq1 j h1 (by omega)
      rw [hd4 _ hps] at hdj
      omega
    subst hj0
    rw [pcell_zero]
    exact List.mem_singleton.mpr rfl
  · intro hd
    exfalso
    rw [hd4 ei (fun h => hse h.symm)] at hd
    omega

set_option maxHeartbeats 1600000 in
/-- C1: on every loaded maze whose located start and end are joined by a
unique duplicate-free valid walk `P`, the completed solve reports exactly
the cost of `P` — the number of forward moves plus 1000 per direction
change — no valid move sequence from start to end is cheaper, and this
holds for every heuristic function; the program's own heuristic (for which
the parameterized solve is exactly `maze_t::solve`) only influences the
order and count of expansions, never the reported minimum. -/
theorem C1_unique_path_optimal (file : Option (List (List Char))) (m : maze_t)
    (si ei : Nat) (P : List Nat) (hfn : tile_t → tile_t → Int)
    (fuel : Nat) (t : Int)
    (hload : maze_t.load file = .ok m)
    (hsiv : last_index_of is_start m.map = (si : Int))
    (heiv : last_index_of is_end m.map = (ei : Int))
    (hu : UniqueWalk m.size.x m.size.y m.map si ei P)
    (hfuel : fuelBound m ≤ fuel) :
    ∃ m2 : maze_t,
      maze_t.solveH hfn fuel t m = some (.ok (m2, []))
      ∧ m2.path_cost = walkCost 2 P
      ∧ walkCost 2 P = (P.length : Int) + 1000 * dirChanges 2 P
      ∧ (∀ Q, walkValid m.size.x m.size.y m.map si Q →
          walkIdx m.size.x m.map si Q = ei → walkCost 2 P ≤ walkCost 2 Q)
      ∧ maze_t.solveH heuristic fuel t m = m.solve fuel t := by
  have hloc : locate (m.map.map reset_tile)
      = (last_index_of is_start m.map, last_index_of is_end m.map) := by
    rw [locate_eq_last_index,
        last_index_of_reset is_start (fun t => rfl),
        last_index_of_reset is_end (fun t => rfl)]
  rcases last_index_of_spec is_start m.map with hsp | ⟨hsp0, hsp1, hsp2⟩
  · rw [hsiv] at hsp
    omega
  rcases last_index_of_spec is_end m.map with hep | ⟨hep0, hep1, hep2⟩
  · rw [heiv] at hep
    omega
  have hsil : si < m.map.length := by
    rw [hsiv] at hsp1
    exact_mod_cast hsp1
  have heil : ei < m.map.length := by
    rw [heiv] at hep1
    exact_mod_cast hep1
  have htys : typev m.map si = tile_e.start := by
    rw [hsiv, Int.toNat_natCast] at hsp2
    unfold is_start at hsp2
    rw [decide_eq_true_eq] at hsp2
    exact hsp2
  have htye : typev m.map ei = tile_e.end_ := by
    rw [heiv, Int.toNat_natCast] at hep2
    unfold is_end at hep2
    rw [decide_eq_true_eq] at hep2
    exact hep2
  have hse : si ≠ ei := by
    intro hco
    rw [hco, htye] at htys
    exact absurd htys (by simp)
  have hfinv := FInv_init file m si ei P hload hsil heil hse hu
  obtain ⟨init_inv, init_len, init_types, init_g⟩ := solve_init file m si hload hsil
  have hmsr : Msr ((m.map.map reset_tile).set si
      { (m.map.map reset_tile).getD si default with
        state := { ((m.map.map reset_tile).getD si default).state with dir := 2 } })
      [si] < fuelBound m := by
    unfold Msr fuelBound
    rw [gsum_const _ _ init_g, init_len]
    simp only [List.length_cons, List.length_nil]
    unfold Bnd
    have hra : 2 * (m.map.length * (1001 * m.map.length + 1))
        = 2 * m.map.length * (1001 * m.map.length + 1) := by ring
    omega
  have hmsr2 : Msr ((m.map.map reset_tile).set si
      { (m.map.map reset_tile).getD si default with
        state := { ((m.map.map reset_tile).getD si default).state with dir := 2 } })
      [si] < fuel := by omega
  obtain ⟨map2, sc2, heq, linv, ltypes, lposs, llen, lheid⟩ :=
    solve_loopH_opt hfn m.size.x m.size.y si ei P fuel _ [si] 1 hfinv hmsr2
  have hP1 : 1 ≤ P.length := P_ne_nil m.size.x m.size.y si ei P m.map hse hu
  have hcpos : 1 ≤ walkCost 2 P := by
    have := walkCost_ge_len P 2
    omega
  have hcne : ¬ walkCost 2 P = -1 := by omega
  have hlen2 : map2.length = m.map.length := by rw [llen, init_len]
  have hglt : (gv map2 ei).toNat < fuel := by
    have hb := linv.g_bound ei
    have hA : (assigned map2 : Int) ≤ (map2.length : Int) := by
      exact_mod_cast List.countP_le_length _
    rw [hlen2] at hA
    have hfb : (gv map2 ei).toNat < fuelBound m := by
      unfold fuelBound
      have hNN : (0 : Int) ≤ (m.map.length : Int) := by positivity
      nlinarith [Int.toNat_of_nonneg (linv.g_nonneg ei), linv.g_nonneg ei]
    omega
  have hterm := mark_path_term si fuel map2 ei
    (fun i => Or.inl (linv.dir_le i))
    (fun i hi hl => by
      rw [lown_eq_of_le _ (linv.dir_le i)] at hl
      rcases linv.parent i hi hl with hp | ⟨hp1, hp2, hp3⟩
      · exact Or.inl hp
      · exact Or.inr ⟨by rw [lown_eq_of_le _ (linv.dir_le _)]; exact hp1, hp2, hp3⟩)
    linv.g_nonneg
    (fun h => hse h.symm)
    (by rw [lown_eq_of_le _ (linv.dir_le ei)]; exact lheid)
    (by rw [hlen2]; exact heil)
    hglt
  cases hmark : mark_path fuel map2 ei si with
  | none => exact absurd hmark hterm
  | some map3 =>
    refine ⟨{ m with map := map3, solve_time := t, search_count := sc2, path_cost := walkCost 2 P }, ?_, rfl, walkCost_formula P 2, ?_, solveH_heuristic fuel t m⟩
    · simp only [maze_t.solveH]
      rw [hloc]
      dsimp only
      rw [hsiv, heiv]
      rw [if_neg (by
        intro hco
        rcases hco with hco | hco <;> omega)]
      simp only [Int.toNat_natCast]
      rw [heq]
      dsimp only
      rw [if_neg hcne, hmark]
    · intro Q hQv hQe
      exact cost_ge_end m.size.x m.size.y m.map si ei P hu Q hQv hQe

instance (sx sy : Int) (p : ivec2) : Decidable (inb sx sy p) := by
  unfold inb
  infer_instance

/-- The maze `SE` as loaded: a concrete unique-path example. -/
def se_maze : maze_t :=
  { size := ⟨2, 1⟩, map := load_tiles 0 [['S', 'E']] }

/-- In the maze `SE` the single east move is the unique duplicate-free walk
from the start to the end. -/
theorem se_unique :
    UniqueWalk 2 1 (load_tiles 0 [['S', 'E']]) 0 1 [2] := by
  refine ⟨⟨by omega, by decide, by decide, trivial⟩, by decide, by decide, ?_⟩
  intro Q hv he hn
  cases Q with
  | nil => exact absurd he (by decide)
  | cons d r =>
    obtain ⟨hd4, hb, hw, hv2⟩ := hv
    interval_cases d
    · exact absurd hb (by decide)
    · exact absurd hb (by decide)
    · cases r with
      | nil => rfl
      | cons d2 r2 =>
        obtain ⟨hd24, hb2, hw2, hv3⟩ := hv2
        interval_cases d2
        · exact absurd hb2 (by decide)
        · exact absurd hb2 (by decide)
        · exact absurd hb2 (by decide)
        · exfalso
          have hcells : walkCells 2 (load_tiles 0 [['S', 'E']]) 0 (2 :: 3 :: r2)
              = 0 :: 1 :: walkCells 2 (load_tiles 0 [['S', 'E']]) 0 r2 := rfl
          rw [hcells, List.nodup_cons] at hn
          exact hn.1 (List.mem_cons_of_mem 1
            (start_mem_cells 2 (load_tiles 0 [['S', 'E']]) 0 r2))
    · exact absurd hb (by decide)

/-- Witness for C1 on the maze `SE`: the solve (with the program's own
heuristic) reports cost 1 — one forward move, no turn — and no cheaper
move sequence exists. -/
theorem C1_unique_path_optimal_witness :
    ∃ m2 : maze_t,
      maze_t.solveH heuristic (fuelBound se_maze) 0 se_maze = some (.ok (m2, []))
      ∧ m2.path_cost = walkCost 2 [2]
      ∧ walkCost 2 [2] = (([2] : List Nat).length : Int) + 1000 * dirChanges 2 [2]
      ∧ (∀ Q, walkValid se_maze.size.x se_maze.size.y se_maze.map 0 Q →
          walkIdx se_maze.size.x se_maze.map 0 Q = 1 →
          walkCost 2 [2] ≤ walkCost 2 Q)
      ∧ maze_t.solveH heuristic (fuelBound se_maze) 0 se_maze
          = se_maze.solve (fuelBound se_maze) 0 :=
  C1_unique_path_optimal (some [['S', 'E']]) se_maze 0 1 [2] heuristic
    (fuelBound se_maze) 0 (by rfl) (by decide) (by decide) se_unique (le_refl _)

end AoC16
